import Mathlib

/-!
Verification of the batched Merkle commitment/decommitment engine
(grouped and lifted variants) and the FRI fold-step decommitment builder
of the stwo test-vector generator (`tools/stwo-vector-gen/src/main.rs`).

Field elements are opaque to the commitment engine (only equality is
used), so base-field values are modelled as `Nat` and secure-field
values as 4-tuples of `Nat`.  The external collision-resistant hash is
modelled as a free (injective) constructor over its inputs, which is the
standard idealisation of a collision-resistant hash.

Loops whose termination is not structural are written with an explicit
fuel parameter (initialised by the wrapper to a bound on the number of
iterations, which each iteration strictly decreases), so that every
definition is kernel-computable.
-/

namespace Stwo

/-- Rust `usize::ilog2` (floor base-2 logarithm), with fuel. -/
def ilog2Go : Nat → Nat → Nat
  | 0, _ => 0
  | fuel + 1, n => if n ≤ 1 then 0 else ilog2Go fuel (n / 2) + 1

/-- Rust `usize::ilog2` (floor base-2 logarithm). -/
def ilog2 (n : Nat) : Nat := ilog2Go n n

/-- The index re-mapping `(i >> (d+1) << 1) + (i & 1)` used both by the
lifted leaf-folding widening step and by the global-position-to-local-index
mapping of `build_vcs_lifted_base_case`. -/
def shuffleIdx (d i : Nat) : Nat := ((i >>> (d + 1)) <<< 1) + (i &&& 1)

/-- Hashes of the lifted scheme (`Blake2sHash` produced by
`LiftedMerkleHasher`), modelled as a free hash: `leaf` is
`finalize` of a hasher state that absorbed the given value list, `node`
is `hash_children`. -/
inductive LHash where
  | leaf : List Nat → LHash
  | node : LHash → LHash → LHash
deriving DecidableEq

instance : Inhabited LHash := ⟨LHash.leaf []⟩

/-- A `LiftedMerkleHasher` leaf state: the list of values absorbed by
`update_leaf` so far (`default_with_initial_state` is the empty list). -/
abbrev LState := List Nat

/-- One absorb pass of `build_vcs_lifted_leaves`:
`for (i, hasher) in prev_layer.iter_mut().enumerate() { hasher.update_leaf(&[column[i]]) }`. -/
def absorbColumn (states : List LState) (col : List Nat) : List LState :=
  (List.range states.length).map fun i => states.getD i [] ++ [col.getD i 0]

/-- The inner group loop of `build_vcs_lifted_leaves`: absorb columns while
their log-size equals `L` (the `group_start..group_end` run), returning the
new states and the remaining columns. -/
def absorbWhile (L : Nat) : List (List Nat) → List LState → List LState × List (List Nat)
  | [], states => (states, [])
  | c :: rest, states =>
      if ilog2 c.length = L then absorbWhile L rest (absorbColumn states c)
      else (states, c :: rest)

/-- The widening step of `build_vcs_lifted_leaves`:
`prev_layer = (0..(1 << log_size)).map(|idx| prev_layer[(idx >> (log_ratio+1) << 1) + (idx & 1)])`. -/
def widenStates (states : List LState) (ratio width : Nat) : List LState :=
  (List.range width).map fun idx => states.getD (shuffleIdx ratio idx) []

/-- The group loop of `build_vcs_lifted_leaves` (fuel: one column run is
consumed per iteration): for each run of columns of equal log-size, widen
the state array to that width, then absorb every column of the run. -/
def liftedLeavesGo : Nat → List (List Nat) → List LState → Nat → List LState
  | _, [], states, _ => states
  | 0, _ :: _, states, _ => states
  | fuel + 1, c :: rest, states, prevLog =>
      liftedLeavesGo fuel
        (absorbWhile (ilog2 c.length) (c :: rest)
          (widenStates states (ilog2 c.length - prevLog) (2 ^ ilog2 c.length))).2
        (absorbWhile (ilog2 c.length) (c :: rest)
          (widenStates states (ilog2 c.length - prevLog) (2 ^ ilog2 c.length))).1
        (ilog2 c.length)

/-- `build_vcs_lifted_leaves`: fold all (sorted) columns into one leaf layer,
starting from two placeholder hash states of width `2^1`, then finalize. -/
def buildLiftedLeaves (cols : List (List Nat)) : List LHash :=
  match cols with
  | [] => [LHash.leaf []]
  | _ => (liftedLeavesGo cols.length cols [[], []] 1).map LHash.leaf

/-- One binary-tree layer step of `build_vcs_lifted_base_case`:
`(0..(prev.len() >> 1)).map(|i| hash_children((prev[2*i], prev[2*i+1])))`. -/
def halveLayer (l : List LHash) : List LHash :=
  (List.range (l.length >>> 1)).map fun i =>
    LHash.node (l.getD (2 * i) default) (l.getD (2 * i + 1) default)

theorem halveLayer_length (l : List LHash) : (halveLayer l).length = l.length >>> 1 := by
  simp [halveLayer]

/-- The `while layers.last().len() > 1` halving loop, with fuel. -/
def liftedRootGo : Nat → List LHash → LHash
  | 0, l => l.getD 0 default
  | fuel + 1, l => if l.length ≤ 1 then l.getD 0 default else liftedRootGo fuel (halveLayer l)

/-- The commitment root: repeatedly halve the layer until one hash remains
(the source builds the full `layers` vector and takes `layers[0][0]`). -/
def liftedRootOf (l : List LHash) : LHash := liftedRootGo l.length l

def liftedMaxLogGo : Nat → List LHash → Nat
  | 0, _ => 0
  | fuel + 1, l => if l.length ≤ 1 then 0 else liftedMaxLogGo fuel (halveLayer l) + 1

/-- `layers.len() - 1` of the source (`max_layer_log_size`): the number of
halving steps until a single hash remains. -/
def liftedMaxLog (l : List LHash) : Nat := liftedMaxLogGo l.length l

/-- One layer of the lifted hash-witness walk (`build_vcs_lifted_base_case`
lines 1545-1559, duplicated in `compute_fri_layer_decommit_outputs`): walk
the sorted known indices; a sibling pair `(first, first^1)` consumes no
witness, a lone index emits its sibling's hash; parents `first >> 1` form
the next layer's known indices.  Returns `(emitted witness, next queries)`. -/
def liftedLayerWalk (hashes : List LHash) : List Nat → List LHash × List Nat
  | [] => ([], [])
  | [a] => ([hashes.getD (a ^^^ 1) default], [a / 2])
  | a :: b :: rest2 =>
      if a ^^^ 1 = b then
        ((liftedLayerWalk hashes rest2).1, a / 2 :: (liftedLayerWalk hashes rest2).2)
      else
        (hashes.getD (a ^^^ 1) default :: (liftedLayerWalk hashes (b :: rest2)).1,
         a / 2 :: (liftedLayerWalk hashes (b :: rest2)).2)

/-- The per-layer loop of the lifted hash-witness construction, with fuel. -/
def liftedWitnessLoop : Nat → List LHash → List Nat → List LHash
  | 0, _, _ => []
  | fuel + 1, l, qs =>
      if l.length ≤ 1 then []
      else (liftedLayerWalk l qs).1 ++ liftedWitnessLoop fuel (halveLayer l) (liftedLayerWalk l qs).2

/-- The full lifted hash-witness: iterate `liftedLayerWalk` from the leaf
layer up to (but excluding) the root layer. -/
def liftedWitnessGo (l : List LHash) (qs : List Nat) : List LHash :=
  liftedWitnessLoop l.length l qs

/-- Rust `Vec::dedup`: remove *consecutive* duplicates
(`prev_layer_queries.dedup()` in the source). -/
def vecDedup : List Nat → List Nat
  | [] => []
  | [a] => [a]
  | a :: b :: rest => if a = b then vecDedup (b :: rest) else a :: vecDedup (b :: rest)

/-- The sort key order of `sorted_indices.sort_by_key(|&i| (column_log_sizes[i], i))`:
lexicographic on `(log size, original index)`. -/
def keyRel (Ls : List Nat) (i j : Nat) : Prop :=
  Ls.getD i 0 < Ls.getD j 0 ∨ (Ls.getD i 0 = Ls.getD j 0 ∧ i ≤ j)

instance (Ls : List Nat) : DecidableRel (keyRel Ls) := fun i j => by
  unfold keyRel; infer_instance

/-- Column indices sorted by `(log size, index)`.  The key is injective and
totally ordered, so any sorting algorithm produces the one sorted
permutation that Rust's stable `sort_by_key` produces. -/
def sortedIndices (Ls : List Nat) : List Nat :=
  (List.range Ls.length).insertionSort (keyRel Ls)

/-- The columns in absorb order (`sorted_columns` of the source). -/
def liftedSortedCols (cols : List (List Nat)) (Ls : List Nat) : List (List Nat) :=
  (sortedIndices Ls).map fun i => cols.getD i []

def liftedLeaves (cols : List (List Nat)) (Ls : List Nat) : List LHash :=
  buildLiftedLeaves (liftedSortedCols cols Ls)

def liftedRoot (cols : List (List Nat)) (Ls : List Nat) : LHash :=
  liftedRootOf (liftedLeaves cols Ls)

/-- `queried_values` of `build_vcs_lifted_base_case`: per column (in
commitment order), the value at local index
`(pos >> (shift+1) << 1) + (pos & 1)`, `shift = max_layer_log_size - log_size`,
for every query position. -/
def liftedQueriedValues (cols : List (List Nat)) (Ls : List Nat) (qs : List Nat) :
    List (List Nat) :=
  cols.map fun col =>
    qs.map fun p =>
      col.getD (shuffleIdx (liftedMaxLog (liftedLeaves cols Ls) - ilog2 col.length) p) 0

/-- `hash_witness` of `build_vcs_lifted_base_case`. -/
def liftedHashWitness (cols : List (List Nat)) (Ls : List Nat) (qs : List Nat) :
    List LHash :=
  liftedWitnessGo (liftedLeaves cols Ls) (vecDedup qs)

/-! ## Lifted verifier

The lifted verifier (`MerkleVerifierLifted::verify`) lives in the external
`stwo` crate, outside this repository's sources.  It is modelled from the
spec (sections 4.2/4.3 and 7). -/

/-- Outcome of the lifted verifier (spec section 7). -/
inductive LVerifyResult where
  | ok | witnessTooShort | witnessTooLong | rootMismatch
deriving DecidableEq

/-- Modelled from the spec: one layer of the verifier's upward propagation —
the same sorted-merge walk as the builder, but *consuming* the hash witness:
a sibling pair is combined directly, a lone index takes its sibling from the
witness stream (`none` when the stream is exhausted). -/
def liftedVerifyLayer : List (Nat × LHash) → List LHash →
    Option (List (Nat × LHash) × List LHash)
  | [], ws => some ([], ws)
  | [(a, h)], ws =>
      match ws with
      | [] => none
      | w :: ws2 =>
          some ([(a / 2, if a % 2 = 0 then LHash.node h w else LHash.node w h)], ws2)
  | (a, h) :: (b, h2) :: rest2, ws =>
      if a ^^^ 1 = b then
        (liftedVerifyLayer rest2 ws).map fun r =>
          ((a / 2, if a % 2 = 0 then LHash.node h h2 else LHash.node h2 h) :: r.1, r.2)
      else
        match ws with
        | [] => none
        | w :: ws2 =>
            (liftedVerifyLayer ((b, h2) :: rest2) ws2).map fun r =>
              ((a / 2, if a % 2 = 0 then LHash.node h w else LHash.node w h) :: r.1, r.2)

/-- Modelled from the spec: propagate the reconstructed hashes upward for
`n` layers, consuming the witness in order. -/
def liftedVerifyGo : Nat → List (Nat × LHash) → List LHash →
    Except LVerifyResult (LHash × List LHash)
  | 0, known, ws =>
      match known with
      | [(_, h)] => .ok (h, ws)
      | _ => .error .rootMismatch
  | n + 1, known, ws =>
      match liftedVerifyLayer known ws with
      | none => .error .witnessTooShort
      | some (next, ws2) => liftedVerifyGo n next ws2

/-- The maximal column log-size (`MerkleVerifierLifted` derives the tree
height from the column log-sizes). -/
def maxLogSize (Ls : List Nat) : Nat := Ls.foldr max 0

/-- Modelled from the spec: `MerkleVerifierLifted::verify` — recompute each
queried leaf from its revealed column values in absorb order, propagate
upward consuming `hash_witness`, and compare the surviving hash to the
root; leftover witness is `WitnessTooLong`, an exhausted stream is
`WitnessTooShort`. -/
def liftedVerify (root : LHash) (Ls : List Nat) (qs : List Nat)
    (queriedValues : List (List Nat)) (hw : List LHash) : LVerifyResult :=
  let known := (List.range qs.length).map fun j =>
    (qs.getD j 0,
     LHash.leaf ((sortedIndices Ls).map fun i => (queriedValues.getD i []).getD j 0))
  match liftedVerifyGo (maxLogSize Ls) known hw with
  | .error e => e
  | .ok (h, rest) =>
      if rest.isEmpty then (if h = root then .ok else .rootMismatch)
      else .witnessTooLong

/-! ## Grouped variant (`build_vcs_base_case` and the grouped verifier) -/

/-- Hashes of the grouped scheme: the free model of the external
`hash_node(children: Option<(Hash, Hash)>, values)`; `top` is a node
without children (the `max_log_size` layer), `inner` a node with them. -/
inductive GHash where
  | top : List Nat → GHash
  | inner : GHash → GHash → List Nat → GHash
deriving DecidableEq

instance : Inhabited GHash := ⟨GHash.top []⟩

/-- `VcsMerkleHasher::hash_node`. -/
def hashNode : Option (GHash × GHash) → List Nat → GHash
  | none, vals => GHash.top vals
  | some (l, r), vals => GHash.inner l r vals

/-- `columns_by_layer`: the committed columns whose log-size is `L`, in
commitment order. -/
def gColsBy (cols : List (List Nat)) (Ls : List Nat) (L : Nat) : List (List Nat) :=
  ((Ls.zip cols).filter fun p => p.1 = L).map Prod.snd

/-- `node_values`: the values at index `i` of every column native to layer `L`. -/
def gValsAt (colsBy : Nat → List (List Nat)) (L i : Nat) : List Nat :=
  (colsBy L).map fun c => c.getD i 0

/-- The grouped layer hashes, by distance `d` from the `maxL` layer
(the source's `layer_hashes` map, built from `maxL` down to `0`). -/
def gLayersAux (colsBy : Nat → List (List Nat)) (maxL : Nat) : Nat → List GHash
  | 0 => (List.range (2 ^ maxL)).map fun i => hashNode none (gValsAt colsBy maxL i)
  | d + 1 =>
      (List.range (2 ^ (maxL - (d + 1)))).map fun i =>
        hashNode
          (some ((gLayersAux colsBy maxL d).getD (2 * i) default,
                 (gLayersAux colsBy maxL d).getD (2 * i + 1) default))
          (gValsAt colsBy (maxL - (d + 1)) i)

/-- The hash layer at log-size `L`. -/
def gLayer (colsBy : Nat → List (List Nat)) (maxL L : Nat) : List GHash :=
  gLayersAux colsBy maxL (maxL - L)

/-- The grouped commitment root (`layer_hashes[0][0]`). -/
def groupedRoot (colsBy : Nat → List (List Nat)) (maxL : Nat) : GHash :=
  (gLayer colsBy maxL 0).getD 0 default

/-- The `next_if_eq` pair of the builder's child step: given the next known
child index `a` (with parent `a / 2`), emit the hashes of the children of
`a / 2` that are not known, and drop the known ones.  Returns the emitted
witness hashes (left before right) and the remaining known children. -/
def gChildStep (ph : List GHash) (a : Nat) (prest : List Nat) : List GHash × List Nat :=
  if a % 2 = 0 then
    match prest with
    | a2 :: prest2 =>
        if a2 = a + 1 then ([], prest2) else ([ph.getD (a + 1) default], a2 :: prest2)
    | [] => ([ph.getD (a + 1) default], [])
  else ([ph.getD (a - 1) default], prest)

/-- The decommitment traversal of `build_vcs_base_case` for a layer below
`max_log_size` (children present), with fuel (each visited node consumes at
least one pending index): visit the merge of parent indices of the
previously known child indices and this layer's explicit queries, in
increasing order; emit child hashes not already known into the hash
witness, and each visited node's native column values into
`queried_values` (if explicitly queried) or `column_witness` (otherwise).
Returns `(visited, hash_witness, queried_values, column_witness)`. -/
def gWalkInnerGo (ph : List GHash) (lc : List (List Nat)) :
    Nat → List Nat → List Nat → List Nat × List GHash × List Nat × List Nat
  | _, [], [] => ([], [], [], [])
  | 0, _, _ => ([], [], [], [])
  | fuel + 1, [], b :: qrest =>
      let r := gWalkInnerGo ph lc fuel [] qrest
      (b :: r.1,
       ph.getD (2 * b) default :: ph.getD (2 * b + 1) default :: r.2.1,
       (lc.map fun c => c.getD b 0) ++ r.2.2.1, r.2.2.2)
  | fuel + 1, a :: prest, [] =>
      let r := gWalkInnerGo ph lc fuel (gChildStep ph a prest).2 []
      (a / 2 :: r.1, (gChildStep ph a prest).1 ++ r.2.1, r.2.2.1,
       (lc.map fun c => c.getD (a / 2) 0) ++ r.2.2.2)
  | fuel + 1, a :: prest, b :: qrest =>
      if b < a / 2 then
        let r := gWalkInnerGo ph lc fuel (a :: prest) qrest
        (b :: r.1,
         ph.getD (2 * b) default :: ph.getD (2 * b + 1) default :: r.2.1,
         (lc.map fun c => c.getD b 0) ++ r.2.2.1, r.2.2.2)
      else
        if b = a / 2 then
          let r := gWalkInnerGo ph lc fuel (gChildStep ph a prest).2 qrest
          (a / 2 :: r.1, (gChildStep ph a prest).1 ++ r.2.1,
           (lc.map fun c => c.getD (a / 2) 0) ++ r.2.2.1, r.2.2.2)
        else
          let r := gWalkInnerGo ph lc fuel (gChildStep ph a prest).2 (b :: qrest)
          (a / 2 :: r.1, (gChildStep ph a prest).1 ++ r.2.1, r.2.2.1,
           (lc.map fun c => c.getD (a / 2) 0) ++ r.2.2.2)

def gWalkInner (ph : List GHash) (lc : List (List Nat)) (prevQ layerQ : List Nat) :
    List Nat × List GHash × List Nat × List Nat :=
  gWalkInnerGo ph lc (prevQ.length + layerQ.length) prevQ layerQ

/-- The decommitment traversal at the `max_log_size` layer: no child layer
exists and no previously known indices exist, so every visited node is an
explicit query and its values go to `queried_values`. -/
def gWalkTop (lc : List (List Nat)) : List Nat → List Nat × List Nat
  | [] => ([], [])
  | b :: qrest =>
      let r := gWalkTop lc qrest
      (b :: r.1, (lc.map fun c => c.getD b 0) ++ r.2)

/-- The per-layer loop of `build_vcs_base_case` decommitment, from layer
`maxL` (at `n = maxL + 1`) down to layer `0` (at `n = 1`); the visited
indices of each layer become `last_layer_queries` of the next.  Returns the
final visited indices and the three emitted streams. -/
def gDecommitLoop (colsBy : Nat → List (List Nat)) (qsBy : Nat → List Nat) (maxL : Nat) :
    Nat → List Nat → List Nat × List GHash × List Nat × List Nat
  | 0, prevQ => (prevQ, [], [], [])
  | n + 1, prevQ =>
      let step :=
        if n = maxL then
          ((gWalkTop (colsBy n) (qsBy n)).1, ([] : List GHash),
           (gWalkTop (colsBy n) (qsBy n)).2, ([] : List Nat))
        else gWalkInner (gLayer colsBy maxL (n + 1)) (colsBy n) prevQ (qsBy n)
      let r := gDecommitLoop colsBy qsBy maxL n step.1
      (r.1, step.2.1 ++ r.2.1, step.2.2.1 ++ r.2.2.1, step.2.2.2 ++ r.2.2.2)

/-- The grouped decommitment built from the columns, their log-sizes and the
per-log-size queries: `(hash_witness, queried_values, column_witness)`. -/
def groupedDecommit (cols : List (List Nat)) (Ls : List Nat) (qsBy : Nat → List Nat) :
    List GHash × List Nat × List Nat :=
  (gDecommitLoop (gColsBy cols Ls) qsBy (maxLogSize Ls) (maxLogSize Ls + 1) []).2

/-! ## Grouped verifier

`MerkleVerifier::verify` lives in the external `stwo` crate, outside this
repository's sources; it is modelled from the spec (sections 4.1 and 7):
the same traversal as the builder, consuming `hash_witness` /
`column_witness` / `queried_values` instead of emitting them. -/

/-- Outcome of the grouped verifier (spec section 7). -/
inductive GVerifyResult where
  | ok | witnessTooShort | witnessTooLong
  | tooFewQueriedValues | tooManyQueriedValues | rootMismatch
deriving DecidableEq

/-- Pull `n` values from a stream; `none` when it is exhausted. -/
def takeN : Nat → List Nat → Option (List Nat × List Nat)
  | 0, l => some ([], l)
  | _ + 1, [] => none
  | n + 1, x :: l => (takeN n l).map fun r => (x :: r.1, r.2)

/-- Modelled from the spec: the verifier-side counterpart of `gChildStep` —
take each unknown child of the node `a / 2` from the witness stream, and
the known ones from the reconstructed child list. -/
def gvChildStep (a : Nat) (h : GHash) (prest : List (Nat × GHash)) (hw : List GHash) :
    Option (GHash × GHash × List (Nat × GHash) × List GHash) :=
  if a % 2 = 0 then
    match prest with
    | (a2, h2) :: prest2 =>
        if a2 = a + 1 then some (h, h2, prest2, hw)
        else
          match hw with
          | [] => none
          | w :: hw2 => some (h, w, (a2, h2) :: prest2, hw2)
    | [] =>
        match hw with
        | [] => none
        | w :: hw2 => some (h, w, [], hw2)
  else
    match hw with
    | [] => none
    | w :: hw2 => some (w, h, prest, hw2)

/-- Modelled from the spec: the verifier's replay of the builder traversal
for one layer below the top (with fuel, as for `gWalkInnerGo`):
reconstruct each visited node's hash from the (known or witness) child
hashes and the (queried or witnessed) values. -/
def gvWalkGo (nCols : Nat) :
    Nat → List (Nat × GHash) → List Nat → List GHash → List Nat → List Nat →
    Except GVerifyResult (List (Nat × GHash) × List GHash × List Nat × List Nat)
  | _, [], [], hw, qv, cw => .ok ([], hw, qv, cw)
  | 0, _, _, hw, qv, cw => .ok ([], hw, qv, cw)
  | fuel + 1, [], b :: qrest, hw, qv, cw =>
      match hw with
      | l :: r :: hw2 =>
          match takeN nCols qv with
          | none => .error .tooFewQueriedValues
          | some (vals, qv2) =>
              (gvWalkGo nCols fuel [] qrest hw2 qv2 cw).map fun res =>
                ((b, GHash.inner l r vals) :: res.1, res.2.1, res.2.2.1, res.2.2.2)
      | _ => .error .witnessTooShort
  | fuel + 1, (a, h) :: prest, [], hw, qv, cw =>
      match gvChildStep a h prest hw with
      | none => .error .witnessTooShort
      | some (l, r, prest2, hw2) =>
          match takeN nCols cw with
          | none => .error .witnessTooShort
          | some (vals, cw2) =>
              (gvWalkGo nCols fuel prest2 [] hw2 qv cw2).map fun res =>
                ((a / 2, GHash.inner l r vals) :: res.1, res.2.1, res.2.2.1, res.2.2.2)
  | fuel + 1, (a, h) :: prest, b :: qrest, hw, qv, cw =>
      if b < a / 2 then
        match hw with
        | l :: r :: hw2 =>
            match takeN nCols qv with
            | none => .error .tooFewQueriedValues
            | some (vals, qv2) =>
                (gvWalkGo nCols fuel ((a, h) :: prest) qrest hw2 qv2 cw).map fun res =>
                  ((b, GHash.inner l r vals) :: res.1, res.2.1, res.2.2.1, res.2.2.2)
        | _ => .error .witnessTooShort
      else
        match gvChildStep a h prest hw with
        | none => .error .witnessTooShort
        | some (l, r, prest2, hw2) =>
            if b = a / 2 then
              match takeN nCols qv with
              | none => .error .tooFewQueriedValues
              | some (vals, qv2) =>
                  (gvWalkGo nCols fuel prest2 qrest hw2 qv2 cw).map fun res =>
                    ((a / 2, GHash.inner l r vals) :: res.1, res.2.1, res.2.2.1, res.2.2.2)
            else
              match takeN nCols cw with
              | none => .error .witnessTooShort
              | some (vals, cw2) =>
                  (gvWalkGo nCols fuel prest2 (b :: qrest) hw2 qv cw2).map fun res =>
                    ((a / 2, GHash.inner l r vals) :: res.1, res.2.1, res.2.2.1, res.2.2.2)

def gvWalk (nCols : Nat) (known : List (Nat × GHash)) (layerQ : List Nat)
    (hw : List GHash) (qv cw : List Nat) :
    Except GVerifyResult (List (Nat × GHash) × List GHash × List Nat × List Nat) :=
  gvWalkGo nCols (known.length + layerQ.length) known layerQ hw qv cw

/-- Modelled from the spec: the verifier's replay at the `max_log_size`
layer — every visited node is an explicit query, its values come from
`queried_values`. -/
def gvWalkTop (nCols : Nat) :
    List Nat → List Nat → Except GVerifyResult (List (Nat × GHash) × List Nat)
  | [], qv => .ok ([], qv)
  | b :: qrest, qv =>
      match takeN nCols qv with
      | none => .error .tooFewQueriedValues
      | some (vals, qv2) =>
          (gvWalkTop nCols qrest qv2).map fun r => ((b, GHash.top vals) :: r.1, r.2)

/-- Modelled from the spec: replay all layers from `maxL` down to `0`. -/
def gVerifyLoop (nColsAt : Nat → Nat) (qsBy : Nat → List Nat) (maxL : Nat) :
    Nat → List (Nat × GHash) → List GHash → List Nat → List Nat →
    Except GVerifyResult (List (Nat × GHash) × List GHash × List Nat × List Nat)
  | 0, known, hw, qv, cw => .ok (known, hw, qv, cw)
  | n + 1, known, hw, qv, cw =>
      if n = maxL then
        match gvWalkTop (nColsAt n) (qsBy n) qv with
        | .error e => .error e
        | .ok (known2, qv2) => gVerifyLoop nColsAt qsBy maxL n known2 hw qv2 cw
      else
        match gvWalk (nColsAt n) known (qsBy n) hw qv cw with
        | .error e => .error e
        | .ok (known2, hw2, qv2, cw2) => gVerifyLoop nColsAt qsBy maxL n known2 hw2 qv2 cw2

/-- The number of committed columns whose log-size is `L`. -/
def nColsAt (Ls : List Nat) (L : Nat) : Nat := (Ls.filter fun x => x = L).length

/-- Modelled from the spec: `MerkleVerifier::verify` of the grouped
variant.  Replays the builder traversal consuming the streams; reports
exhausted streams (`WitnessTooShort` / `TooFewQueriedValues`), leftover
entries (`WitnessTooLong` / `TooManyQueriedValues`), and otherwise compares
the surviving layer-0 hash with the root. -/
def groupedVerify (root : GHash) (Ls : List Nat) (qsBy : Nat → List Nat)
    (qv : List Nat) (hw : List GHash) (cw : List Nat) : GVerifyResult :=
  match gVerifyLoop (nColsAt Ls) qsBy (maxLogSize Ls) (maxLogSize Ls + 1) [] hw qv cw with
  | .error e => e
  | .ok (known, hw2, qv2, cw2) =>
      if hw2.isEmpty then
        if cw2.isEmpty then
          if qv2.isEmpty then
            match known with
            | [(_, h)] => if h = root then .ok else .rootMismatch
            | _ => .rootMismatch
          else .tooManyQueriedValues
        else .witnessTooLong
      else .witnessTooLong

/-! ## FRI fold decommitment (`compute_fri_decommit_outputs` and
`compute_fri_layer_decommit_outputs`) -/

/-- A secure-field element: a 4-tuple of base-field coordinates
(`QM31::to_m31_array`). -/
abbrev QM31 := Nat × Nat × Nat × Nat

/-- Errors of the FRI fold decommitment (spec section 7). -/
inductive FriError where
  | foldStepTooLarge | queryOutOfRange
deriving DecidableEq

/-- `usize::BITS` on the 64-bit target the generator runs on. -/
def usizeBits : Nat := 64

/-- The inner loop of `compute_fri_decommit_outputs` over one subset's
contiguous position range: record every position (and its evaluation) in
the decommitment positions and the value map; a position matching the next
pending subset query consumes it, any other position's evaluation goes to
the witness.  Errors with `QueryOutOfRange` at the first position outside
the column. -/
def friSubset (column : List QM31) :
    List Nat → List Nat → Except FriError (List Nat × List QM31 × List QM31)
  | [], _ => .ok ([], [], [])
  | pos :: rest, sq =>
      if column.length ≤ pos then .error .queryOutOfRange
      else
        match sq with
        | q :: sqr =>
            if q = pos then
              (friSubset column rest sqr).map fun r =>
                (pos :: r.1, r.2.1, column.getD pos default :: r.2.2)
            else
              (friSubset column rest (q :: sqr)).map fun r =>
                (pos :: r.1, column.getD pos default :: r.2.1,
                 column.getD pos default :: r.2.2)
        | [] =>
            (friSubset column rest []).map fun r =>
              (pos :: r.1, column.getD pos default :: r.2.1,
               column.getD pos default :: r.2.2)

/-- Split off the run of query positions sharing the subset key
(`position >> fold_step`) with the head. -/
def friTakeRun (foldStep key : Nat) : List Nat → List Nat × List Nat
  | [] => ([], [])
  | q :: rest =>
      if q >>> foldStep = key then
        ((q :: (friTakeRun foldStep key rest).1), (friTakeRun foldStep key rest).2)
      else ([], q :: rest)

/-- The outer subset loop of `compute_fri_decommit_outputs` (with fuel: one
run is consumed per iteration): group the query positions into runs sharing
`position >> fold_step` and process each run's contiguous range
`[key << F, key << F + 2^F)`. -/
def friOuterGo (column : List QM31) (foldStep : Nat) :
    Nat → List Nat → Except FriError (List Nat × List QM31 × List QM31)
  | _, [] => .ok ([], [], [])
  | 0, _ :: _ => .ok ([], [], [])
  | fuel + 1, q :: rest =>
      match friSubset column
          (List.range' ((q >>> foldStep) <<< foldStep) (1 <<< foldStep))
          (friTakeRun foldStep (q >>> foldStep) (q :: rest)).1 with
      | .error e => .error e
      | .ok s =>
          match friOuterGo column foldStep fuel
              (friTakeRun foldStep (q >>> foldStep) (q :: rest)).2 with
          | .error e => .error e
          | .ok s2 => .ok (s.1 ++ s2.1, s.2.1 ++ s2.2.1, s.2.2 ++ s2.2.2)

def friOuter (column : List QM31) (foldStep : Nat) (qs : List Nat) :
    Except FriError (List Nat × List QM31 × List QM31) :=
  friOuterGo column foldStep qs.length qs

/-- `compute_fri_decommit_outputs`: outputs
`(decommitment_positions, witness_evals, value_map_values)`; the source's
`value_map_positions` always equals `decommitment_positions` (both push
`position` unconditionally), so it is not duplicated here. -/
def computeFriDecommitOutputs (column : List QM31) (qs : List Nat) (foldStep : Nat) :
    Except FriError (List Nat × List QM31 × List QM31) :=
  if usizeBits ≤ foldStep then .error .foldStepTooLarge
  else friOuter column foldStep qs

/-- The four base-field columns of `compute_fri_layer_decommit_outputs`
(one per secure-field coordinate). -/
def friBaseColumns (column : List QM31) : List (List Nat) :=
  [column.map fun v => v.1, column.map fun v => v.2.1,
   column.map fun v => v.2.2.1, column.map fun v => v.2.2.2]

/-- `compute_fri_layer_decommit_outputs`: commit the four base columns via
the lifted scheme and decommit at the (deduplicated) decommitment
positions.  Returns `(commitment, decommitment_positions, fri_witness,
hash_witness, value_map_values)`. -/
def computeFriLayerDecommitOutputs (column : List QM31) (qs : List Nat) (foldStep : Nat) :
    Except FriError (LHash × List Nat × List QM31 × List LHash × List QM31) :=
  match computeFriDecommitOutputs column qs foldStep with
  | .error e => .error e
  | .ok (decPos, friWitness, valueMapValues) =>
      .ok (liftedRootOf (buildLiftedLeaves (friBaseColumns column)), decPos, friWitness,
        liftedWitnessGo (buildLiftedLeaves (friBaseColumns column)) (vecDedup decPos),
        valueMapValues)

/-! ## Basic arithmetic and list lemmas -/

theorem xor_one_eq (a : Nat) : a ^^^ 1 = if a % 2 = 0 then a + 1 else a - 1 := by
  obtain ⟨k, hk⟩ | ⟨k, hk⟩ := Nat.even_or_odd a
  · have h : (2 * k) ^^^ 1 = 2 * k + 1 := by
      have h2 : Nat.bit false k ^^^ Nat.bit true 0 = Nat.bit true k := by
        rw [Nat.xor_bit]; simp
      simpa [Nat.bit] using h2
    have hk2 : a = 2 * k := by omega
    subst hk2
    rw [if_pos (by omega)]
    exact h
  · have h : (2 * k + 1) ^^^ 1 = 2 * k := by
      have h2 : Nat.bit true k ^^^ Nat.bit true 0 = Nat.bit false k := by
        rw [Nat.xor_bit]; simp
      simpa [Nat.bit] using h2
    subst hk
    rw [if_neg (by omega)]
    simpa using h

theorem xor_one_even {a : Nat} (h : a % 2 = 0) : a ^^^ 1 = a + 1 := by
  rw [xor_one_eq, if_pos h]

theorem xor_one_odd {a : Nat} (h : a % 2 = 1) : a ^^^ 1 = a - 1 := by
  rw [xor_one_eq, if_neg (by omega)]

theorem xor_one_ne (a : Nat) : a ^^^ 1 ≠ a := by
  rw [xor_one_eq]
  split <;> omega

theorem xor_one_div_two (a : Nat) : (a ^^^ 1) / 2 = a / 2 := by
  rw [xor_one_eq]
  split <;> omega

theorem ilog2Go_two_pow : ∀ fuel L, 2 ^ L ≤ fuel → ilog2Go fuel (2 ^ L) = L := by
  intro fuel
  induction fuel with
  | zero => intro L h; exact absurd h (Nat.two_pow_pos L).not_le
  | succ f ih =>
      intro L h
      match L with
      | 0 => simp [ilog2Go]
      | L + 1 =>
          have h2 : ¬ 2 ^ (L + 1) ≤ 1 := by
            have := Nat.one_lt_two_pow_iff.mpr (Nat.succ_ne_zero L)
            omega
          rw [ilog2Go, if_neg h2]
          have hdiv : 2 ^ (L + 1) / 2 = 2 ^ L := by
            rw [Nat.pow_succ, Nat.mul_div_cancel]
            omega
          rw [hdiv, ih L (by have := Nat.one_le_two_pow (n := L); omega)]

theorem ilog2_two_pow (L : Nat) : ilog2 (2 ^ L) = L :=
  ilog2Go_two_pow (2 ^ L) L le_rfl

/-- `shuffleIdx` in pure div/mod form. -/
theorem shuffleIdx_eq (d i : Nat) : shuffleIdx d i = 2 * (i / 2 ^ (d + 1)) + i % 2 := by
  simp [shuffleIdx, Nat.shiftLeft_eq, Nat.shiftRight_eq_div_pow, Nat.and_one_is_mod,
    Nat.mul_comm]

theorem shuffleIdx_zero (i : Nat) : shuffleIdx 0 i = i := by
  rw [shuffleIdx_eq]
  omega

/-- The perfect-shuffle composition law: the widening re-indexings of two
stacked group steps compose into the single re-indexing of their total
log-ratio. -/
theorem shuffleIdx_comp (a b i : Nat) :
    shuffleIdx a (shuffleIdx b i) = shuffleIdx (a + b) i := by
  rw [shuffleIdx_eq, shuffleIdx_eq, shuffleIdx_eq]
  have h1 : (2 * (i / 2 ^ (b + 1)) + i % 2) % 2 = i % 2 := by omega
  have h2 : (2 * (i / 2 ^ (b + 1)) + i % 2) / 2 ^ (a + 1) = i / 2 ^ (a + b + 1) := by
    have h3 : 2 ^ (a + 1) = 2 * 2 ^ a := by ring
    rw [h3, ← Nat.div_div_eq_div_mul, Nat.mul_add_div (by omega)]
    have h5 : i % 2 / 2 = 0 := by omega
    rw [h5, Nat.add_zero, Nat.div_div_eq_div_mul, ← Nat.pow_add]
    congr 2
    ring
  rw [h1, h2]

/-- The local index of a global position is in range for the narrower
column. -/
theorem shuffleIdx_lt {L d i : Nat} (hL : 1 ≤ L) (hi : i < 2 ^ (d + L)) :
    shuffleIdx d i < 2 ^ L := by
  rw [shuffleIdx_eq]
  have h1 : i / 2 ^ (d + 1) < 2 ^ (L - 1) := by
    apply Nat.div_lt_of_lt_mul
    calc i < 2 ^ (d + L) := hi
    _ ≤ 2 ^ (d + 1) * 2 ^ (L - 1) := by
        rw [← Nat.pow_add]
        apply Nat.pow_le_pow_right (by omega)
        omega
  have h2 : 2 ^ L = 2 * 2 ^ (L - 1) := by
    rw [← Nat.pow_succ']
    congr 1
    omega
  omega

theorem getD_range_map {α : Type} (f : Nat → α) (w i : Nat) (d : α) (h : i < w) :
    (((List.range w).map f).getD i d) = f i := by
  rw [List.getD_eq_getElem?_getD, List.getElem?_map, List.getElem?_range h]
  rfl

theorem getD_range_map_ge {α : Type} (f : Nat → α) (w i : Nat) (d : α) (h : w ≤ i) :
    (((List.range w).map f).getD i d) = d := by
  rw [List.getD_eq_getElem?_getD, List.getElem?_map]
  rw [List.getElem?_eq_none (by simpa using h)]
  rfl

theorem vecDedup_cons_of_ne (a : Nat) (l : List Nat)
    (h : l = [] ∨ l.head? ≠ some a) : vecDedup (a :: l) = a :: vecDedup l := by
  match l with
  | [] => rfl
  | b :: t =>
      have hne : a ≠ b := by
        rcases h with h | h
        · simp at h
        · simp only [List.head?_cons, ne_eq, Option.some.injEq] at h
          exact fun hab => h hab.symm
      simp [vecDedup, hne]

theorem foldr_max_le (l : List Nat) (m : Nat) (h : ∀ x ∈ l, x ≤ m) :
    l.foldr max 0 ≤ m := by
  induction l with
  | nil => simp
  | cons a t ih =>
      simp only [List.foldr_cons]
      have := h a (by simp)
      have := ih fun x hx => h x (by simp [hx])
      omega

theorem le_foldr_max (l : List Nat) (x : Nat) (h : x ∈ l) : x ≤ l.foldr max 0 := by
  induction l with
  | nil => simp at h
  | cons a t ih =>
      simp only [List.foldr_cons]
      rcases List.mem_cons.mp h with rfl | hmem
      · omega
      · have := ih hmem
        omega

/-! ## Closed form of the lifted leaf layer -/

/-- The log-size reached after processing a column list (the last group's
log-size, or the starting one for an empty list). -/
def lastLog (prevLog : Nat) (cols : List (List Nat)) : Nat :=
  cols.foldl (fun _ c => ilog2 c.length) prevLog

theorem lastLog_nil (prevLog : Nat) : lastLog prevLog [] = prevLog := rfl

theorem lastLog_append (prevLog : Nat) (l l' : List (List Nat)) :
    lastLog prevLog (l ++ l') = lastLog (lastLog prevLog l) l' :=
  List.foldl_append _ _ _ _

theorem lastLog_const (prevLog L : Nat) (l : List (List Nat))
    (h : ∀ c ∈ l, ilog2 c.length = L) (hne : l ≠ []) : lastLog prevLog l = L := by
  induction l generalizing prevLog with
  | nil => exact absurd rfl hne
  | cons c t ih =>
      have step : lastLog prevLog (c :: t) = lastLog (ilog2 c.length) t := rfl
      by_cases ht : t = []
      · subst ht
        rw [step, lastLog_nil]
        exact h c (by simp)
      · rw [step]
        exact ih (ilog2 c.length) (fun c' hc' => h c' (by simp [hc'])) ht

theorem absorbColumn_range_map (g : Nat → List Nat) (w : Nat) (c : List Nat) :
    absorbColumn ((List.range w).map g) c
      = (List.range w).map fun i => g i ++ [c.getD i 0] := by
  unfold absorbColumn
  rw [List.length_map, List.length_range]
  apply List.map_congr_left
  intro i hi
  rw [getD_range_map g w i [] (List.mem_range.mp hi)]

theorem widenStates_range_map (g : Nat → List Nat) (w ratio width : Nat)
    (hb : ∀ idx, idx < width → shuffleIdx ratio idx < w) :
    widenStates ((List.range w).map g) ratio width
      = (List.range width).map fun idx => g (shuffleIdx ratio idx) := by
  unfold widenStates
  apply List.map_congr_left
  intro idx hidx
  exact getD_range_map g w _ [] (hb idx (List.mem_range.mp hidx))

theorem absorbWhile_range_map (L w : Nat) (cols : List (List Nat)) (g : Nat → List Nat) :
    absorbWhile L cols ((List.range w).map g)
      = ((List.range w).map fun i =>
           g i ++ (cols.takeWhile fun c => decide (ilog2 c.length = L)).map fun c => c.getD i 0,
         cols.dropWhile fun c => decide (ilog2 c.length = L)) := by
  induction cols generalizing g with
  | nil => simp [absorbWhile]
  | cons c rest ih =>
      by_cases h : ilog2 c.length = L
      · rw [absorbWhile, if_pos h, absorbColumn_range_map, ih]
        have hc : (decide (ilog2 c.length = L)) = true := by simp [h]
        simp only [List.takeWhile_cons, List.dropWhile_cons, hc, if_true, List.map_cons,
          Prod.mk.injEq]
        refine ⟨?_, trivial⟩
        apply List.map_congr_left
        intro i _
        simp
      · rw [absorbWhile, if_neg h]
        have hc : (decide (ilog2 c.length = L)) = false := by simp [h]
        simp only [List.takeWhile_cons, List.dropWhile_cons, hc, if_false, Bool.false_eq_true,
          Prod.mk.injEq]
        refine ⟨?_, trivial⟩
        apply List.map_congr_left
        intro i _
        simp

theorem liftedLeavesGo_spec :
    ∀ fuel (cols done : List (List Nat)) (prevLog : Nat),
      cols.length ≤ fuel →
      1 ≤ prevLog →
      (∀ c ∈ cols, c.length = 2 ^ ilog2 c.length ∧ prevLog ≤ ilog2 c.length) →
      List.Pairwise (fun c c' : List Nat => ilog2 c.length ≤ ilog2 c'.length) cols →
      (∀ c ∈ done, ilog2 c.length ≤ prevLog) →
      liftedLeavesGo fuel cols
          ((List.range (2 ^ prevLog)).map fun idx =>
            done.map fun c => c.getD (shuffleIdx (prevLog - ilog2 c.length) idx) 0)
          prevLog
        = (List.range (2 ^ lastLog prevLog cols)).map fun idx =>
            (done ++ cols).map fun c =>
              c.getD (shuffleIdx (lastLog prevLog cols - ilog2 c.length) idx) 0 := by
  intro fuel
  induction fuel with
  | zero =>
      intro cols done prevLog hfuel _ _ _ _
      have : cols = [] := List.length_eq_zero.mp (Nat.le_zero.mp hfuel)
      subst this
      simp [liftedLeavesGo, lastLog]
  | succ f ih =>
      intro cols done prevLog hfuel hprev hcols hpair hdone
      match cols with
      | [] => simp [liftedLeavesGo, lastLog]
      | c :: rest =>
          have hcL := hcols c (by simp)
          set L := ilog2 c.length with hLdef
          have hprevL : prevLog ≤ L := hcL.2
          -- the widened states
          have hwiden :
              widenStates
                ((List.range (2 ^ prevLog)).map fun idx =>
                  done.map fun c' => c'.getD (shuffleIdx (prevLog - ilog2 c'.length) idx) 0)
                (L - prevLog) (2 ^ L)
              = (List.range (2 ^ L)).map fun idx =>
                  done.map fun c' => c'.getD (shuffleIdx (L - ilog2 c'.length) idx) 0 := by
            rw [widenStates_range_map]
            · apply List.map_congr_left
              intro idx _
              apply List.map_congr_left
              intro c' hc'
              have h1 : ilog2 c'.length ≤ prevLog := hdone c' hc'
              rw [shuffleIdx_comp]
              congr 2
              omega
            · intro idx hidx
              apply shuffleIdx_lt hprev
              have : L - prevLog + prevLog = L := by omega
              rw [this]
              exact hidx
          rw [liftedLeavesGo, hwiden, absorbWhile_range_map]
          set run := (c :: rest).takeWhile fun c' => decide (ilog2 c'.length = L) with hrun
          set rest2 := (c :: rest).dropWhile fun c' => decide (ilog2 c'.length = L) with hrest2
          have hrunL : ∀ c' ∈ run, ilog2 c'.length = L := by
            intro c' hc'
            have := List.mem_takeWhile_imp (hrun ▸ hc')
            simpa using this
          have hrun_ne : run ≠ [] := by
            rw [hrun]
            simp [List.takeWhile_cons, hLdef]
          have hsplit : run ++ rest2 = c :: rest := List.takeWhile_append_dropWhile _ _
          have hrest2_sub : rest2.Sublist (c :: rest) := hrest2 ▸ List.dropWhile_sublist _
          have hrest2_len : rest2.length ≤ rest.length := by
            rw [hrest2]
            have hc : (decide (ilog2 c.length = L)) = true := by simp [hLdef]
            simp only [List.dropWhile_cons, hc, if_true]
            exact (List.dropWhile_sublist _).length_le
          -- fold the run's absorbed values into the spec form
          have habs :
              ((List.range (2 ^ L)).map fun i =>
                (done.map fun c' => c'.getD (shuffleIdx (L - ilog2 c'.length) i) 0)
                  ++ run.map fun c' => c'.getD i 0)
              = (List.range (2 ^ L)).map fun idx =>
                  (done ++ run).map fun c' =>
                    c'.getD (shuffleIdx (L - ilog2 c'.length) idx) 0 := by
            apply List.map_congr_left
            intro i _
            rw [List.map_append]
            congr 1
            apply List.map_congr_left
            intro c' hc'
            rw [hrunL c' hc']
            rw [Nat.sub_self, shuffleIdx_zero]
          rw [habs]
          have hlen1 : (c :: rest).length = rest.length + 1 := by simp
          have hcall := ih rest2 (done ++ run) L
            (le_trans hrest2_len (by omega)) (le_trans hprev hprevL)
            (fun c' hc' => ⟨(hcols c' (hrest2_sub.mem hc')).1, by
              rcases List.mem_cons.mp (hrest2_sub.mem hc') with rfl | hmem
              · omega
              · have := List.rel_of_pairwise_cons hpair hmem
                omega⟩)
            (hpair.sublist hrest2_sub)
            (by
              intro c' hc'
              rcases List.mem_append.mp hc' with hmem | hmem
              · exact le_trans (hdone c' hmem) hprevL
              · exact le_of_eq (hrunL c' hmem))
          rw [hcall]
          have hlast : lastLog L rest2 = lastLog prevLog (c :: rest) := by
            conv_rhs => rw [← hsplit]
            rw [lastLog_append, lastLog_const prevLog L run hrunL hrun_ne]
          rw [hlast, List.append_assoc, hsplit]

/-! ## `vecDedup` and sorted-list helpers -/

theorem mem_vecDedup (x : Nat) : ∀ l : List Nat, x ∈ vecDedup l ↔ x ∈ l := by
  intro l
  induction l with
  | nil => simp [vecDedup]
  | cons a t ih =>
      match t, ih with
      | [], _ => simp [vecDedup]
      | b :: t2, ih =>
          by_cases hab : a = b
          · rw [vecDedup, if_pos hab, ih, hab]
            simp
          · rw [vecDedup, if_neg hab]
            simp [ih]

theorem vecDedup_eq_self : ∀ l : List Nat, List.Pairwise (· < ·) l → vecDedup l = l := by
  intro l
  induction l with
  | nil => simp [vecDedup]
  | cons a t ih =>
      intro hp
      match t, ih with
      | [], _ => rfl
      | b :: t2, ih =>
          have hab : a ≠ b := Nat.ne_of_lt (List.rel_of_pairwise_cons hp (by simp))
          rw [vecDedup, if_neg hab, ih hp.of_cons]

theorem vecDedup_sorted : ∀ l : List Nat, List.Pairwise (· ≤ ·) l →
    List.Pairwise (· < ·) (vecDedup l) := by
  intro l
  induction l with
  | nil => simp [vecDedup]
  | cons a t ih =>
      intro hp
      match t, ih with
      | [], _ => simp [vecDedup]
      | b :: t2, ih =>
          by_cases hab : a = b
          · rw [vecDedup, if_pos hab]
            exact ih hp.of_cons
          · rw [vecDedup, if_neg hab]
            refine List.pairwise_cons.mpr ⟨?_, ih hp.of_cons⟩
            intro x hx
            have hx2 : x ∈ b :: t2 := (mem_vecDedup x _).mp hx
            have := List.rel_of_pairwise_cons hp hx2
            have hb := List.rel_of_pairwise_cons hp (List.mem_cons_self b t2)
            rcases List.mem_cons.mp hx2 with rfl | hmem
            · omega
            · have hbx : b ≤ x := List.rel_of_pairwise_cons hp.of_cons hmem
              omega

theorem vecDedup_ne_nil {l : List Nat} (h : l ≠ []) : vecDedup l ≠ [] := by
  match l with
  | [] => exact absurd rfl h
  | [a] => simp [vecDedup]
  | a :: b :: t =>
      by_cases hab : a = b
      · rw [vecDedup, if_pos hab]
        exact vecDedup_ne_nil (by simp)
      · rw [vecDedup, if_neg hab]
        simp

theorem pairwise_lt_map_div_two {l : List Nat} (h : List.Pairwise (· < ·) l) :
    List.Pairwise (· ≤ ·) (l.map (· / 2)) := by
  rw [List.pairwise_map]
  exact h.imp fun hab => Nat.div_le_div_right (Nat.le_of_lt hab)

/-- On a strictly sorted list, the last element is an upper bound. -/
theorem pairwise_last_max {l : List Nat} {R : Nat → Nat → Prop} (hp : List.Pairwise R l)
    (hne : l ≠ []) (x : Nat) (hx : x ∈ l) :
    x = l.getLast hne ∨ R x (l.getLast hne) := by
  induction l with
  | nil => simp at hx
  | cons a t ih =>
      match t with
      | [] =>
          simp only [List.mem_singleton] at hx
          left
          simp [hx, List.getLast]
      | b :: t2 =>
          have hlast : (a :: b :: t2).getLast (by simp) = (b :: t2).getLast (by simp) := by
            simp [List.getLast]
          rcases List.mem_cons.mp hx with rfl | hmem
          · right
            rw [hlast]
            exact List.rel_of_pairwise_cons hp (List.getLast_mem _)
          · rw [hlast]
            exact ih hp.of_cons (by simp) hmem

/-! ## Characterisation of the lifted hash-witness layer walk -/

theorem liftedLayerWalk_spec_aux (hashes : List LHash) :
    ∀ n (qs : List Nat), qs.length ≤ n → List.Pairwise (· < ·) qs →
    liftedLayerWalk hashes qs
      = ((qs.filter fun a => decide ((a ^^^ 1) ∉ qs)).map fun a => hashes.getD (a ^^^ 1) default,
         vecDedup (qs.map (· / 2))) := by
  intro n
  induction n with
  | zero =>
      intro qs hlen _
      have : qs = [] := List.length_eq_zero.mp (Nat.le_zero.mp hlen)
      subst this
      rfl
  | succ n ih =>
      intro qs hlen hp
      match qs with
      | [] => rfl
      | [a] =>
          rw [liftedLayerWalk]
          have h1 : a ^^^ 1 ≠ a := xor_one_ne a
          simp [List.filter_cons, vecDedup, h1]
      | a :: b :: rest2 =>
          have hab : a < b := List.rel_of_pairwise_cons hp (by simp)
          have hrest_gt : ∀ x ∈ rest2, b < x :=
            fun x hx => List.rel_of_pairwise_cons hp.of_cons hx
          have ha_gt : ∀ x ∈ b :: rest2, a < x :=
            fun x hx => List.rel_of_pairwise_cons hp hx
          have hlen2 : rest2.length ≤ n := by
            simp only [List.length_cons] at hlen
            omega
          have hlen3 : (b :: rest2).length ≤ n := by
            simp only [List.length_cons] at hlen ⊢
            omega
          by_cases hsib : a ^^^ 1 = b
          · -- sibling pair: `a` even and `b = a + 1`
            have haeven : a % 2 = 0 := by
              rcases Nat.mod_two_eq_zero_or_one a with h | h
              · exact h
              · rw [xor_one_odd h] at hsib
                omega
            have hb : b = a + 1 := by rw [← hsib, xor_one_even haeven]
            rw [liftedLayerWalk, if_pos hsib]
            rw [ih rest2 hlen2 hp.of_cons.of_cons]
            have hfa : (a ^^^ 1) ∈ a :: b :: rest2 := by
              rw [hsib]; simp
            have hfb : (b ^^^ 1) ∈ a :: b :: rest2 := by
              rw [← hsib, Nat.xor_cancel_right]; simp
            have hfilter :
                (a :: b :: rest2).filter (fun x => decide ((x ^^^ 1) ∉ a :: b :: rest2))
                  = rest2.filter fun x => decide ((x ^^^ 1) ∉ rest2) := by
              rw [List.filter_cons, List.filter_cons]
              rw [if_neg (by simp [hfa]), if_neg (by simp [hfb])]
              apply List.filter_congr
              intro x hx
              have hxgt : b < x := hrest_gt x hx
              have hxa : x ^^^ 1 ≠ a := by
                rw [xor_one_eq]
                split <;> omega
              have hxb : x ^^^ 1 ≠ b := by
                rw [xor_one_eq]
                rcases Nat.mod_two_eq_zero_or_one x with h | h
                · rw [if_pos h]; omega
                · rw [if_neg (by omega)]
                  -- x odd with x - 1 = b = a + 1 would force x = a + 2 even
                  omega
              simp only [List.mem_cons, decide_eq_decide]
              constructor
              · intro h hC
                exact h (Or.inr (Or.inr hC))
              · intro h hC
                rcases hC with hC | hC | hC
                · exact hxa hC
                · exact hxb hC
                · exact h hC
            rw [hfilter]
            have hdedup :
                vecDedup ((a :: b :: rest2).map (· / 2))
                  = a / 2 :: vecDedup (rest2.map (· / 2)) := by
              have hb2 : b / 2 = a / 2 := by omega
              simp only [List.map_cons]
              rw [vecDedup, if_pos (by omega)]
              rw [hb2]
              apply vecDedup_cons_of_ne
              match rest2 with
              | [] => left; simp
              | c :: t =>
                  right
                  have hc : b < c := hrest_gt c (by simp)
                  simp only [List.map_cons, List.head?_cons, ne_eq, Option.some.injEq]
                  omega
            rw [hdedup]
          · -- lone index: emit the sibling hash
            rw [liftedLayerWalk, if_neg hsib]
            rw [ih (b :: rest2) hlen3 hp.of_cons]
            have hnotmem : (a ^^^ 1) ∉ a :: b :: rest2 := by
              simp only [List.mem_cons, not_or]
              refine ⟨xor_one_ne a, hsib, ?_⟩
              intro hmem
              have := hrest_gt _ hmem
              rw [xor_one_eq] at this
              split at this <;> omega
            have hfilter :
                (a :: b :: rest2).filter (fun x => decide ((x ^^^ 1) ∉ a :: b :: rest2))
                  = a :: ((b :: rest2).filter fun x => decide ((x ^^^ 1) ∉ b :: rest2)) := by
              rw [List.filter_cons, if_pos (by simp [hnotmem])]
              congr 1
              apply List.filter_congr
              intro x hx
              have hxgt : a < x := ha_gt x hx
              have hxa : x ^^^ 1 ≠ a := by
                intro hcontra
                rw [xor_one_eq] at hcontra
                rcases Nat.mod_two_eq_zero_or_one x with hx2 | hx2
                · rw [if_pos hx2] at hcontra
                  omega
                · rw [if_neg (by omega)] at hcontra
                  have hxeq : x = a + 1 := by omega
                  have haev : a % 2 = 0 := by omega
                  rcases List.mem_cons.mp hx with rfl | hmem
                  · exact hsib (by rw [xor_one_even haev, hxeq])
                  · have := hrest_gt x hmem
                    omega
              simp only [List.mem_cons, decide_eq_decide]
              constructor
              · intro h hC
                exact h (Or.inr hC)
              · intro h hC
                rcases hC with hC | hC
                · exact hxa hC
                · exact h hC
            rw [hfilter]
            have hdedup :
                vecDedup ((a :: b :: rest2).map (· / 2))
                  = a / 2 :: vecDedup ((b :: rest2).map (· / 2)) := by
              simp only [List.map_cons]
              apply vecDedup_cons_of_ne
              right
              simp only [List.head?_cons, ne_eq, Option.some.injEq]
              -- a / 2 ≠ b / 2: either b ≥ a + 2, or b = a + 1 with a odd
              have hodd : b = a + 1 → a % 2 = 1 := by
                intro hb1
                rcases Nat.mod_two_eq_zero_or_one a with h | h
                · exact absurd (by rw [xor_one_even h, hb1]) hsib
                · exact h
              rcases Nat.lt_or_ge b (a + 2) with h | h
              · have hb1 : b = a + 1 := by omega
                have := hodd hb1
                omega
              · omega
            rw [hdedup]
            simp only [List.map_cons]

theorem liftedLayerWalk_spec (hashes : List LHash) (qs : List Nat)
    (hp : List.Pairwise (· < ·) qs) :
    liftedLayerWalk hashes qs
      = ((qs.filter fun a => decide ((a ^^^ 1) ∉ qs)).map fun a => hashes.getD (a ^^^ 1) default,
         vecDedup (qs.map (· / 2))) :=
  liftedLayerWalk_spec_aux hashes qs.length qs le_rfl hp

/-! ## Structural recursions on the number of halving steps

The fuel-based source loops are re-stated as recursions on the layer count
`k` (for leaf layers of length `2^k`), which the round-trip induction uses. -/

def rootSpecGo : Nat → List LHash → LHash
  | 0, l => l.getD 0 default
  | k + 1, l => rootSpecGo k (halveLayer l)

def witSpecGo : Nat → List LHash → List Nat → List LHash
  | 0, _, _ => []
  | k + 1, l, qs =>
      (liftedLayerWalk l qs).1 ++ witSpecGo k (halveLayer l) (liftedLayerWalk l qs).2

theorem halveLayer_length_pow {l : List LHash} {k : Nat} (h : l.length = 2 ^ (k + 1)) :
    (halveLayer l).length = 2 ^ k := by
  rw [halveLayer_length, Nat.shiftRight_one, h, Nat.pow_succ, Nat.mul_div_cancel]
  omega

theorem two_pow_succ_not_le_one (k : Nat) : ¬ 2 ^ (k + 1) ≤ 1 := by
  have := Nat.one_lt_two_pow_iff.mpr (Nat.succ_ne_zero k)
  omega

theorem liftedRootGo_spec :
    ∀ fuel k (l : List LHash), l.length = 2 ^ k → 2 ^ k ≤ fuel →
    liftedRootGo fuel l = rootSpecGo k l := by
  intro fuel
  induction fuel with
  | zero =>
      intro k l hl hf
      exact absurd hf (Nat.two_pow_pos k).not_le
  | succ f ih =>
      intro k l hl hf
      match k with
      | 0 =>
          rw [liftedRootGo, if_pos (by rw [hl]; norm_num), rootSpecGo]
      | k + 1 =>
          rw [liftedRootGo, if_neg (by rw [hl]; exact two_pow_succ_not_le_one k), rootSpecGo]
          apply ih k _ (halveLayer_length_pow hl)
          have h1 : 2 ^ k < 2 ^ (k + 1) := Nat.pow_lt_pow_right (by omega) (by omega)
          omega

theorem liftedRootOf_spec {l : List LHash} {k : Nat} (h : l.length = 2 ^ k) :
    liftedRootOf l = rootSpecGo k l :=
  liftedRootGo_spec l.length k l h (by rw [h])

theorem liftedMaxLogGo_spec :
    ∀ fuel k (l : List LHash), l.length = 2 ^ k → 2 ^ k ≤ fuel →
    liftedMaxLogGo fuel l = k := by
  intro fuel
  induction fuel with
  | zero =>
      intro k l hl hf
      exact absurd hf (Nat.two_pow_pos k).not_le
  | succ f ih =>
      intro k l hl hf
      match k with
      | 0 => rw [liftedMaxLogGo, if_pos (by rw [hl]; norm_num)]
      | k + 1 =>
          rw [liftedMaxLogGo, if_neg (by rw [hl]; exact two_pow_succ_not_le_one k)]
          rw [ih k _ (halveLayer_length_pow hl)
            (by
              have h1 : 2 ^ k < 2 ^ (k + 1) := Nat.pow_lt_pow_right (by omega) (by omega)
              omega)]

theorem liftedMaxLog_pow {l : List LHash} {k : Nat} (h : l.length = 2 ^ k) :
    liftedMaxLog l = k :=
  liftedMaxLogGo_spec l.length k l h (by rw [h])

theorem liftedWitnessLoop_spec :
    ∀ fuel k (l : List LHash) (qs : List Nat), l.length = 2 ^ k → 2 ^ k ≤ fuel →
    liftedWitnessLoop fuel l qs = witSpecGo k l qs := by
  intro fuel
  induction fuel with
  | zero =>
      intro k l qs hl hf
      exact absurd hf (Nat.two_pow_pos k).not_le
  | succ f ih =>
      intro k l qs hl hf
      match k with
      | 0 => rw [liftedWitnessLoop, if_pos (by rw [hl]; norm_num), witSpecGo]
      | k + 1 =>
          rw [liftedWitnessLoop, if_neg (by rw [hl]; exact two_pow_succ_not_le_one k),
            witSpecGo]
          congr 1
          apply ih k _ _ (halveLayer_length_pow hl)
          have h1 : 2 ^ k < 2 ^ (k + 1) := Nat.pow_lt_pow_right (by omega) (by omega)
          omega

theorem liftedWitnessGo_spec {l : List LHash} {k : Nat} (qs : List Nat)
    (h : l.length = 2 ^ k) : liftedWitnessGo l qs = witSpecGo k l qs :=
  liftedWitnessLoop_spec l.length k l qs h (by rw [h])

/-! ## Lifted round trip -/

/-- `halveLayer` lookup: the parent of two adjacent nodes. -/
theorem halveLayer_getD {l : List LHash} {p : Nat} (h : 2 * p + 1 < l.length) :
    (halveLayer l).getD p default
      = LHash.node (l.getD (2 * p) default) (l.getD (2 * p + 1) default) := by
  unfold halveLayer
  apply getD_range_map
  rw [Nat.shiftRight_one]
  omega

/-- One layer of verification consumes exactly the builder-emitted witness
prefix and reconstructs the parent hashes of the true layer. -/
theorem liftedVerifyLayer_roundtrip (l : List LHash) :
    ∀ (qs : List Nat) (rest : List LHash),
    List.Pairwise (· < ·) qs → (∀ x ∈ qs, x < l.length) → l.length % 2 = 0 →
    liftedVerifyLayer (qs.map fun a => (a, l.getD a default))
        ((liftedLayerWalk l qs).1 ++ rest)
      = some ((liftedLayerWalk l qs).2.map fun p => (p, (halveLayer l).getD p default),
              rest) := by
  intro qs
  induction qs using liftedLayerWalk.induct l with
  | case1 =>
      intro rest _ _ _
      rfl
  | case2 a =>
      intro rest _ hb hev
      have ha := hb a (by simp)
      rw [liftedLayerWalk]
      simp only [List.map_cons, List.map_nil, List.cons_append, List.nil_append]
      rw [liftedVerifyLayer]
      have hpar : 2 * (a / 2) + 1 < l.length := by omega
      rw [halveLayer_getD hpar]
      rcases Nat.mod_two_eq_zero_or_one a with hpa | hpa
      · rw [xor_one_even hpa]
        have h2 : 2 * (a / 2) = a := by omega
        rw [if_pos hpa, h2]
      · rw [xor_one_odd hpa]
        have h2 : 2 * (a / 2) = a - 1 := by omega
        rw [if_neg (by omega), h2]
        have h4 : a - 1 + 1 = a := by omega
        rw [h4]
  | case3 a rest2 ih =>
      intro rest hp hb hev
      have hab : a < a ^^^ 1 := List.rel_of_pairwise_cons hp (by simp)
      have haeven : a % 2 = 0 := by
        rcases Nat.mod_two_eq_zero_or_one a with h | h
        · exact h
        · rw [xor_one_odd h] at hab
          omega
      have hxor : a ^^^ 1 = a + 1 := xor_one_even haeven
      have hal := hb a (by simp)
      rw [liftedLayerWalk, if_pos rfl]
      simp only [List.map_cons]
      rw [liftedVerifyLayer.eq_def]
      simp only [if_pos rfl]
      have ihr := ih rest hp.of_cons.of_cons (fun x hx => hb x (by simp [hx])) hev
      rw [ihr]
      simp only [Option.map_some', if_true]
      have hpar : 2 * (a / 2) + 1 < l.length := by omega
      rw [halveLayer_getD hpar]
      have h2 : 2 * (a / 2) = a := by omega
      rw [if_pos haeven, h2, hxor]
  | case4 a b rest2 hsib ih =>
      intro rest hp hb hev
      have hab : a < b := List.rel_of_pairwise_cons hp (by simp)
      have hal := hb a (by simp)
      rw [liftedLayerWalk, if_neg hsib]
      simp only [List.map_cons, List.cons_append]
      rw [liftedVerifyLayer.eq_def]
      simp only [if_neg hsib]
      have ihr := ih rest hp.of_cons (fun x hx => hb x (by simp [hx])) hev
      simp only [List.map_cons] at ihr
      rw [ihr]
      simp only [Option.map_some', List.map_cons]
      have hpar : 2 * (a / 2) + 1 < l.length := by omega
      rw [halveLayer_getD hpar]
      rcases Nat.mod_two_eq_zero_or_one a with hpa | hpa
      · rw [xor_one_even hpa]
        have h2 : 2 * (a / 2) = a := by omega
        rw [if_pos hpa, h2]
      · rw [xor_one_odd hpa]
        have h2 : 2 * (a / 2) = a - 1 := by omega
        rw [if_neg (by omega), h2]
        have h4 : a - 1 + 1 = a := by omega
        rw [h4]

/-- Verifying with the builder's witness (plus an arbitrary suffix)
reconstructs the commitment root and consumes exactly the witness. -/
theorem liftedVerifyGo_roundtrip :
    ∀ k (l : List LHash) (qs : List Nat) (rest : List LHash),
      l.length = 2 ^ k →
      List.Pairwise (· < ·) qs → qs ≠ [] → (∀ x ∈ qs, x < 2 ^ k) →
      liftedVerifyGo k (qs.map fun a => (a, l.getD a default)) (witSpecGo k l qs ++ rest)
        = .ok (rootSpecGo k l, rest) := by
  intro k
  induction k with
  | zero =>
      intro l qs rest hl hp hne hbound
      have hq : qs = [0] := by
        match qs with
        | [] => exact absurd rfl hne
        | [a] =>
            have := hbound a (by simp)
            simp only [pow_zero] at this
            have ha : a = 0 := by omega
            rw [ha]
        | a :: b :: t =>
            have ha := hbound a (by simp)
            have hb := hbound b (by simp)
            have hab : a < b := List.rel_of_pairwise_cons hp (by simp)
            simp only [pow_zero] at ha hb
            omega
      subst hq
      rfl
  | succ k ih =>
      intro l qs rest hl hp hne hbound
      have hev : l.length % 2 = 0 := by
        rw [hl, Nat.pow_succ]
        omega
      have hbound2 : ∀ x ∈ qs, x < l.length := by
        rw [hl]; exact hbound
      rw [witSpecGo, List.append_assoc, liftedVerifyGo,
        liftedVerifyLayer_roundtrip l qs _ hp hbound2 hev]
      have hspec := liftedLayerWalk_spec l qs hp
      have hnext_pair : List.Pairwise (· < ·) (liftedLayerWalk l qs).2 := by
        rw [hspec]
        exact vecDedup_sorted _ (pairwise_lt_map_div_two hp)
      have hnext_ne : (liftedLayerWalk l qs).2 ≠ [] := by
        rw [hspec]
        exact vecDedup_ne_nil (by simpa using hne)
      have hnext_bound : ∀ x ∈ (liftedLayerWalk l qs).2, x < 2 ^ k := by
        rw [hspec]
        intro x hx
        have hx2 := (mem_vecDedup x _).mp hx
        obtain ⟨q, hq, rfl⟩ := List.mem_map.mp hx2
        have := hbound q hq
        have h2 : (2 : Nat) ^ (k + 1) = 2 ^ k * 2 := Nat.pow_succ ..
        omega
      exact ih (halveLayer l) _ rest (halveLayer_length_pow hl) hnext_pair hnext_ne
        hnext_bound

/-! ## Sorted column order -/

instance (Ls : List Nat) : IsTotal Nat (keyRel Ls) :=
  ⟨fun a b => by unfold keyRel; omega⟩

instance (Ls : List Nat) : IsTrans Nat (keyRel Ls) :=
  ⟨fun a b c hab hbc => by
    unfold keyRel at hab hbc ⊢
    omega⟩

theorem sortedIndices_perm (Ls : List Nat) :
    (sortedIndices Ls).Perm (List.range Ls.length) :=
  List.perm_insertionSort _ _

theorem mem_sortedIndices {Ls : List Nat} {i : Nat} :
    i ∈ sortedIndices Ls ↔ i < Ls.length := by
  rw [(sortedIndices_perm Ls).mem_iff, List.mem_range]

theorem sortedIndices_pairwise (Ls : List Nat) :
    List.Pairwise (keyRel Ls) (sortedIndices Ls) :=
  List.sorted_insertionSort _ _

theorem sortedIndices_ne_nil {Ls : List Nat} (h : Ls ≠ []) : sortedIndices Ls ≠ [] := by
  intro hcon
  have := (sortedIndices_perm Ls).length_eq
  rw [hcon] at this
  simp only [List.length_nil, List.length_range] at this
  exact h (List.length_eq_zero.mp this.symm)

theorem getD_map_lt {α β : Type} [Inhabited β] (f : α → β) (l : List α) (i : Nat)
    (h : i < l.length) : (l.map f).getD i default = f (l.getD i (l.get ⟨i, h⟩)) := by
  rw [List.getD_eq_getElem?_getD, List.getElem?_map, List.getElem?_eq_getElem h]
  simp [List.getD_eq_getElem?_getD, List.getElem?_eq_getElem h]

/-- `getD` through a `map`, with the specific defaults used in this file. -/
theorem getD_map_lists (f : List Nat → List Nat) (l : List (List Nat)) (i : Nat)
    (h : i < l.length) : (l.map f).getD i [] = f (l.getD i []) := by
  rw [List.getD_eq_getElem?_getD, List.getElem?_map, List.getElem?_eq_getElem h]
  simp [List.getD_eq_getElem?_getD, List.getElem?_eq_getElem h]

theorem getD_map_nat (f : Nat → Nat) (l : List Nat) (i : Nat)
    (h : i < l.length) : (l.map f).getD i 0 = f (l.getD i 0) := by
  rw [List.getD_eq_getElem?_getD, List.getElem?_map, List.getElem?_eq_getElem h]
  simp [List.getD_eq_getElem?_getD, List.getElem?_eq_getElem h]

/-- The hypotheses on a committed column set: one log-size per column, each
column of length `2^L` with `L ≥ 1`. -/
def ColumnsOk (cols : List (List Nat)) (Ls : List Nat) : Prop :=
  cols.length = Ls.length ∧ Ls ≠ [] ∧
    (∀ i, i < Ls.length → (cols.getD i []).length = 2 ^ Ls.getD i 0 ∧ 1 ≤ Ls.getD i 0)

instance (cols : List (List Nat)) (Ls : List Nat) : Decidable (ColumnsOk cols Ls) := by
  unfold ColumnsOk
  infer_instance

theorem columnsOk_ilog2 {cols : List (List Nat)} {Ls : List Nat} (h : ColumnsOk cols Ls)
    {i : Nat} (hi : i < Ls.length) : ilog2 (cols.getD i []).length = Ls.getD i 0 := by
  rw [(h.2.2 i hi).1, ilog2_two_pow]

/-- The last sorted index carries the maximal log-size. -/
theorem sortedIndices_last_max {Ls : List Nat}
    (hM : sortedIndices Ls ≠ []) :
    Ls.getD ((sortedIndices Ls).getLast hM) 0 = maxLogSize Ls := by
  have hMlt : (sortedIndices Ls).getLast hM < Ls.length :=
    mem_sortedIndices.mp (List.getLast_mem hM)
  apply le_antisymm
  · apply le_foldr_max
    rw [List.getD_eq_getElem?_getD, List.getElem?_eq_getElem hMlt]
    exact List.getElem_mem _
  · apply foldr_max_le
    intro x hx
    obtain ⟨i, hi, rfl⟩ := List.mem_iff_getElem.mp hx
    have hmem : i ∈ sortedIndices Ls := mem_sortedIndices.mpr hi
    have hrel := pairwise_last_max (sortedIndices_pairwise Ls) hM i hmem
    have hget : Ls[i] = Ls.getD i 0 := by
      rw [List.getD_eq_getElem?_getD, List.getElem?_eq_getElem hi]
      rfl
    rw [hget]
    rcases hrel with heq | hrel
    · rw [heq]
    · unfold keyRel at hrel
      omega

/-- Closed form of the lifted leaf layer for a committed column set:
leaf `p` absorbs, in sorted order, each column's value at the local index
of the global position `p`. -/
theorem liftedLeaves_spec {cols : List (List Nat)} {Ls : List Nat}
    (h : ColumnsOk cols Ls) :
    liftedLeaves cols Ls
      = (List.range (2 ^ maxLogSize Ls)).map fun p =>
          LHash.leaf ((sortedIndices Ls).map fun i =>
            (cols.getD i []).getD (shuffleIdx (maxLogSize Ls - Ls.getD i 0) p) 0) := by
  obtain ⟨hlen, hne, hcols⟩ := h
  have hsne : sortedIndices Ls ≠ [] := sortedIndices_ne_nil hne
  have hscols_ne : liftedSortedCols cols Ls ≠ [] := by
    unfold liftedSortedCols
    simpa using hsne
  have hmem_log : ∀ c ∈ liftedSortedCols cols Ls,
      c.length = 2 ^ ilog2 c.length ∧ 1 ≤ ilog2 c.length := by
    intro c hc
    obtain ⟨i, hi, rfl⟩ := List.mem_map.mp hc
    have hilt : i < Ls.length := mem_sortedIndices.mp hi
    have h1 := (hcols i hilt).1
    have h2 := (hcols i hilt).2
    rw [columnsOk_ilog2 ⟨hlen, hne, hcols⟩ hilt]
    exact ⟨h1, h2⟩
  have hpair : List.Pairwise (fun c c' : List Nat => ilog2 c.length ≤ ilog2 c'.length)
      (liftedSortedCols cols Ls) := by
    unfold liftedSortedCols
    rw [List.pairwise_map]
    apply (sortedIndices_pairwise Ls).imp_of_mem
    intro i j hi hj hrel
    have hilt : i < Ls.length := mem_sortedIndices.mp hi
    have hjlt : j < Ls.length := mem_sortedIndices.mp hj
    rw [columnsOk_ilog2 ⟨hlen, hne, hcols⟩ hilt, columnsOk_ilog2 ⟨hlen, hne, hcols⟩ hjlt]
    unfold keyRel at hrel
    omega
  have hspec := liftedLeavesGo_spec (liftedSortedCols cols Ls).length
    (liftedSortedCols cols Ls) [] 1 le_rfl le_rfl
    (fun c hc => ⟨(hmem_log c hc).1, (hmem_log c hc).2⟩) hpair (by simp)
  have hstart :
      ((List.range (2 ^ 1)).map fun idx =>
        ([] : List (List Nat)).map fun c => c.getD (shuffleIdx (1 - ilog2 c.length) idx) 0)
        = [[], []] := by
    rfl
  have hlast_eq : lastLog 1 (liftedSortedCols cols Ls) = maxLogSize Ls := by
    have hstep : ∀ (pl : Nat) (l : List (List Nat)) (hl : l ≠ []),
        lastLog pl l = ilog2 (l.getLast hl).length := by
      intro pl l
      induction l generalizing pl with
      | nil => intro hl; exact absurd rfl hl
      | cons c t iht =>
          intro hl
          match t with
          | [] => rfl
          | c2 :: t2 =>
              have : lastLog pl (c :: c2 :: t2) = lastLog (ilog2 c.length) (c2 :: t2) := rfl
              rw [this, iht (ilog2 c.length) (by simp)]
              congr 1
    rw [hstep 1 _ hscols_ne]
    unfold liftedSortedCols
    have hgl : ((sortedIndices Ls).map fun i => cols.getD i []).getLast hscols_ne
        = cols.getD ((sortedIndices Ls).getLast hsne) [] := by
      rw [List.getLast_map]
    rw [hgl]
    have hMlt : (sortedIndices Ls).getLast hsne < Ls.length :=
      mem_sortedIndices.mp (List.getLast_mem hsne)
    rw [columnsOk_ilog2 ⟨hlen, hne, hcols⟩ hMlt]
    exact sortedIndices_last_max hsne
  rw [hstart] at hspec
  obtain ⟨c0, rest0, hmatch⟩ : ∃ c0 rest0, liftedSortedCols cols Ls = c0 :: rest0 := by
    match hm : liftedSortedCols cols Ls with
    | [] => exact absurd hm hscols_ne
    | c0 :: rest0 => exact ⟨c0, rest0, rfl⟩
  unfold liftedLeaves
  rw [hmatch,
    show buildLiftedLeaves (c0 :: rest0)
      = (liftedLeavesGo (c0 :: rest0).length (c0 :: rest0) [[], []] 1).map LHash.leaf from rfl,
    ← hmatch, hspec, hlast_eq, List.map_map]
  apply List.map_congr_left
  intro p _
  simp only [Function.comp_apply, List.nil_append]
  congr 1
  unfold liftedSortedCols
  rw [List.map_map]
  apply List.map_congr_left
  intro i hi
  simp only [Function.comp_apply]
  rw [columnsOk_ilog2 ⟨hlen, hne, hcols⟩ (mem_sortedIndices.mp hi)]

theorem liftedLeaves_length {cols : List (List Nat)} {Ls : List Nat}
    (h : ColumnsOk cols Ls) :
    (liftedLeaves cols Ls).length = 2 ^ maxLogSize Ls := by
  rw [liftedLeaves_spec h]
  simp

/-- The verifier's leaf reconstruction from `queried_values` recovers the
builder's leaf hash at every queried position. -/
theorem liftedKnown_eq {cols : List (List Nat)} {Ls : List Nat} {qs : List Nat}
    (h : ColumnsOk cols Ls) (hqb : ∀ x ∈ qs, x < 2 ^ maxLogSize Ls) :
    ((List.range qs.length).map fun j =>
      (qs.getD j 0,
       LHash.leaf ((sortedIndices Ls).map fun i =>
         ((liftedQueriedValues cols Ls qs).getD i []).getD j 0)))
    = qs.map fun a => (a, (liftedLeaves cols Ls).getD a default) := by
  have hleaves := liftedLeaves_spec h
  have hlvlen := liftedLeaves_length h
  have hmaxlog : liftedMaxLog (liftedLeaves cols Ls) = maxLogSize Ls :=
    liftedMaxLog_pow hlvlen
  have hcollen : cols.length = Ls.length := h.1
  apply List.ext_getElem?
  intro j
  rw [List.getElem?_map, List.getElem?_map]
  by_cases hj : j < qs.length
  · rw [List.getElem?_range hj, List.getElem?_eq_getElem hj]
    simp only [Option.map_some']
    have hgetj : qs.getD j 0 = qs[j] := by
      rw [List.getD_eq_getElem?_getD, List.getElem?_eq_getElem hj]
      rfl
    have hqjb : qs[j] < 2 ^ maxLogSize Ls := hqb _ (List.getElem_mem hj)
    congr 1
    refine Prod.ext hgetj ?_
    show LHash.leaf _ = ((liftedLeaves cols Ls).getD qs[j] default)
    rw [hleaves, getD_range_map _ _ _ _ hqjb]
    congr 1
    apply List.map_congr_left
    intro i hi
    have hilt : i < Ls.length := mem_sortedIndices.mp hi
    have hic : i < cols.length := by omega
    unfold liftedQueriedValues
    rw [getD_map_lists _ cols i hic, getD_map_nat _ qs j hj, hgetj, hmaxlog,
      columnsOk_ilog2 h hilt]
  · rw [List.getElem?_eq_none (by simpa using le_of_not_lt hj),
      List.getElem?_eq_none (by simpa using le_of_not_lt hj)]
    rfl

/-- The built hash witness as a structural recursion on the layer count. -/
theorem liftedWitness_eq {cols : List (List Nat)} {Ls : List Nat} {qs : List Nat}
    (h : ColumnsOk cols Ls) (hqp : List.Pairwise (· < ·) qs) :
    liftedHashWitness cols Ls qs
      = witSpecGo (maxLogSize Ls) (liftedLeaves cols Ls) qs := by
  unfold liftedHashWitness
  rw [vecDedup_eq_self qs hqp]
  exact liftedWitnessGo_spec qs (liftedLeaves_length h)

/-- The lifted round trip: the builder's queried values and hash witness
are accepted by the (spec-modelled) lifted verifier. -/
theorem liftedRoundTrip {cols : List (List Nat)} {Ls : List Nat} {qs : List Nat}
    (h : ColumnsOk cols Ls) (hqp : List.Pairwise (· < ·) qs) (hqne : qs ≠ [])
    (hqb : ∀ x ∈ qs, x < 2 ^ maxLogSize Ls) :
    liftedVerify (liftedRoot cols Ls) Ls qs (liftedQueriedValues cols Ls qs)
      (liftedHashWitness cols Ls qs) = .ok := by
  have hlvlen := liftedLeaves_length h
  have hrt := liftedVerifyGo_roundtrip (maxLogSize Ls) (liftedLeaves cols Ls) qs []
    hlvlen hqp hqne hqb
  rw [List.append_nil] at hrt
  simp only [liftedVerify]
  rw [liftedKnown_eq h hqb, liftedWitness_eq h hqp, hrt]
  simp only [List.isEmpty_nil, if_true]
  rw [if_pos]
  unfold liftedRoot
  rw [liftedRootOf_spec hlvlen]

/-! ## Grouped round trip: per-layer stream correspondence -/

theorem takeN_append (v r : List Nat) : takeN v.length (v ++ r) = some (v, r) := by
  induction v with
  | nil => rfl
  | cons x t ih =>
      show (takeN t.length (t ++ r)).map (fun p => (x :: p.1, p.2)) = some (x :: t, r)
      rw [ih]
      rfl

theorem takeN_append' (n : Nat) (v r : List Nat) (h : v.length = n) :
    takeN n (v ++ r) = some (v, r) := by
  subst h
  exact takeN_append v r

/-- The verifier child step mirrors the builder child step: consuming the
emitted witness prefix yields exactly the two child hashes of the node
`a / 2` and drops the same known children. -/
theorem gvChildStep_of_gChildStep (ph : List GHash) (a : Nat) (prest : List Nat)
    (hw' : List GHash) :
    gvChildStep a (ph.getD a default) (prest.map fun x => (x, ph.getD x default))
        ((gChildStep ph a prest).1 ++ hw')
      = some (ph.getD (2 * (a / 2)) default, ph.getD (2 * (a / 2) + 1) default,
              (gChildStep ph a prest).2.map fun x => (x, ph.getD x default), hw') := by
  rcases Nat.mod_two_eq_zero_or_one a with hpa | hpa
  · have h2 : 2 * (a / 2) = a := by omega
    match prest with
    | [] =>
        simp [gChildStep, gvChildStep, hpa, h2]
    | a2 :: prest2 =>
        by_cases ha2 : a2 = a + 1
        · simp [gChildStep, gvChildStep, hpa, h2, ha2]
        · simp [gChildStep, gvChildStep, hpa, h2, ha2]
  · have h2 : 2 * (a / 2) = a - 1 := by omega
    have h3 : 2 * (a / 2) + 1 = a := by omega
    have hne : ¬ a % 2 = 0 := by omega
    have h4 : a - 1 + 1 = a := by omega
    simp [gChildStep, gvChildStep, hne, h2, h3, h4]

theorem gChildStep_snd_subset (ph : List GHash) (a : Nat) (prest : List Nat) :
    ∀ x ∈ (gChildStep ph a prest).2, x ∈ prest := by
  unfold gChildStep
  split
  · match prest with
    | [] => simp
    | a2 :: prest2 =>
        by_cases ha2 : a2 = a + 1 <;> simp [ha2]
        intro x hx
        exact Or.inr hx
  · simp

/-- After the child step at node `a / 2`, every remaining known child is at
least `2 * (a / 2) + 2` (i.e. its parent is strictly above `a / 2`). -/
theorem gChildStep_snd_lb (ph : List GHash) (a : Nat) (prest : List Nat)
    (hp : List.Pairwise (· < ·) prest) (hgt : ∀ x ∈ prest, a < x) :
    ∀ x ∈ (gChildStep ph a prest).2, 2 * (a / 2) + 2 ≤ x := by
  unfold gChildStep
  rcases Nat.mod_two_eq_zero_or_one a with hpa | hpa
  · rw [if_pos hpa]
    match prest with
    | [] => simp
    | a2 :: prest2 =>
        dsimp only
        by_cases ha2 : a2 = a + 1
        · rw [if_pos ha2]
          intro x hx
          have h1 := List.rel_of_pairwise_cons hp hx
          omega
        · rw [if_neg ha2]
          intro x hx
          rcases List.mem_cons.mp hx with rfl | hmem
          · have := hgt x (by simp)
            omega
          · have h1 := List.rel_of_pairwise_cons hp hmem
            have h2 := hgt a2 (by simp)
            omega
  · rw [if_neg (by omega)]
    intro x hx
    have := hgt x hx
    omega

theorem gChildStep_snd_sublist (ph : List GHash) (a : Nat) (prest : List Nat) :
    (gChildStep ph a prest).2.Sublist prest := by
  unfold gChildStep
  split
  · match prest with
    | [] => simp
    | a2 :: prest2 =>
        dsimp only
        by_cases ha2 : a2 = a + 1
        · rw [if_pos ha2]
          exact (List.sublist_cons_self _ _)
        · rw [if_neg ha2]
  · exact List.Sublist.refl _

/-- Every visited node is either the parent of a known child or an explicit
query of this layer. -/
theorem gWalkInnerGo_visited_mem (ph : List GHash) (lc : List (List Nat)) :
    ∀ fuel prevQ layerQ x, x ∈ (gWalkInnerGo ph lc fuel prevQ layerQ).1 →
      (∃ a ∈ prevQ, x = a / 2) ∨ x ∈ layerQ := by
  intro fuel
  induction fuel with
  | zero =>
      intro prevQ layerQ x hx
      match prevQ, layerQ with
      | [], [] => simp [gWalkInnerGo] at hx
      | [], _ :: _ => simp [gWalkInnerGo] at hx
      | _ :: _, [] => simp [gWalkInnerGo] at hx
      | _ :: _, _ :: _ => simp [gWalkInnerGo] at hx
  | succ fuel ih =>
      intro prevQ layerQ x hx
      match prevQ, layerQ with
      | [], [] => simp [gWalkInnerGo] at hx
      | [], b :: qrest =>
          rw [show (gWalkInnerGo ph lc (fuel + 1) [] (b :: qrest)).1
              = b :: (gWalkInnerGo ph lc fuel [] qrest).1 from rfl] at hx
          rcases List.mem_cons.mp hx with rfl | hmem
          · right; simp
          · rcases ih [] qrest x hmem with h | h
            · simp at h
            · right; simp [h]
      | a :: prest, [] =>
          rw [show (gWalkInnerGo ph lc (fuel + 1) (a :: prest) []).1
              = a / 2 :: (gWalkInnerGo ph lc fuel (gChildStep ph a prest).2 []).1 from rfl]
            at hx
          rcases List.mem_cons.mp hx with rfl | hmem
          · exact Or.inl ⟨a, by simp⟩
          · rcases ih _ [] x hmem with ⟨a2, ha2, rfl⟩ | h
            · exact Or.inl ⟨a2, by
                simp only [List.mem_cons]
                exact Or.inr ((gChildStep_snd_sublist ph a prest).mem ha2), rfl⟩
            · simp at h
      | a :: prest, b :: qrest =>
          by_cases h1 : b < a / 2
          · rw [show (gWalkInnerGo ph lc (fuel + 1) (a :: prest) (b :: qrest)).1
                = b :: (gWalkInnerGo ph lc fuel (a :: prest) qrest).1 from by
                  rw [gWalkInnerGo.eq_def]
                  simp [h1]] at hx
            rcases List.mem_cons.mp hx with rfl | hmem
            · right; simp
            · rcases ih _ qrest x hmem with h | h
              · exact Or.inl h
              · right; simp [h]
          · by_cases h2 : b = a / 2
            · rw [show (gWalkInnerGo ph lc (fuel + 1) (a :: prest) (b :: qrest)).1
                  = a / 2 :: (gWalkInnerGo ph lc fuel (gChildStep ph a prest).2 qrest).1 from by
                    rw [gWalkInnerGo.eq_def]
                    simp [h1, h2]] at hx
              rcases List.mem_cons.mp hx with rfl | hmem
              · exact Or.inl ⟨a, by simp⟩
              · rcases ih _ qrest x hmem with ⟨a2, ha2, rfl⟩ | h
                · exact Or.inl ⟨a2, by
                    simp only [List.mem_cons]
                    exact Or.inr ((gChildStep_snd_sublist ph a prest).mem ha2), rfl⟩
                · right; simp [h]
            · rw [show (gWalkInnerGo ph lc (fuel + 1) (a :: prest) (b :: qrest)).1
                  = a / 2 ::
                    (gWalkInnerGo ph lc fuel (gChildStep ph a prest).2 (b :: qrest)).1 from by
                    rw [gWalkInnerGo.eq_def]
                    simp [h1, h2]] at hx
              rcases List.mem_cons.mp hx with rfl | hmem
              · exact Or.inl ⟨a, by simp⟩
              · rcases ih _ (b :: qrest) x hmem with ⟨a2, ha2, rfl⟩ | h
                · exact Or.inl ⟨a2, by
                    simp only [List.mem_cons]
                    exact Or.inr ((gChildStep_snd_sublist ph a prest).mem ha2), rfl⟩
                · right; exact h

/-- The visited indices of a layer are strictly increasing. -/
theorem gWalkInnerGo_visited_pairwise (ph : List GHash) (lc : List (List Nat)) :
    ∀ fuel prevQ layerQ, List.Pairwise (· < ·) prevQ → List.Pairwise (· < ·) layerQ →
      List.Pairwise (· < ·) (gWalkInnerGo ph lc fuel prevQ layerQ).1 := by
  intro fuel
  induction fuel with
  | zero =>
      intro prevQ layerQ _ _
      match prevQ, layerQ with
      | [], [] => simp [gWalkInnerGo]
      | [], _ :: _ => simp [gWalkInnerGo]
      | _ :: _, [] => simp [gWalkInnerGo]
      | _ :: _, _ :: _ => simp [gWalkInnerGo]
  | succ fuel ih =>
      intro prevQ layerQ hpp hpl
      have hbound : ∀ (prevQ2 layerQ2 : List Nat) (m : Nat),
          (∀ a2 ∈ prevQ2, m < a2 / 2) → (∀ b2 ∈ layerQ2, m < b2) →
          ∀ x ∈ (gWalkInnerGo ph lc fuel prevQ2 layerQ2).1, m < x := by
        intro prevQ2 layerQ2 m hm1 hm2 x hx
        rcases gWalkInnerGo_visited_mem ph lc fuel prevQ2 layerQ2 x hx with ⟨a2, ha2, rfl⟩ | h
        · exact hm1 a2 ha2
        · exact hm2 x h
      match prevQ, layerQ with
      | [], [] => simp [gWalkInnerGo]
      | [], b :: qrest =>
          rw [show (gWalkInnerGo ph lc (fuel + 1) [] (b :: qrest)).1
              = b :: (gWalkInnerGo ph lc fuel [] qrest).1 from rfl]
          refine List.pairwise_cons.mpr ⟨?_, ih [] qrest (by simp) hpl.of_cons⟩
          exact hbound [] qrest b (by simp) (fun b2 hb2 => List.rel_of_pairwise_cons hpl hb2)
      | a :: prest, [] =>
          rw [show (gWalkInnerGo ph lc (fuel + 1) (a :: prest) []).1
              = a / 2 :: (gWalkInnerGo ph lc fuel (gChildStep ph a prest).2 []).1 from rfl]
          have hprest2 : List.Pairwise (· < ·) (gChildStep ph a prest).2 :=
            hpp.of_cons.sublist (gChildStep_snd_sublist ph a prest)
          refine List.pairwise_cons.mpr ⟨?_, ih _ [] hprest2 (by simp)⟩
          apply hbound _ [] (a / 2) ?_ (by simp)
          intro a2 ha2
          have := gChildStep_snd_lb ph a prest hpp.of_cons
            (fun x hx => List.rel_of_pairwise_cons hpp hx) a2 ha2
          omega
      | a :: prest, b :: qrest =>
          have hprest2 : List.Pairwise (· < ·) (gChildStep ph a prest).2 :=
            hpp.of_cons.sublist (gChildStep_snd_sublist ph a prest)
          have hchild_lb : ∀ a2 ∈ (gChildStep ph a prest).2, a / 2 < a2 / 2 := by
            intro a2 ha2
            have := gChildStep_snd_lb ph a prest hpp.of_cons
              (fun x hx => List.rel_of_pairwise_cons hpp hx) a2 ha2
            omega
          by_cases h1 : b < a / 2
          · rw [show (gWalkInnerGo ph lc (fuel + 1) (a :: prest) (b :: qrest)).1
                = b :: (gWalkInnerGo ph lc fuel (a :: prest) qrest).1 from by
                  rw [gWalkInnerGo.eq_def]
                  simp [h1]]
            refine List.pairwise_cons.mpr ⟨?_, ih _ qrest hpp hpl.of_cons⟩
            apply hbound (a :: prest) qrest b ?_
              (fun b2 hb2 => List.rel_of_pairwise_cons hpl hb2)
            intro a2 ha2
            rcases List.mem_cons.mp ha2 with rfl | hmem
            · omega
            · have h3 : a < a2 := List.rel_of_pairwise_cons hpp hmem
              have : a / 2 ≤ a2 / 2 := Nat.div_le_div_right (by omega)
              omega
          · by_cases h2 : b = a / 2
            · rw [show (gWalkInnerGo ph lc (fuel + 1) (a :: prest) (b :: qrest)).1
                  = a / 2 :: (gWalkInnerGo ph lc fuel (gChildStep ph a prest).2 qrest).1 from by
                    rw [gWalkInnerGo.eq_def]
                    simp [h1, h2]]
              refine List.pairwise_cons.mpr ⟨?_, ih _ qrest hprest2 hpl.of_cons⟩
              apply hbound _ qrest (a / 2) hchild_lb
              intro b2 hb2
              have := List.rel_of_pairwise_cons hpl hb2
              omega
            · rw [show (gWalkInnerGo ph lc (fuel + 1) (a :: prest) (b :: qrest)).1
                  = a / 2 ::
                    (gWalkInnerGo ph lc fuel (gChildStep ph a prest).2 (b :: qrest)).1 from by
                    rw [gWalkInnerGo.eq_def]
                    simp [h1, h2]]
              refine List.pairwise_cons.mpr ⟨?_, ih _ (b :: qrest) hprest2 hpl⟩
              apply hbound _ (b :: qrest) (a / 2) hchild_lb
              intro b2 hb2
              rcases List.mem_cons.mp hb2 with rfl | hmem
              · omega
              · have := List.rel_of_pairwise_cons hpl hmem
                omega

/-- Verifier arm: query node with no known children. -/
theorem gvWalkGo_arm_query (nCols fuel b : Nat) (qrest : List Nat) (l r : GHash)
    (hw2 : List GHash) (vals qv2 cw : List Nat) (hlen : vals.length = nCols) :
    gvWalkGo nCols (fuel + 1) [] (b :: qrest) (l :: r :: hw2) (vals ++ qv2) cw
      = (gvWalkGo nCols fuel [] qrest hw2 qv2 cw).map fun res =>
          ((b, GHash.inner l r vals) :: res.1, res.2.1, res.2.2.1, res.2.2.2) := by
  rw [gvWalkGo.eq_def]
  dsimp only
  rw [← hlen, takeN_append]

/-- Verifier arm: known-child node, queried (`b = a / 2`). -/
theorem gvWalkGo_arm_known_query (nCols fuel a : Nat) (h : GHash)
    (prestK : List (Nat × GHash)) (qrest : List Nat) (l r : GHash)
    (hw hw2 : List GHash) (prestK2 : List (Nat × GHash)) (vals qv2 cw : List Nat)
    (hchild : gvChildStep a h prestK hw = some (l, r, prestK2, hw2))
    (hlen : vals.length = nCols) :
    gvWalkGo nCols (fuel + 1) ((a, h) :: prestK) (a / 2 :: qrest) hw (vals ++ qv2) cw
      = (gvWalkGo nCols fuel prestK2 qrest hw2 qv2 cw).map fun res =>
          ((a / 2, GHash.inner l r vals) :: res.1, res.2.1, res.2.2.1, res.2.2.2) := by
  rw [gvWalkGo.eq_def]
  dsimp only
  rw [if_neg (by omega), hchild]
  dsimp only
  rw [if_pos rfl, ← hlen, takeN_append]

/-- Verifier arm: known-child node, not queried (empty layer queries). -/
theorem gvWalkGo_arm_known_nil (nCols fuel a : Nat) (h : GHash)
    (prestK : List (Nat × GHash)) (l r : GHash)
    (hw hw2 : List GHash) (prestK2 : List (Nat × GHash)) (vals qv cw2 : List Nat)
    (hchild : gvChildStep a h prestK hw = some (l, r, prestK2, hw2))
    (hlen : vals.length = nCols) :
    gvWalkGo nCols (fuel + 1) ((a, h) :: prestK) [] hw qv (vals ++ cw2)
      = (gvWalkGo nCols fuel prestK2 [] hw2 qv cw2).map fun res =>
          ((a / 2, GHash.inner l r vals) :: res.1, res.2.1, res.2.2.1, res.2.2.2) := by
  rw [gvWalkGo.eq_def]
  dsimp only
  rw [hchild]
  dsimp only
  rw [← hlen, takeN_append]

/-- Verifier arm: known-child node, not queried (`a / 2 < b`). -/
theorem gvWalkGo_arm_known_unqueried (nCols fuel a b : Nat) (h : GHash)
    (prestK : List (Nat × GHash)) (qrest : List Nat) (l r : GHash)
    (hw hw2 : List GHash) (prestK2 : List (Nat × GHash)) (vals qv cw2 : List Nat)
    (hb : a / 2 < b)
    (hchild : gvChildStep a h prestK hw = some (l, r, prestK2, hw2))
    (hlen : vals.length = nCols) :
    gvWalkGo nCols (fuel + 1) ((a, h) :: prestK) (b :: qrest) hw qv (vals ++ cw2)
      = (gvWalkGo nCols fuel prestK2 (b :: qrest) hw2 qv cw2).map fun res =>
          ((a / 2, GHash.inner l r vals) :: res.1, res.2.1, res.2.2.1, res.2.2.2) := by
  rw [gvWalkGo.eq_def]
  dsimp only
  rw [if_neg (by omega), hchild]
  dsimp only
  rw [if_neg (by omega), ← hlen, takeN_append]

/-- Verifier arm: query node below the next known parent (`b < a / 2`). -/
theorem gvWalkGo_arm_query_below (nCols fuel a b : Nat) (h : GHash)
    (prestK : List (Nat × GHash)) (qrest : List Nat) (l r : GHash)
    (hw2 : List GHash) (vals qv2 cw : List Nat)
    (hb : b < a / 2) (hlen : vals.length = nCols) :
    gvWalkGo nCols (fuel + 1) ((a, h) :: prestK) (b :: qrest) (l :: r :: hw2)
        (vals ++ qv2) cw
      = (gvWalkGo nCols fuel ((a, h) :: prestK) qrest hw2 qv2 cw).map fun res =>
          ((b, GHash.inner l r vals) :: res.1, res.2.1, res.2.2.1, res.2.2.2) := by
  rw [gvWalkGo.eq_def]
  dsimp only
  rw [if_pos hb, ← hlen, takeN_append]

/-- Per-layer round trip of the grouped scheme: the verifier's replay of the
builder traversal consumes exactly the emitted streams and reconstructs, for
every visited node, the node built from its two child hashes and its native
column values. -/
theorem gWalkGo_roundtrip (ph : List GHash) (lc : List (List Nat)) :
    ∀ fuel prevQ layerQ (hwR : List GHash) (qvR cwR : List Nat),
      gvWalkGo lc.length fuel (prevQ.map fun a => (a, ph.getD a default)) layerQ
          ((gWalkInnerGo ph lc fuel prevQ layerQ).2.1 ++ hwR)
          ((gWalkInnerGo ph lc fuel prevQ layerQ).2.2.1 ++ qvR)
          ((gWalkInnerGo ph lc fuel prevQ layerQ).2.2.2 ++ cwR)
        = .ok ((gWalkInnerGo ph lc fuel prevQ layerQ).1.map
                 (fun i => (i, GHash.inner (ph.getD (2 * i) default)
                   (ph.getD (2 * i + 1) default) (lc.map fun c => c.getD i 0))),
               hwR, qvR, cwR) := by
  intro fuel
  induction fuel with
  | zero =>
      intro prevQ layerQ hwR qvR cwR
      match prevQ, layerQ with
      | [], [] => simp [gWalkInnerGo, gvWalkGo]
      | [], _ :: _ => simp [gWalkInnerGo, gvWalkGo]
      | _ :: _, [] => simp [gWalkInnerGo, gvWalkGo]
      | _ :: _, _ :: _ => simp [gWalkInnerGo, gvWalkGo]
  | succ fuel ih =>
      intro prevQ layerQ hwR qvR cwR
      match prevQ, layerQ with
      | [], [] => simp [gWalkInnerGo, gvWalkGo]
      | [], b :: qrest =>
          rw [show gWalkInnerGo ph lc (fuel + 1) [] (b :: qrest)
              = (b :: (gWalkInnerGo ph lc fuel [] qrest).1,
                 ph.getD (2 * b) default :: ph.getD (2 * b + 1) default ::
                   (gWalkInnerGo ph lc fuel [] qrest).2.1,
                 (lc.map fun c => c.getD b 0) ++ (gWalkInnerGo ph lc fuel [] qrest).2.2.1,
                 (gWalkInnerGo ph lc fuel [] qrest).2.2.2) from rfl]
          simp only [List.map_nil, List.cons_append, List.append_assoc]
          rw [gvWalkGo_arm_query lc.length fuel b qrest (ph.getD (2 * b) default)
            (ph.getD (2 * b + 1) default) ((gWalkInnerGo ph lc fuel [] qrest).2.1 ++ hwR)
            (lc.map fun c => c.getD b 0)
            ((gWalkInnerGo ph lc fuel [] qrest).2.2.1 ++ qvR)
            ((gWalkInnerGo ph lc fuel [] qrest).2.2.2 ++ cwR) (by simp)]
          have hih := ih [] qrest hwR qvR cwR
          simp only [List.map_nil] at hih
          rw [hih]
          rfl
      | a :: prest, [] =>
          rw [show gWalkInnerGo ph lc (fuel + 1) (a :: prest) []
              = (a / 2 :: (gWalkInnerGo ph lc fuel (gChildStep ph a prest).2 []).1,
                 (gChildStep ph a prest).1 ++
                   (gWalkInnerGo ph lc fuel (gChildStep ph a prest).2 []).2.1,
                 (gWalkInnerGo ph lc fuel (gChildStep ph a prest).2 []).2.2.1,
                 (lc.map fun c => c.getD (a / 2) 0) ++
                   (gWalkInnerGo ph lc fuel (gChildStep ph a prest).2 []).2.2.2) from rfl]
          simp only [List.map_cons, List.cons_append, List.append_assoc]
          rw [gvWalkGo_arm_known_nil lc.length fuel a (ph.getD a default)
            (prest.map fun x => (x, ph.getD x default))
            (ph.getD (2 * (a / 2)) default) (ph.getD (2 * (a / 2) + 1) default)
            ((gChildStep ph a prest).1 ++
              ((gWalkInnerGo ph lc fuel (gChildStep ph a prest).2 []).2.1 ++ hwR))
            ((gWalkInnerGo ph lc fuel (gChildStep ph a prest).2 []).2.1 ++ hwR)
            ((gChildStep ph a prest).2.map fun x => (x, ph.getD x default))
            (lc.map fun c => c.getD (a / 2) 0)
            ((gWalkInnerGo ph lc fuel (gChildStep ph a prest).2 []).2.2.1 ++ qvR)
            ((gWalkInnerGo ph lc fuel (gChildStep ph a prest).2 []).2.2.2 ++ cwR)
            (gvChildStep_of_gChildStep ph a prest _) (by simp)]
          rw [ih (gChildStep ph a prest).2 [] hwR qvR cwR]
          rfl
      | a :: prest, b :: qrest =>
          by_cases h1 : b < a / 2
          · rw [show gWalkInnerGo ph lc (fuel + 1) (a :: prest) (b :: qrest)
                = (b :: (gWalkInnerGo ph lc fuel (a :: prest) qrest).1,
                   ph.getD (2 * b) default :: ph.getD (2 * b + 1) default ::
                     (gWalkInnerGo ph lc fuel (a :: prest) qrest).2.1,
                   (lc.map fun c => c.getD b 0) ++
                     (gWalkInnerGo ph lc fuel (a :: prest) qrest).2.2.1,
                   (gWalkInnerGo ph lc fuel (a :: prest) qrest).2.2.2) from by
                  rw [gWalkInnerGo.eq_def]
                  simp [h1]]
            simp only [List.map_cons, List.cons_append, List.append_assoc]
            rw [gvWalkGo_arm_query_below lc.length fuel a b (ph.getD a default)
              (prest.map fun x => (x, ph.getD x default)) qrest
              (ph.getD (2 * b) default) (ph.getD (2 * b + 1) default)
              ((gWalkInnerGo ph lc fuel (a :: prest) qrest).2.1 ++ hwR)
              (lc.map fun c => c.getD b 0)
              ((gWalkInnerGo ph lc fuel (a :: prest) qrest).2.2.1 ++ qvR)
              ((gWalkInnerGo ph lc fuel (a :: prest) qrest).2.2.2 ++ cwR) h1 (by simp)]
            have hih := ih (a :: prest) qrest hwR qvR cwR
            simp only [List.map_cons] at hih
            rw [hih]
            rfl
          · by_cases h2 : b = a / 2
            · subst h2
              rw [show gWalkInnerGo ph lc (fuel + 1) (a :: prest) (a / 2 :: qrest)
                  = (a / 2 :: (gWalkInnerGo ph lc fuel (gChildStep ph a prest).2 qrest).1,
                     (gChildStep ph a prest).1 ++
                       (gWalkInnerGo ph lc fuel (gChildStep ph a prest).2 qrest).2.1,
                     (lc.map fun c => c.getD (a / 2) 0) ++
                       (gWalkInnerGo ph lc fuel (gChildStep ph a prest).2 qrest).2.2.1,
                     (gWalkInnerGo ph lc fuel (gChildStep ph a prest).2 qrest).2.2.2) from by
                    rw [gWalkInnerGo.eq_def]
                    simp [h1]]
              simp only [List.map_cons, List.cons_append, List.append_assoc]
              rw [gvWalkGo_arm_known_query lc.length fuel a (ph.getD a default)
                (prest.map fun x => (x, ph.getD x default)) qrest
                (ph.getD (2 * (a / 2)) default) (ph.getD (2 * (a / 2) + 1) default)
                ((gChildStep ph a prest).1 ++
                  ((gWalkInnerGo ph lc fuel (gChildStep ph a prest).2 qrest).2.1 ++ hwR))
                ((gWalkInnerGo ph lc fuel (gChildStep ph a prest).2 qrest).2.1 ++ hwR)
                ((gChildStep ph a prest).2.map fun x => (x, ph.getD x default))
                (lc.map fun c => c.getD (a / 2) 0)
                ((gWalkInnerGo ph lc fuel (gChildStep ph a prest).2 qrest).2.2.1 ++ qvR)
                ((gWalkInnerGo ph lc fuel (gChildStep ph a prest).2 qrest).2.2.2 ++ cwR)
                (gvChildStep_of_gChildStep ph a prest _) (by simp)]
              rw [ih (gChildStep ph a prest).2 qrest hwR qvR cwR]
              rfl
            · have h3 : a / 2 < b := by omega
              rw [show gWalkInnerGo ph lc (fuel + 1) (a :: prest) (b :: qrest)
                  = (a / 2 ::
                       (gWalkInnerGo ph lc fuel (gChildStep ph a prest).2 (b :: qrest)).1,
                     (gChildStep ph a prest).1 ++
                       (gWalkInnerGo ph lc fuel (gChildStep ph a prest).2 (b :: qrest)).2.1,
                     (gWalkInnerGo ph lc fuel (gChildStep ph a prest).2 (b :: qrest)).2.2.1,
                     (lc.map fun c => c.getD (a / 2) 0) ++
                       (gWalkInnerGo ph lc fuel (gChildStep ph a prest).2
                         (b :: qrest)).2.2.2) from by
                    rw [gWalkInnerGo.eq_def]
                    simp [h1, h2]]
              simp only [List.map_cons, List.cons_append, List.append_assoc]
              rw [gvWalkGo_arm_known_unqueried lc.length fuel a b (ph.getD a default)
                (prest.map fun x => (x, ph.getD x default)) qrest
                (ph.getD (2 * (a / 2)) default) (ph.getD (2 * (a / 2) + 1) default)
                ((gChildStep ph a prest).1 ++
                  ((gWalkInnerGo ph lc fuel (gChildStep ph a prest).2 (b :: qrest)).2.1
                    ++ hwR))
                ((gWalkInnerGo ph lc fuel (gChildStep ph a prest).2 (b :: qrest)).2.1 ++ hwR)
                ((gChildStep ph a prest).2.map fun x => (x, ph.getD x default))
                (lc.map fun c => c.getD (a / 2) 0)
                ((gWalkInnerGo ph lc fuel (gChildStep ph a prest).2 (b :: qrest)).2.2.1
                  ++ qvR)
                ((gWalkInnerGo ph lc fuel (gChildStep ph a prest).2 (b :: qrest)).2.2.2
                  ++ cwR)
                h3 (gvChildStep_of_gChildStep ph a prest _) (by simp)]
              rw [ih (gChildStep ph a prest).2 (b :: qrest) hwR qvR cwR]
              rfl

theorem gWalkTop_visited (lc : List (List Nat)) : ∀ qs, (gWalkTop lc qs).1 = qs := by
  intro qs
  induction qs with
  | nil => rfl
  | cons b qrest ih =>
      show b :: (gWalkTop lc qrest).1 = b :: qrest
      rw [ih]

theorem gvWalkTop_roundtrip (lc : List (List Nat)) :
    ∀ (qs qvR : List Nat),
      gvWalkTop lc.length qs ((gWalkTop lc qs).2 ++ qvR)
        = .ok (qs.map fun b => (b, GHash.top (lc.map fun c => c.getD b 0)), qvR) := by
  intro qs
  induction qs with
  | nil => intro qvR; rfl
  | cons b qrest ih =>
      intro qvR
      show gvWalkTop lc.length (b :: qrest)
          (((lc.map fun c => c.getD b 0) ++ (gWalkTop lc qrest).2) ++ qvR) = _
      rw [List.append_assoc, gvWalkTop, takeN_append' lc.length _ _ (by simp)]
      dsimp only
      rw [ih]
      rfl

/-- A non-empty known or query set yields a non-empty visited set. -/
theorem gWalkInnerGo_ne_nil (ph : List GHash) (lc : List (List Nat)) (fuel : Nat)
    (prevQ layerQ : List Nat) (h : prevQ ≠ []) :
    (gWalkInnerGo ph lc (fuel + 1) prevQ layerQ).1 ≠ [] := by
  match prevQ, layerQ with
  | [], _ => exact absurd rfl h
  | a :: prest, [] => simp [show (gWalkInnerGo ph lc (fuel + 1) (a :: prest) []).1
      = a / 2 :: (gWalkInnerGo ph lc fuel (gChildStep ph a prest).2 []).1 from rfl]
  | a :: prest, b :: qrest =>
      by_cases h1 : b < a / 2
      · rw [show (gWalkInnerGo ph lc (fuel + 1) (a :: prest) (b :: qrest)).1
            = b :: (gWalkInnerGo ph lc fuel (a :: prest) qrest).1 from by
              rw [gWalkInnerGo.eq_def]; simp [h1]]
        simp
      · by_cases h2 : b = a / 2
        · rw [show (gWalkInnerGo ph lc (fuel + 1) (a :: prest) (b :: qrest)).1
              = a / 2 :: (gWalkInnerGo ph lc fuel (gChildStep ph a prest).2 qrest).1 from by
                rw [gWalkInnerGo.eq_def]; simp [h1, h2]]
          simp
        · rw [show (gWalkInnerGo ph lc (fuel + 1) (a :: prest) (b :: qrest)).1
              = a / 2 ::
                (gWalkInnerGo ph lc fuel (gChildStep ph a prest).2 (b :: qrest)).1 from by
                rw [gWalkInnerGo.eq_def]; simp [h1, h2]]
          simp

/-! ## Grouped layer hashes -/

theorem gLayersAux_length (colsBy : Nat → List (List Nat)) (maxL : Nat) :
    ∀ d, (gLayersAux colsBy maxL d).length = 2 ^ (maxL - d) := by
  intro d
  match d with
  | 0 => simp [gLayersAux]
  | d + 1 => simp [gLayersAux]

theorem gLayer_length (colsBy : Nat → List (List Nat)) (maxL L : Nat) (h : L ≤ maxL) :
    (gLayer colsBy maxL L).length = 2 ^ L := by
  unfold gLayer
  rw [gLayersAux_length]
  congr 1
  omega

theorem gLayer_getD_top (colsBy : Nat → List (List Nat)) (maxL i : Nat)
    (h : i < 2 ^ maxL) :
    (gLayer colsBy maxL maxL).getD i default = GHash.top (gValsAt colsBy maxL i) := by
  unfold gLayer
  rw [Nat.sub_self]
  exact getD_range_map _ _ _ _ h

theorem gLayer_getD_inner (colsBy : Nat → List (List Nat)) (maxL L i : Nat)
    (hL : L < maxL) (hi : i < 2 ^ L) :
    (gLayer colsBy maxL L).getD i default
      = GHash.inner ((gLayer colsBy maxL (L + 1)).getD (2 * i) default)
          ((gLayer colsBy maxL (L + 1)).getD (2 * i + 1) default)
          (gValsAt colsBy L i) := by
  unfold gLayer
  have hd : maxL - L = (maxL - (L + 1)) + 1 := by omega
  rw [hd, gLayersAux]
  have hL2 : maxL - ((maxL - (L + 1)) + 1) = L := by omega
  rw [hL2]
  exact getD_range_map _ _ _ _ hi

/-! ## Grouped loop round trip -/

theorem gVerifyLoop_roundtrip (colsBy : Nat → List (List Nat)) (qsBy : Nat → List Nat)
    (maxL : Nat) (nColsF : Nat → Nat) (hncols : ∀ L, nColsF L = (colsBy L).length)
    (hqs : ∀ L, ∀ x ∈ qsBy L, x < 2 ^ L)
    (hqp : ∀ L, List.Pairwise (· < ·) (qsBy L)) :
    ∀ n (prevQ : List Nat) (hwR : List GHash) (qvR cwR : List Nat),
      n ≤ maxL →
      (∀ x ∈ prevQ, x < 2 ^ n) →
      List.Pairwise (· < ·) prevQ →
      gVerifyLoop nColsF qsBy maxL n
          (prevQ.map fun a => (a, (gLayer colsBy maxL n).getD a default))
          ((gDecommitLoop colsBy qsBy maxL n prevQ).2.1 ++ hwR)
          ((gDecommitLoop colsBy qsBy maxL n prevQ).2.2.1 ++ qvR)
          ((gDecommitLoop colsBy qsBy maxL n prevQ).2.2.2 ++ cwR)
        = .ok ((gDecommitLoop colsBy qsBy maxL n prevQ).1.map
                 (fun a => (a, (gLayer colsBy maxL 0).getD a default)), hwR, qvR, cwR) := by
  intro n
  induction n with
  | zero =>
      intro prevQ hwR qvR cwR _ _ _
      simp [gDecommitLoop, gVerifyLoop]
  | succ n ih =>
      intro prevQ hwR qvR cwR hn hb hp
      have hnmax : ¬ n = maxL := by omega
      have hstep : gDecommitLoop colsBy qsBy maxL (n + 1) prevQ
          = ((gDecommitLoop colsBy qsBy maxL n
                (gWalkInner (gLayer colsBy maxL (n + 1)) (colsBy n) prevQ (qsBy n)).1).1,
             (gWalkInner (gLayer colsBy maxL (n + 1)) (colsBy n) prevQ (qsBy n)).2.1 ++
               (gDecommitLoop colsBy qsBy maxL n
                 (gWalkInner (gLayer colsBy maxL (n + 1)) (colsBy n) prevQ (qsBy n)).1).2.1,
             (gWalkInner (gLayer colsBy maxL (n + 1)) (colsBy n) prevQ (qsBy n)).2.2.1 ++
               (gDecommitLoop colsBy qsBy maxL n
                 (gWalkInner (gLayer colsBy maxL (n + 1)) (colsBy n) prevQ
                   (qsBy n)).1).2.2.1,
             (gWalkInner (gLayer colsBy maxL (n + 1)) (colsBy n) prevQ (qsBy n)).2.2.2 ++
               (gDecommitLoop colsBy qsBy maxL n
                 (gWalkInner (gLayer colsBy maxL (n + 1)) (colsBy n) prevQ
                   (qsBy n)).1).2.2.2) := by
        rw [gDecommitLoop.eq_def]
        simp [hnmax]
      rw [hstep]
      rw [gVerifyLoop.eq_def]
      simp only [if_neg hnmax]
      rw [show gvWalk (nColsF n)
            (prevQ.map fun a => (a, (gLayer colsBy maxL (n + 1)).getD a default)) (qsBy n)
          = gvWalkGo (nColsF n) (prevQ.length + (qsBy n).length)
              (prevQ.map fun a => (a, (gLayer colsBy maxL (n + 1)).getD a default))
              (qsBy n) from by
            unfold gvWalk
            rw [List.length_map]]
      rw [hncols n]
      simp only [List.append_assoc]
      rw [show gWalkInner (gLayer colsBy maxL (n + 1)) (colsBy n) prevQ (qsBy n)
          = gWalkInnerGo (gLayer colsBy maxL (n + 1)) (colsBy n)
              (prevQ.length + (qsBy n).length) prevQ (qsBy n) from rfl]
      rw [gWalkGo_roundtrip (gLayer colsBy maxL (n + 1)) (colsBy n)
        (prevQ.length + (qsBy n).length) prevQ (qsBy n) _ _ _]
      have hvis_bound : ∀ x ∈ (gWalkInnerGo (gLayer colsBy maxL (n + 1)) (colsBy n)
          (prevQ.length + (qsBy n).length) prevQ (qsBy n)).1, x < 2 ^ n := by
        intro x hx
        rcases gWalkInnerGo_visited_mem _ _ _ _ _ x hx with ⟨a, ha, rfl⟩ | h
        · have h1 := hb a ha
          have h2 : (2 : Nat) ^ (n + 1) = 2 ^ n * 2 := Nat.pow_succ ..
          omega
        · exact hqs n x h
      have hvis_pair := gWalkInnerGo_visited_pairwise (gLayer colsBy maxL (n + 1))
        (colsBy n) (prevQ.length + (qsBy n).length) prevQ (qsBy n) hp (hqp n)
      have hknown2 :
          ((gWalkInnerGo (gLayer colsBy maxL (n + 1)) (colsBy n)
              (prevQ.length + (qsBy n).length) prevQ (qsBy n)).1.map
            fun i => (i, GHash.inner ((gLayer colsBy maxL (n + 1)).getD (2 * i) default)
              ((gLayer colsBy maxL (n + 1)).getD (2 * i + 1) default)
              ((colsBy n).map fun c => c.getD i 0)))
          = (gWalkInnerGo (gLayer colsBy maxL (n + 1)) (colsBy n)
              (prevQ.length + (qsBy n).length) prevQ (qsBy n)).1.map
              fun a => (a, (gLayer colsBy maxL n).getD a default) := by
        apply List.map_congr_left
        intro i hi
        rw [gLayer_getD_inner colsBy maxL n i (by omega) (hvis_bound i hi)]
        rfl
      rw [hknown2]
      exact ih _ hwR qvR cwR (by omega) hvis_bound hvis_pair

/-- Shape of the final visited set of the builder loop: non-empty, sorted,
and within the single-node root layer. -/
theorem gDecommitLoop_final (colsBy : Nat → List (List Nat)) (qsBy : Nat → List Nat)
    (maxL : Nat) (hqs : ∀ L, ∀ x ∈ qsBy L, x < 2 ^ L)
    (hqp : ∀ L, List.Pairwise (· < ·) (qsBy L)) :
    ∀ n (prevQ : List Nat), n ≤ maxL →
      (∀ x ∈ prevQ, x < 2 ^ n) → List.Pairwise (· < ·) prevQ → prevQ ≠ [] →
      (gDecommitLoop colsBy qsBy maxL n prevQ).1 ≠ [] ∧
        List.Pairwise (· < ·) (gDecommitLoop colsBy qsBy maxL n prevQ).1 ∧
        ∀ x ∈ (gDecommitLoop colsBy qsBy maxL n prevQ).1, x < 1 := by
  intro n
  induction n with
  | zero =>
      intro prevQ _ hb hp hne
      refine ⟨hne, hp, ?_⟩
      intro x hx
      have := hb x hx
      simpa using this
  | succ n ih =>
      intro prevQ hn hb hp hne
      have hnmax : ¬ n = maxL := by omega
      have hloop : (gDecommitLoop colsBy qsBy maxL (n + 1) prevQ).1
          = (gDecommitLoop colsBy qsBy maxL n
              (gWalkInner (gLayer colsBy maxL (n + 1)) (colsBy n) prevQ (qsBy n)).1).1 := by
        rw [gDecommitLoop.eq_def]
        simp [hnmax]
      rw [hloop]
      have hvis_bound : ∀ x ∈ (gWalkInner (gLayer colsBy maxL (n + 1)) (colsBy n) prevQ
          (qsBy n)).1, x < 2 ^ n := by
        intro x hx
        rcases gWalkInnerGo_visited_mem _ _ _ _ _ x hx with ⟨a, ha, rfl⟩ | h
        · have h1 := hb a ha
          have h2 : (2 : Nat) ^ (n + 1) = 2 ^ n * 2 := Nat.pow_succ ..
          omega
        · exact hqs n x h
      have hvis_pair : List.Pairwise (· < ·)
          (gWalkInner (gLayer colsBy maxL (n + 1)) (colsBy n) prevQ (qsBy n)).1 :=
        gWalkInnerGo_visited_pairwise _ _ _ prevQ (qsBy n) hp (hqp n)
      have hvis_ne : (gWalkInner (gLayer colsBy maxL (n + 1)) (colsBy n) prevQ
          (qsBy n)).1 ≠ [] := by
        obtain ⟨a, prest, rfl⟩ : ∃ a prest, prevQ = a :: prest := by
          match prevQ with
          | [] => exact absurd rfl hne
          | a :: prest => exact ⟨a, prest, rfl⟩
        unfold gWalkInner
        rw [show (a :: prest).length + (qsBy n).length
            = (prest.length + (qsBy n).length) + 1 from by simp; omega]
        exact gWalkInnerGo_ne_nil _ _ _ _ _ (by simp)
      exact ih _ (by omega) hvis_bound hvis_pair hvis_ne

theorem final_singleton_zero {l : List Nat} (hne : l ≠ [])
    (hp : List.Pairwise (· < ·) l) (hb : ∀ x ∈ l, x < 1) : l = [0] := by
  match l with
  | [] => exact absurd rfl hne
  | [a] =>
      have := hb a (by simp)
      have ha : a = 0 := by omega
      rw [ha]
  | a :: b :: t =>
      have h1 := hb a (by simp)
      have h2 := hb b (by simp)
      have h3 : a < b := List.rel_of_pairwise_cons hp (by simp)
      omega

theorem nColsAt_eq {cols : List (List Nat)} {Ls : List Nat}
    (h : cols.length = Ls.length) (L : Nat) :
    nColsAt Ls L = (gColsBy cols Ls L).length := by
  unfold nColsAt gColsBy
  rw [List.length_map]
  induction Ls generalizing cols with
  | nil => simp
  | cons x Lt ihL =>
      match cols with
      | [] => simp at h
      | c :: ct =>
          have hlen2 : ct.length = Lt.length := by
            simp only [List.length_cons] at h
            omega
          simp only [List.zip_cons_cons, List.filter_cons]
          by_cases hx : x = L
          · rw [if_pos (by simp [hx]), if_pos (by simp [hx])]
            simp only [List.length_cons]
            rw [ihL hlen2]
          · rw [if_neg (by simp [hx]), if_neg (by simp [hx])]
            exact ihL hlen2

/-- The verifier's full replay of the builder's streams (with an arbitrary
suffix appended to each stream) reaches layer 0 and leaves exactly the
suffixes unconsumed. -/
theorem gVerifyLoop_builder (cols : List (List Nat)) (Ls : List Nat)
    (qsBy : Nat → List Nat)
    (hlen : cols.length = Ls.length)
    (hqs : ∀ L, ∀ x ∈ qsBy L, x < 2 ^ L)
    (hqp : ∀ L, List.Pairwise (· < ·) (qsBy L))
    (hwR : List GHash) (qvR cwR : List Nat) :
    gVerifyLoop (nColsAt Ls) qsBy (maxLogSize Ls) (maxLogSize Ls + 1) []
        ((groupedDecommit cols Ls qsBy).1 ++ hwR)
        ((groupedDecommit cols Ls qsBy).2.1 ++ qvR)
        ((groupedDecommit cols Ls qsBy).2.2 ++ cwR)
      = .ok ((gDecommitLoop (gColsBy cols Ls) qsBy (maxLogSize Ls) (maxLogSize Ls)
               (qsBy (maxLogSize Ls))).1.map
               (fun a => (a, (gLayer (gColsBy cols Ls) (maxLogSize Ls) 0).getD a default)),
             hwR, qvR, cwR) := by
  have hncols : ∀ L, nColsAt Ls L = (gColsBy cols Ls L).length :=
    fun L => nColsAt_eq hlen L
  have htopvis : (gWalkTop (gColsBy cols Ls (maxLogSize Ls))
      (qsBy (maxLogSize Ls))).1 = qsBy (maxLogSize Ls) := gWalkTop_visited _ _
  -- unfold the builder entry step
  have hstep : gDecommitLoop (gColsBy cols Ls) qsBy (maxLogSize Ls)
        (maxLogSize Ls + 1) []
      = ((gDecommitLoop (gColsBy cols Ls) qsBy (maxLogSize Ls) (maxLogSize Ls)
            (qsBy (maxLogSize Ls))).1,
         (gDecommitLoop (gColsBy cols Ls) qsBy (maxLogSize Ls) (maxLogSize Ls)
            (qsBy (maxLogSize Ls))).2.1,
         (gWalkTop (gColsBy cols Ls (maxLogSize Ls)) (qsBy (maxLogSize Ls))).2 ++
           (gDecommitLoop (gColsBy cols Ls) qsBy (maxLogSize Ls) (maxLogSize Ls)
             (qsBy (maxLogSize Ls))).2.2.1,
         (gDecommitLoop (gColsBy cols Ls) qsBy (maxLogSize Ls) (maxLogSize Ls)
            (qsBy (maxLogSize Ls))).2.2.2) := by
    rw [gDecommitLoop.eq_def]
    simp [htopvis]
  unfold groupedDecommit
  rw [hstep]
  rw [gVerifyLoop.eq_def]
  simp only [if_pos rfl]
  rw [hncols (maxLogSize Ls)]
  rw [List.append_assoc]
  rw [gvWalkTop_roundtrip (gColsBy cols Ls (maxLogSize Ls)) (qsBy (maxLogSize Ls)) _]
  have hknown2 :
      ((qsBy (maxLogSize Ls)).map fun b =>
        (b, GHash.top ((gColsBy cols Ls (maxLogSize Ls)).map fun c => c.getD b 0)))
      = (qsBy (maxLogSize Ls)).map fun a =>
          (a, (gLayer (gColsBy cols Ls) (maxLogSize Ls) (maxLogSize Ls)).getD a default) := by
    apply List.map_congr_left
    intro b hb
    rw [gLayer_getD_top (gColsBy cols Ls) (maxLogSize Ls) b (hqs _ b hb)]
    rfl
  rw [hknown2]
  simp only [if_true]
  exact gVerifyLoop_roundtrip (gColsBy cols Ls) qsBy (maxLogSize Ls) (nColsAt Ls)
    hncols hqs hqp (maxLogSize Ls) (qsBy (maxLogSize Ls)) hwR qvR cwR le_rfl
    (hqs (maxLogSize Ls)) (hqp (maxLogSize Ls))

/-- The grouped round trip: the builder's streams are accepted by the
(spec-modelled) grouped verifier. -/
theorem groupedRoundTrip (cols : List (List Nat)) (Ls : List Nat) (qsBy : Nat → List Nat)
    (hlen : cols.length = Ls.length)
    (hqs : ∀ L, ∀ x ∈ qsBy L, x < 2 ^ L)
    (hqp : ∀ L, List.Pairwise (· < ·) (qsBy L))
    (hqne : qsBy (maxLogSize Ls) ≠ []) :
    groupedVerify (groupedRoot (gColsBy cols Ls) (maxLogSize Ls)) Ls qsBy
      (groupedDecommit cols Ls qsBy).2.1 (groupedDecommit cols Ls qsBy).1
      (groupedDecommit cols Ls qsBy).2.2 = .ok := by
  have hfull := gVerifyLoop_builder cols Ls qsBy hlen hqs hqp [] [] []
  simp only [List.append_nil] at hfull
  unfold groupedVerify
  rw [hfull]
  have hfin := gDecommitLoop_final (gColsBy cols Ls) qsBy (maxLogSize Ls) hqs hqp
    (maxLogSize Ls) (qsBy (maxLogSize Ls)) le_rfl (hqs (maxLogSize Ls))
    (hqp (maxLogSize Ls)) hqne
  rw [final_singleton_zero hfin.1 hfin.2.1 hfin.2.2]
  simp only [List.map_cons, List.map_nil, List.isEmpty_nil, if_true]
  rw [if_pos (show (gLayer (gColsBy cols Ls) (maxLogSize Ls) 0).getD 0 default
      = groupedRoot (gColsBy cols Ls) (maxLogSize Ls) from rfl)]

/-! ## FRI fold decommitment: characterization lemmas -/

theorem friTakeRun_eq (F key : Nat) : ∀ l : List Nat,
    friTakeRun F key l
      = (l.takeWhile fun q => decide (q >>> F = key),
         l.dropWhile fun q => decide (q >>> F = key)) := by
  intro l
  induction l with
  | nil => rfl
  | cons q rest ih =>
      rw [show friTakeRun F key (q :: rest)
          = if q >>> F = key then
              ((q :: (friTakeRun F key rest).1), (friTakeRun F key rest).2)
            else ([], q :: rest) from rfl]
      rw [List.takeWhile_cons, List.dropWhile_cons]
      by_cases h : q >>> F = key
      · rw [if_pos h, ih]
        simp [h]
      · rw [if_neg h]
        simp [h]

theorem friTakeRun_append (F key : Nat) (l : List Nat) :
    (friTakeRun F key l).1 ++ (friTakeRun F key l).2 = l := by
  rw [friTakeRun_eq]
  exact List.takeWhile_append_dropWhile _ _

theorem friTakeRun_fst_key (F key : Nat) (l : List Nat) :
    ∀ x ∈ (friTakeRun F key l).1, x >>> F = key := by
  rw [friTakeRun_eq]
  intro x hx
  have h := List.mem_takeWhile_imp hx
  simpa using h

theorem friTakeRun_fst_sublist (F key : Nat) (l : List Nat) :
    (friTakeRun F key l).1.Sublist l := by
  rw [friTakeRun_eq]
  exact List.takeWhile_sublist _

theorem friTakeRun_snd_sublist (F key : Nat) (l : List Nat) :
    (friTakeRun F key l).2.Sublist l := by
  rw [friTakeRun_eq]
  exact List.dropWhile_sublist _

theorem friTakeRun_cons_self (F q : Nat) (rest : List Nat) :
    friTakeRun F (q >>> F) (q :: rest)
      = (q :: (friTakeRun F (q >>> F) rest).1, (friTakeRun F (q >>> F) rest).2) := by
  rw [show friTakeRun F (q >>> F) (q :: rest)
      = if q >>> F = q >>> F then
          ((q :: (friTakeRun F (q >>> F) rest).1), (friTakeRun F (q >>> F) rest).2)
        else ([], q :: rest) from rfl]
  rw [if_pos rfl]

theorem friTakeRun_snd_length (F q : Nat) (rest : List Nat) :
    (friTakeRun F (q >>> F) (q :: rest)).2.length ≤ rest.length := by
  rw [friTakeRun_cons_self]
  exact (friTakeRun_snd_sublist F (q >>> F) rest).length_le

theorem friTakeRun_snd_key_gt (F key : Nat) : ∀ l : List Nat,
    List.Pairwise (· < ·) l → (∀ x ∈ l, key ≤ x >>> F) →
    ∀ x ∈ (friTakeRun F key l).2, key < x >>> F := by
  intro l
  induction l with
  | nil => intro _ _ x hx; rw [friTakeRun_eq] at hx; simp at hx
  | cons q rest ih =>
      intro hp hge x hx
      rw [friTakeRun_eq] at hx
      rw [show ((q :: rest).takeWhile fun a => decide (a >>> F = key),
          (q :: rest).dropWhile fun a => decide (a >>> F = key)).2
          = (q :: rest).dropWhile fun a => decide (a >>> F = key) from rfl] at hx
      rw [List.dropWhile_cons] at hx
      by_cases h : q >>> F = key
      · rw [if_pos (by simp [h])] at hx
        have hx2 : x ∈ (friTakeRun F key rest).2 := by rw [friTakeRun_eq]; exact hx
        exact ih hp.of_cons (fun y hy => hge y (List.mem_cons_of_mem _ hy)) x hx2
      · rw [if_neg (by simp [h])] at hx
        rcases List.mem_cons.mp hx with rfl | hx2
        · exact lt_of_le_of_ne (hge x (List.mem_cons_self _ _)) fun he => h he.symm
        · have hqx : q < x := (List.pairwise_cons.mp hp).1 x hx2
          have h1 : key < q >>> F :=
            lt_of_le_of_ne (hge q (List.mem_cons_self _ _)) fun he => h he.symm
          have h2 : q >>> F ≤ x >>> F := by
            simp only [Nat.shiftRight_eq_div_pow]
            exact Nat.div_le_div_right (le_of_lt hqx)
          omega

theorem vecDedup_cons_self (a : Nat) (l : List Nat) :
    vecDedup (a :: a :: l) = vecDedup (a :: l) := by
  rw [show vecDedup (a :: a :: l)
      = if a = a then vecDedup (a :: l) else a :: vecDedup (a :: l) from rfl]
  rw [if_pos rfl]

theorem vecDedup_const_append (key : Nat) : ∀ (l1 l2 : List Nat),
    l1 ≠ [] → (∀ x ∈ l1, x = key) → (∀ y ∈ l2, key < y) →
    vecDedup (l1 ++ l2) = key :: vecDedup l2 := by
  intro l1
  induction l1 with
  | nil => intro l2 h; exact absurd rfl h
  | cons k t ih =>
      intro l2 _ hconst hgt
      have hk : k = key := hconst k (List.mem_cons_self _ _)
      subst hk
      cases t with
      | nil =>
          cases l2 with
          | nil => rfl
          | cons y t2 =>
              have hne : k ≠ y := Nat.ne_of_lt (hgt y (List.mem_cons_self _ _))
              simpa using vecDedup_cons_of_ne k (y :: t2)
                (Or.inr (by simp only [List.head?_cons, ne_eq, Option.some.injEq]
                            exact fun h => hne h.symm))
      | cons k2 t2 =>
          have hk2 : k2 = k := hconst k2 (List.mem_cons_of_mem _ (List.mem_cons_self _ _))
          subst hk2
          rw [show (k2 :: k2 :: t2) ++ l2 = k2 :: k2 :: (t2 ++ l2) from rfl]
          rw [vecDedup_cons_self]
          exact ih l2 (by simp) (fun x hx => hconst x (List.mem_cons_of_mem _ hx)) hgt

/-- A position has key `K` (i.e. `x >>> F = K`) exactly when it lies in the
contiguous subset range `[K <<< F, K <<< F + 2^F)`. -/
theorem key_range_iff (F K x : Nat) :
    x >>> F = K ↔ (K <<< F ≤ x ∧ x < (K <<< F) + (1 <<< F)) := by
  simp only [Nat.shiftRight_eq_div_pow, Nat.shiftLeft_eq, one_mul]
  constructor
  · rintro rfl
    refine ⟨Nat.div_mul_le_self x (2 ^ F), ?_⟩
    have h2 := Nat.div_add_mod x (2 ^ F)
    have h3 := Nat.mod_lt x (Nat.two_pow_pos F)
    have h4 : 2 ^ F * (x / 2 ^ F) = (x / 2 ^ F) * 2 ^ F := Nat.mul_comm _ _
    omega
  · rintro ⟨h1, h2⟩
    have hlt : x < (K + 1) * 2 ^ F := by rw [add_mul, one_mul]; omega
    exact Nat.div_eq_of_lt_le h1 hlt

theorem friSubset_cons_eq (column : List QM31) (pos : Nat) (rest sq : List Nat) :
    friSubset column (pos :: rest) sq
      = if column.length ≤ pos then .error .queryOutOfRange
        else
          match sq with
          | q :: sqr =>
              if q = pos then
                (friSubset column rest sqr).map fun r =>
                  (pos :: r.1, r.2.1, column.getD pos default :: r.2.2)
              else
                (friSubset column rest (q :: sqr)).map fun r =>
                  (pos :: r.1, column.getD pos default :: r.2.1,
                   column.getD pos default :: r.2.2)
          | [] =>
              (friSubset column rest []).map fun r =>
                (pos :: r.1, column.getD pos default :: r.2.1,
                 column.getD pos default :: r.2.2) := rfl

theorem friSubset_error_eq (column : List QM31) : ∀ (positions sq : List Nat) (e : FriError),
    friSubset column positions sq = .error e → e = .queryOutOfRange := by
  intro positions
  induction positions with
  | nil => intro sq e h; exact absurd h (by simp [friSubset])
  | cons pos rest ih =>
      intro sq e h
      rw [friSubset_cons_eq] at h
      by_cases hc : column.length ≤ pos
      · rw [if_pos hc] at h
        exact (Except.error.injEq _ _ ▸ congrArg id h.symm : e = FriError.queryOutOfRange)
      · rw [if_neg hc] at h
        cases sq with
        | nil =>
            dsimp only at h
            cases hrec : friSubset column rest [] with
            | error e2 =>
                rw [hrec] at h
                cases h
                exact ih _ _ hrec
            | ok s => rw [hrec] at h; cases h
        | cons q sqr =>
            dsimp only at h
            by_cases hq : q = pos
            · rw [if_pos hq] at h
              cases hrec : friSubset column rest sqr with
              | error e2 =>
                  rw [hrec] at h
                  cases h
                  exact ih _ _ hrec
              | ok s => rw [hrec] at h; cases h
            · rw [if_neg hq] at h
              cases hrec : friSubset column rest (q :: sqr) with
              | error e2 =>
                  rw [hrec] at h
                  cases h
                  exact ih _ _ hrec
              | ok s => rw [hrec] at h; cases h

theorem friSubset_ok_of_lt (column : List QM31) : ∀ (positions sq : List Nat),
    (∀ p ∈ positions, p < column.length) →
    ∃ out, friSubset column positions sq = .ok out := by
  intro positions
  induction positions with
  | nil => intro sq _; exact ⟨_, rfl⟩
  | cons pos rest ih =>
      intro sq hb
      rw [friSubset_cons_eq]
      rw [if_neg (by have := hb pos (List.mem_cons_self _ _); omega)]
      have hrest : ∀ p ∈ rest, p < column.length :=
        fun p hp => hb p (List.mem_cons_of_mem _ hp)
      cases sq with
      | nil =>
          obtain ⟨out, hout⟩ := ih [] hrest
          dsimp only
          rw [hout]
          exact ⟨_, rfl⟩
      | cons q sqr =>
          dsimp only
          by_cases hq : q = pos
          · rw [if_pos hq]
            obtain ⟨out, hout⟩ := ih sqr hrest
            rw [hout]
            exact ⟨_, rfl⟩
          · rw [if_neg hq]
            obtain ⟨out, hout⟩ := ih (q :: sqr) hrest
            rw [hout]
            exact ⟨_, rfl⟩

theorem friSubset_err_of_ge (column : List QM31) : ∀ (len s : Nat) (sq : List Nat),
    column.length < s + len → 0 < len →
    friSubset column (List.range' s len) sq = .error .queryOutOfRange := by
  intro len
  induction len with
  | zero => intro s sq _ h0; exact absurd h0 (by omega)
  | succ len ih =>
      intro s sq hlt _
      rw [List.range'_succ, friSubset_cons_eq]
      by_cases hc : column.length ≤ s
      · rw [if_pos hc]
      · rw [if_neg hc]
        have hlen : 0 < len := by omega
        have hrec : ∀ sq2, friSubset column (List.range' (s + 1) len) sq2
            = .error .queryOutOfRange := fun sq2 => ih (s + 1) sq2 (by omega) hlen
        cases sq with
        | nil =>
            dsimp only
            rw [hrec []]
            rfl
        | cons q sqr =>
            dsimp only
            by_cases hq : q = s
            · rw [if_pos hq, hrec sqr]
              rfl
            · rw [if_neg hq, hrec (q :: sqr)]
              rfl

/-- Closed form of one subset's inner loop: on a contiguous in-range
position range with sorted in-range subset queries, every position is
recorded in order, the value list is the evaluation at every position, and
the witness holds the evaluations of exactly the non-queried positions. -/
theorem friSubset_spec (column : List QM31) : ∀ (len s : Nat) (sq : List Nat),
    List.Pairwise (· < ·) sq →
    (∀ q ∈ sq, s ≤ q ∧ q < s + len) →
    s + len ≤ column.length →
    friSubset column (List.range' s len) sq
      = .ok (List.range' s len,
             ((List.range' s len).filter fun p => decide (p ∉ sq)).map
               fun p => column.getD p default,
             (List.range' s len).map fun p => column.getD p default) := by
  intro len
  induction len with
  | zero =>
      intro s sq _ _ _
      rfl
  | succ len ih =>
      intro s sq hp hb hlen
      rw [List.range'_succ, friSubset_cons_eq, if_neg (by omega)]
      cases sq with
      | nil =>
          dsimp only
          rw [ih (s + 1) [] (by simp) (by simp) (by omega)]
          simp [List.filter_cons, List.range'_succ, Except.map]
      | cons q sqr =>
          dsimp only
          by_cases hq : q = s
          · rw [if_pos hq]
            subst hq
            have hb2 : ∀ x ∈ sqr, q + 1 ≤ x ∧ x < (q + 1) + len := by
              intro x hx
              have hgt : q < x := (List.pairwise_cons.mp hp).1 x hx
              have := (hb x (List.mem_cons_of_mem _ hx)).2
              omega
            rw [ih (q + 1) sqr hp.of_cons hb2 (by omega)]
            have hfeq : (List.range' (q + 1) len).filter
                  (fun p => decide (p ∉ sqr))
                = (List.range' (q + 1) len).filter
                  (fun p => decide (p ∉ q :: sqr)) := by
              apply List.filter_congr
              intro x hx
              have hxge : q + 1 ≤ x := (List.mem_range'_1.mp hx).1
              apply decide_eq_decide.mpr
              constructor
              · intro h hmem
                rcases List.mem_cons.mp hmem with rfl | hmem2
                · omega
                · exact h hmem2
              · intro h hmem
                exact h (List.mem_cons_of_mem _ hmem)
            rw [hfeq]
            have hqmem : decide (q ∉ q :: sqr) = false := by
              simp
            rw [List.filter_cons, hqmem]
            simp [Except.map]
          · rw [if_neg hq]
            have hqgt : s < q := by
              have := (hb q (List.mem_cons_self _ _)).1
              omega
            have hb2 : ∀ x ∈ q :: sqr, s + 1 ≤ x ∧ x < (s + 1) + len := by
              intro x hx
              have hge : q ≤ x := by
                rcases List.mem_cons.mp hx with rfl | hx2
                · omega
                · exact le_of_lt ((List.pairwise_cons.mp hp).1 x hx2)
              have := (hb x hx).2
              omega
            rw [ih (s + 1) (q :: sqr) hp hb2 (by omega)]
            have hsnot : decide (s ∉ q :: sqr) = true := by
              apply decide_eq_true
              intro hmem
              rcases List.mem_cons.mp hmem with rfl | hmem2
              · omega
              · have := (hb2 s hmem).1
                omega
            rw [List.filter_cons, hsnot]
            simp [Except.map]

theorem friOuterGo_cons_eq (column : List QM31) (F fuel q : Nat) (rest : List Nat) :
    friOuterGo column F (fuel + 1) (q :: rest)
      = match friSubset column
            (List.range' ((q >>> F) <<< F) (1 <<< F))
            (friTakeRun F (q >>> F) (q :: rest)).1 with
        | .error e => .error e
        | .ok s =>
            match friOuterGo column F fuel (friTakeRun F (q >>> F) (q :: rest)).2 with
            | .error e => .error e
            | .ok s2 => .ok (s.1 ++ s2.1, s.2.1 ++ s2.2.1, s.2.2 ++ s2.2.2) := rfl

theorem friOuterGo_error_eq (column : List QM31) (F : Nat) :
    ∀ (fuel : Nat) (qs : List Nat) (e : FriError),
    friOuterGo column F fuel qs = .error e → e = .queryOutOfRange := by
  intro fuel
  induction fuel with
  | zero =>
      intro qs e h
      cases qs with
      | nil => exact absurd h (by simp [friOuterGo])
      | cons q rest => exact absurd h (by simp [friOuterGo])
  | succ fuel ih =>
      intro qs e h
      cases qs with
      | nil => exact absurd h (by simp [friOuterGo])
      | cons q rest =>
          rw [friOuterGo_cons_eq] at h
          cases hsub : friSubset column
              (List.range' ((q >>> F) <<< F) (1 <<< F))
              (friTakeRun F (q >>> F) (q :: rest)).1 with
          | error e2 =>
              rw [hsub] at h
              cases h
              exact friSubset_error_eq column _ _ _ hsub
          | ok s =>
              rw [hsub] at h
              cases houter : friOuterGo column F fuel
                  (friTakeRun F (q >>> F) (q :: rest)).2 with
              | error e2 =>
                  rw [houter] at h
                  cases h
                  exact ih _ _ houter
              | ok s2 =>
                  rw [houter] at h
                  cases h

/-- The bound a query's whole expanded subset range stays inside the
column. -/
def friInRange (column : List QM31) (F q : Nat) : Prop :=
  ((q >>> F) <<< F) + (1 <<< F) ≤ column.length

instance (column : List QM31) (F q : Nat) : Decidable (friInRange column F q) := by
  unfold friInRange; infer_instance

theorem friOuterGo_ok_of_inrange (column : List QM31) (F : Nat) :
    ∀ (fuel : Nat) (qs : List Nat),
    (∀ q ∈ qs, friInRange column F q) →
    ∃ out, friOuterGo column F fuel qs = .ok out := by
  intro fuel
  induction fuel with
  | zero =>
      intro qs _
      cases qs with
      | nil => exact ⟨_, rfl⟩
      | cons q rest => exact ⟨_, rfl⟩
  | succ fuel ih =>
      intro qs hb
      cases qs with
      | nil => exact ⟨_, rfl⟩
      | cons q rest =>
          rw [friOuterGo_cons_eq]
          have hbound : ∀ p ∈ List.range' ((q >>> F) <<< F) (1 <<< F),
              p < column.length := by
            intro p hp
            have h1 := (List.mem_range'_1.mp hp).2
            have h2 := hb q (List.mem_cons_self _ _)
            unfold friInRange at h2
            omega
          obtain ⟨s, hs⟩ := friSubset_ok_of_lt column _
            (friTakeRun F (q >>> F) (q :: rest)).1 hbound
          have hb2 : ∀ x ∈ (friTakeRun F (q >>> F) (q :: rest)).2,
              friInRange column F x := fun x hx =>
            hb x ((friTakeRun_snd_sublist F (q >>> F) (q :: rest)).mem hx)
          obtain ⟨s2, hs2⟩ := ih (friTakeRun F (q >>> F) (q :: rest)).2 hb2
          rw [hs, hs2]
          exact ⟨_, rfl⟩

theorem friOuterGo_err_of_overflow (column : List QM31) (F : Nat) :
    ∀ (fuel : Nat) (qs : List Nat), qs.length ≤ fuel →
    (∃ q ∈ qs, ¬ friInRange column F q) →
    friOuterGo column F fuel qs = .error .queryOutOfRange := by
  intro fuel
  induction fuel with
  | zero =>
      intro qs hf hov
      obtain ⟨q0, hq0, _⟩ := hov
      rw [List.length_eq_zero.mp (Nat.le_zero.mp hf)] at hq0
      exact absurd hq0 (by simp)
  | succ fuel ih =>
      intro qs hf hov
      obtain ⟨q0, hq0, hov0⟩ := hov
      cases qs with
      | nil => exact absurd hq0 (by simp)
      | cons q rest =>
          rw [friOuterGo_cons_eq]
          by_cases hhead : friInRange column F q
          · have hbound : ∀ p ∈ List.range' ((q >>> F) <<< F) (1 <<< F),
                p < column.length := by
              intro p hp
              have h1 := (List.mem_range'_1.mp hp).2
              unfold friInRange at hhead
              omega
            obtain ⟨s, hs⟩ := friSubset_ok_of_lt column _
              (friTakeRun F (q >>> F) (q :: rest)).1 hbound
            rw [hs]
            have hq0' : q0 ∈ (friTakeRun F (q >>> F) (q :: rest)).2 := by
              have happ := friTakeRun_append F (q >>> F) (q :: rest)
              rw [← happ] at hq0
              rcases List.mem_append.mp hq0 with h1 | h1
              · exfalso
                have hkey := friTakeRun_fst_key F (q >>> F) (q :: rest) q0 h1
                unfold friInRange at hov0 hhead
                rw [hkey] at hov0
                omega
              · exact h1
            have hlen2 : (friTakeRun F (q >>> F) (q :: rest)).2.length ≤ fuel := by
              have := friTakeRun_snd_length F q rest
              simp only [List.length_cons] at hf
              omega
            rw [ih _ hlen2 ⟨q0, hq0', hov0⟩]
          · have hpos : 0 < 1 <<< F := by
              rw [Nat.shiftLeft_eq, one_mul]
              exact Nat.two_pow_pos F
            unfold friInRange at hhead
            rw [friSubset_err_of_ge column (1 <<< F) ((q >>> F) <<< F) _
              (by omega) hpos]

/-- The decommitment positions as the spec describes them: for each subset
key `position >> F` (in first-appearance order after consecutive dedup),
the whole contiguous range `[key << F, key << F + 2^F)`. -/
def friDecPositions (F : Nat) (qs : List Nat) : List Nat :=
  (vecDedup (qs.map fun q => q >>> F)).flatMap fun K =>
    List.range' (K <<< F) (1 <<< F)

/-- Closed form of the outer subset loop on sorted queries whose expanded
subset ranges are in range: the decommitment positions are the
concatenated subset ranges, the value list evaluates the column at every
decommitment position, and the witness evaluates exactly the non-queried
decommitment positions. -/
theorem friOuterGo_spec (column : List QM31) (F : Nat) :
    ∀ (fuel : Nat) (qs : List Nat), qs.length ≤ fuel →
    List.Pairwise (· < ·) qs →
    (∀ q ∈ qs, friInRange column F q) →
    friOuterGo column F fuel qs
      = .ok (friDecPositions F qs,
             ((friDecPositions F qs).filter fun p => decide (p ∉ qs)).map
               fun p => column.getD p default,
             (friDecPositions F qs).map fun p => column.getD p default) := by
  intro fuel
  induction fuel with
  | zero =>
      intro qs hf _ _
      rw [List.length_eq_zero.mp (Nat.le_zero.mp hf)]
      rfl
  | succ fuel ih =>
      intro qs hf hp hb
      cases qs with
      | nil => rfl
      | cons q rest =>
          rw [friOuterGo_cons_eq]
          have hrun1key := friTakeRun_fst_key F (q >>> F) (q :: rest)
          have hrun1p : List.Pairwise (· < ·) (friTakeRun F (q >>> F) (q :: rest)).1 :=
            List.Pairwise.sublist (friTakeRun_fst_sublist F (q >>> F) (q :: rest)) hp
          have hheadIn := hb q (List.mem_cons_self _ _)
          have hrun1b : ∀ x ∈ (friTakeRun F (q >>> F) (q :: rest)).1,
              (q >>> F) <<< F ≤ x ∧ x < (q >>> F) <<< F + 1 <<< F := by
            intro x hx
            exact (key_range_iff F (q >>> F) x).mp (hrun1key x hx)
          have hsub := friSubset_spec column (1 <<< F) ((q >>> F) <<< F)
            (friTakeRun F (q >>> F) (q :: rest)).1 hrun1p hrun1b hheadIn
          rw [hsub]
          have hrun2p : List.Pairwise (· < ·) (friTakeRun F (q >>> F) (q :: rest)).2 :=
            List.Pairwise.sublist (friTakeRun_snd_sublist F (q >>> F) (q :: rest)) hp
          have hrun2b : ∀ x ∈ (friTakeRun F (q >>> F) (q :: rest)).2,
              friInRange column F x := fun x hx =>
            hb x ((friTakeRun_snd_sublist F (q >>> F) (q :: rest)).mem hx)
          have hlen2 : (friTakeRun F (q >>> F) (q :: rest)).2.length ≤ fuel := by
            have := friTakeRun_snd_length F q rest
            simp only [List.length_cons] at hf
            omega
          rw [ih _ hlen2 hrun2p hrun2b]
          -- keys of the tail run are strictly above the head key
          have hgt : ∀ x ∈ (friTakeRun F (q >>> F) (q :: rest)).2,
              q >>> F < x >>> F := by
            apply friTakeRun_snd_key_gt F (q >>> F) (q :: rest) hp
            intro x hx
            rcases List.mem_cons.mp hx with rfl | hx2
            · exact le_refl _
            · have hqx : q < x := (List.pairwise_cons.mp hp).1 x hx2
              simp only [Nat.shiftRight_eq_div_pow]
              exact Nat.div_le_div_right (le_of_lt hqx)
          -- split the dedup'd key list at the head run
          have hD : friDecPositions F (q :: rest)
              = List.range' ((q >>> F) <<< F) (1 <<< F)
                ++ friDecPositions F (friTakeRun F (q >>> F) (q :: rest)).2 := by
            unfold friDecPositions
            have hmap : (q :: rest).map (fun a => a >>> F)
                = (friTakeRun F (q >>> F) (q :: rest)).1.map (fun a => a >>> F)
                  ++ (friTakeRun F (q >>> F) (q :: rest)).2.map (fun a => a >>> F) := by
              rw [← List.map_append, friTakeRun_append]
            rw [hmap]
            rw [vecDedup_const_append (q >>> F) _ _
              (by rw [friTakeRun_cons_self]; simp)
              (by intro x hx
                  obtain ⟨y, hy, rfl⟩ := List.mem_map.mp hx
                  exact hrun1key y hy)
              (by intro y hy
                  obtain ⟨x, hx, rfl⟩ := List.mem_map.mp hy
                  exact hgt x hx)]
            rw [List.flatMap_cons]
          rw [hD]
          -- membership in a subset range determines the key
          have hmemrange : ∀ p ∈ List.range' ((q >>> F) <<< F) (1 <<< F),
              p >>> F = q >>> F := by
            intro p hp2
            have := List.mem_range'_1.mp hp2
            exact (key_range_iff F (q >>> F) p).mpr ⟨this.1, this.2⟩
          -- the head range filters identically against the full query list
          -- and against the head run
          have hfilter1 : (List.range' ((q >>> F) <<< F) (1 <<< F)).filter
                (fun p => decide (p ∉ (friTakeRun F (q >>> F) (q :: rest)).1))
              = (List.range' ((q >>> F) <<< F) (1 <<< F)).filter
                (fun p => decide (p ∉ q :: rest)) := by
            apply List.filter_congr
            intro p hp2
            apply decide_eq_decide.mpr
            have hkey := hmemrange p hp2
            constructor
            · intro h hmem
              apply h
              have happ := friTakeRun_append F (q >>> F) (q :: rest)
              rw [← happ] at hmem
              rcases List.mem_append.mp hmem with h1 | h1
              · exact h1
              · exact absurd hkey (Nat.ne_of_gt (hgt p h1))
            · intro h hmem
              exact h ((friTakeRun_fst_sublist F (q >>> F) (q :: rest)).mem hmem)
          -- the tail positions filter identically against the full query list
          -- and against the tail run
          have hfilter2 : (friDecPositions F (friTakeRun F (q >>> F) (q :: rest)).2).filter
                (fun p => decide (p ∉ (friTakeRun F (q >>> F) (q :: rest)).2))
              = (friDecPositions F (friTakeRun F (q >>> F) (q :: rest)).2).filter
                (fun p => decide (p ∉ q :: rest)) := by
            apply List.filter_congr
            intro p hp2
            apply decide_eq_decide.mpr
            obtain ⟨K, hK, hpK⟩ := List.mem_flatMap.mp hp2
            have hKgt : q >>> F < K := by
              have hK2 := (mem_vecDedup K _).mp hK
              obtain ⟨y, hy, rfl⟩ := List.mem_map.mp hK2
              exact hgt y hy
            have hkey : p >>> F = K := by
              have := List.mem_range'_1.mp hpK
              exact (key_range_iff F K p).mpr ⟨this.1, this.2⟩
            constructor
            · intro h hmem
              apply h
              have happ := friTakeRun_append F (q >>> F) (q :: rest)
              rw [← happ] at hmem
              rcases List.mem_append.mp hmem with h1 | h1
              · exfalso
                have := hrun1key p h1
                omega
              · exact h1
            · intro h hmem
              exact h ((friTakeRun_snd_sublist F (q >>> F) (q :: rest)).mem hmem)
          rw [List.filter_append, ← hfilter1, ← hfilter2, List.map_append, List.map_append]

theorem flatMap_range_pairwise (F : Nat) : ∀ Ks : List Nat,
    List.Pairwise (· < ·) Ks →
    List.Pairwise (· < ·)
      (Ks.flatMap fun K => List.range' (K <<< F) (1 <<< F)) := by
  intro Ks
  induction Ks with
  | nil => intro _; simp
  | cons K Kt ih =>
      intro hp
      rw [List.flatMap_cons]
      apply List.pairwise_append.mpr
      refine ⟨List.pairwise_lt_range' _ _, ih hp.of_cons, ?_⟩
      intro x hx y hy
      obtain ⟨K2, hK2, hy2⟩ := List.mem_flatMap.mp hy
      have hKK2 : K < K2 := (List.pairwise_cons.mp hp).1 K2 hK2
      have hx2 := (List.mem_range'_1.mp hx).2
      have hy3 := (List.mem_range'_1.mp hy2).1
      have hmul : (K <<< F) + (1 <<< F) ≤ K2 <<< F := by
        simp only [Nat.shiftLeft_eq, one_mul]
        have h := Nat.mul_le_mul_right (2 ^ F) hKK2
        rw [Nat.succ_mul] at h
        omega
      omega

theorem friDecPositions_pairwise (F : Nat) (qs : List Nat)
    (hp : List.Pairwise (· < ·) qs) :
    List.Pairwise (· < ·) (friDecPositions F qs) := by
  apply flatMap_range_pairwise
  apply vecDedup_sorted
  induction qs with
  | nil => simp
  | cons q rest ih =>
      rw [List.map_cons]
      apply List.pairwise_cons.mpr
      refine ⟨?_, ih hp.of_cons⟩
      intro y hy
      obtain ⟨x, hx, rfl⟩ := List.mem_map.mp hy
      have : q < x := (List.pairwise_cons.mp hp).1 x hx
      simp only [Nat.shiftRight_eq_div_pow]
      exact Nat.div_le_div_right (le_of_lt this)

theorem mem_friDecPositions (F : Nat) (qs : List Nat) (q : Nat) (hq : q ∈ qs) :
    q ∈ friDecPositions F qs := by
  apply List.mem_flatMap.mpr
  refine ⟨q >>> F, ?_, ?_⟩
  · exact (mem_vecDedup _ _).mpr (List.mem_map_of_mem _ hq)
  · rw [List.mem_range'_1]
    have h := (key_range_iff F (q >>> F) q).mp rfl
    omega

theorem sorted_eq_of_mem_iff : ∀ (l1 l2 : List Nat),
    List.Pairwise (· < ·) l1 → List.Pairwise (· < ·) l2 →
    (∀ x, x ∈ l1 ↔ x ∈ l2) → l1 = l2 := by
  intro l1
  induction l1 with
  | nil =>
      intro l2 _ _ hm
      cases l2 with
      | nil => rfl
      | cons b t => exact absurd ((hm b).mpr (List.mem_cons_self _ _)) (by simp)
  | cons a t ih =>
      intro l2 hp1 hp2 hm
      cases l2 with
      | nil => exact absurd ((hm a).mp (List.mem_cons_self _ _)) (by simp)
      | cons b t2 =>
          have hab : a = b := by
            have ha := (hm a).mp (List.mem_cons_self _ _)
            have hb := (hm b).mpr (List.mem_cons_self _ _)
            rcases List.mem_cons.mp ha with h1 | h1
            · exact h1
            · rcases List.mem_cons.mp hb with h2 | h2
              · exact h2.symm
              · have hba := (List.pairwise_cons.mp hp2).1 a h1
                have hab2 := (List.pairwise_cons.mp hp1).1 b h2
                omega
          subst hab
          congr 1
          apply ih t2 hp1.of_cons hp2.of_cons
          intro x
          constructor
          · intro hx
            have hax : a < x := (List.pairwise_cons.mp hp1).1 x hx
            rcases List.mem_cons.mp ((hm x).mp (List.mem_cons_of_mem _ hx)) with h | h
            · omega
            · exact h
          · intro hx
            have hax : a < x := (List.pairwise_cons.mp hp2).1 x hx
            rcases List.mem_cons.mp ((hm x).mpr (List.mem_cons_of_mem _ hx)) with h | h
            · omega
            · exact h

theorem length_filter_not_add {α : Type} (p : α → Bool) : ∀ l : List α,
    (l.filter p).length + (l.filter fun a => !(p a)).length = l.length := by
  intro l
  induction l with
  | nil => rfl
  | cons a t ih =>
      simp only [List.filter_cons]
      cases h : p a
      · simp only [h, Bool.not_false, if_true, if_false, List.length_cons]
        simp only [show (false = true) = False by simp, if_false, if_true]
        omega
      · simp only [h, Bool.not_true, List.length_cons]
        simp only [show (false = true) = False by simp, if_false, if_true,
          List.length_cons]
        omega

/-- The queried positions are exactly the decommitment positions that are
queries, so the witness (one value per non-queried decommitment position)
has length `|decommitment positions| - |queries|`. -/
theorem friDecPositions_filter_mem (F : Nat) (qs : List Nat)
    (hp : List.Pairwise (· < ·) qs) :
    (friDecPositions F qs).filter (fun p => decide (p ∈ qs)) = qs := by
  apply sorted_eq_of_mem_iff
  · exact List.Pairwise.filter _ (friDecPositions_pairwise F qs hp)
  · exact hp
  · intro x
    rw [List.mem_filter]
    constructor
    · rintro ⟨_, h2⟩
      exact of_decide_eq_true h2
    · intro hx
      exact ⟨mem_friDecPositions F qs x hx, decide_eq_true hx⟩

theorem friWitness_length (F : Nat) (qs : List Nat)
    (hp : List.Pairwise (· < ·) qs) :
    ((friDecPositions F qs).filter fun p => decide (p ∉ qs)).length
      = (friDecPositions F qs).length - qs.length := by
  have hsum := length_filter_not_add (fun p => decide (p ∈ qs)) (friDecPositions F qs)
  have hmem := friDecPositions_filter_mem F qs hp
  have hcongr : (friDecPositions F qs).filter (fun p => decide (p ∉ qs))
      = (friDecPositions F qs).filter fun p => !(decide (p ∈ qs)) := by
    apply List.filter_congr
    intro x _
    simp
  rw [hcongr]
  rw [hmem] at hsum
  omega

/-! ## Witness tamper-sensitivity (lifted) -/

theorem liftedVerifyLayer_append (e : List LHash) : ∀ (n : Nat)
    (known : List (Nat × LHash)), known.length ≤ n →
    ∀ (ws : List LHash) (next : List (Nat × LHash)) (rest : List LHash),
    liftedVerifyLayer known ws = some (next, rest) →
    liftedVerifyLayer known (ws ++ e) = some (next, rest ++ e) := by
  intro n
  induction n with
  | zero =>
      intro known hlen ws next rest h
      rw [List.length_eq_zero.mp (Nat.le_zero.mp hlen)] at h ⊢
      rw [show liftedVerifyLayer [] ws = some ([], ws) from rfl] at h
      cases h
      rfl
  | succ n ih =>
      intro known hlen ws next rest h
      match known with
      | [] =>
          rw [show liftedVerifyLayer [] ws = some ([], ws) from rfl] at h
          cases h
          rfl
      | [(a, hh)] =>
          cases ws with
          | nil => exact absurd h (by rw [show liftedVerifyLayer [(a, hh)] [] = none from rfl]; simp)
          | cons w ws2 =>
              rw [show liftedVerifyLayer [(a, hh)] (w :: ws2)
                  = some ([(a / 2, if a % 2 = 0 then LHash.node hh w else LHash.node w hh)],
                          ws2) from rfl] at h
              cases h
              rfl
      | (a, hh) :: (b, h2) :: rest2 =>
          rw [liftedVerifyLayer.eq_def] at h ⊢
          by_cases hsib : a ^^^ 1 = b
          · simp only [if_pos hsib] at h ⊢
            cases hrec : liftedVerifyLayer rest2 ws with
            | none => rw [hrec] at h; cases h
            | some r =>
                rw [hrec] at h
                simp only [Option.map_some'] at h
                have h' := Option.some.inj h
                rw [Prod.mk.injEq] at h'
                have hlen2 : rest2.length ≤ n := by
                  simp only [List.length_cons] at hlen
                  omega
                have happ := ih rest2 hlen2 ws r.1 r.2 (by rw [hrec])
                rw [happ]
                simp only [Option.map_some']
                rw [← h'.1, ← h'.2]
          · simp only [if_neg hsib] at h ⊢
            cases ws with
            | nil => cases h
            | cons w ws2 =>
                simp only [List.cons_append] at h ⊢
                cases hrec : liftedVerifyLayer ((b, h2) :: rest2) ws2 with
                | none => rw [hrec] at h; cases h
                | some r =>
                    rw [hrec] at h
                    simp only [Option.map_some'] at h
                    have h' := Option.some.inj h
                    rw [Prod.mk.injEq] at h'
                    have hlen2 : ((b, h2) :: rest2).length ≤ n := by
                      simp only [List.length_cons] at hlen ⊢
                      omega
                    have happ := ih ((b, h2) :: rest2) hlen2 ws2 r.1 r.2 (by rw [hrec])
                    rw [happ]
                    simp only [Option.map_some']
                    rw [← h'.1, ← h'.2]

theorem liftedVerifyGo_append (e : List LHash) : ∀ (k : Nat)
    (known : List (Nat × LHash)) (ws : List LHash) (res : LHash × List LHash),
    liftedVerifyGo k known ws = .ok res →
    liftedVerifyGo k known (ws ++ e) = .ok (res.1, res.2 ++ e) := by
  intro k
  induction k with
  | zero =>
      intro known ws res h
      match known with
      | [] => exact absurd h (by rw [show liftedVerifyGo 0 [] ws
          = .error .rootMismatch from rfl]; simp)
      | [(a, hh)] =>
          rw [show liftedVerifyGo 0 [(a, hh)] ws = .ok (hh, ws) from rfl] at h
          cases h
          rfl
      | (a, hh) :: (b, h2) :: t =>
          refine absurd h ?_
          rw [show liftedVerifyGo 0 ((a, hh) :: (b, h2) :: t) ws
              = .error .rootMismatch from rfl]
          simp
  | succ k ih =>
      intro known ws res h
      rw [show liftedVerifyGo (k + 1) known ws
          = (match liftedVerifyLayer known ws with
             | none => .error .witnessTooShort
             | some (next, ws2) => liftedVerifyGo k next ws2) from rfl] at h
      rw [show liftedVerifyGo (k + 1) known (ws ++ e)
          = (match liftedVerifyLayer known (ws ++ e) with
             | none => .error .witnessTooShort
             | some (next, ws2) => liftedVerifyGo k next ws2) from rfl]
      cases hlay : liftedVerifyLayer known ws with
      | none => rw [hlay] at h; cases h
      | some p =>
          obtain ⟨next, ws2⟩ := p
          rw [hlay] at h
          rw [liftedVerifyLayer_append e known.length known le_rfl ws next ws2 hlay]
          exact ih next ws2 res h

theorem liftedVerifyGo_error_ne_ok : ∀ (k : Nat) (known : List (Nat × LHash))
    (ws : List LHash) (e : LVerifyResult),
    liftedVerifyGo k known ws = .error e → e ≠ .ok := by
  intro k
  induction k with
  | zero =>
      intro known ws e h
      match known with
      | [] =>
          rw [show liftedVerifyGo 0 [] ws = .error .rootMismatch from rfl] at h
          cases h
          simp
      | [(a, hh)] =>
          rw [show liftedVerifyGo 0 [(a, hh)] ws = .ok (hh, ws) from rfl] at h
          cases h
      | (a, hh) :: (b, h2) :: t =>
          rw [show liftedVerifyGo 0 ((a, hh) :: (b, h2) :: t) ws
              = .error .rootMismatch from rfl] at h
          cases h
          simp
  | succ k ih =>
      intro known ws e h
      rw [show liftedVerifyGo (k + 1) known ws
          = (match liftedVerifyLayer known ws with
             | none => .error .witnessTooShort
             | some (next, ws2) => liftedVerifyGo k next ws2) from rfl] at h
      cases hlay : liftedVerifyLayer known ws with
      | none =>
          rw [hlay] at h
          cases h
          simp
      | some p =>
          obtain ⟨next, ws2⟩ := p
          rw [hlay] at h
          exact ih next ws2 e h

/-- Appending any extra hash to the builder's witness flips the lifted
verifier to `WitnessTooLong`. -/
theorem liftedTamperLong {cols : List (List Nat)} {Ls : List Nat} {qs : List Nat}
    (h : ColumnsOk cols Ls) (hqp : List.Pairwise (· < ·) qs) (hqne : qs ≠ [])
    (hqb : ∀ x ∈ qs, x < 2 ^ maxLogSize Ls) (x : LHash) :
    liftedVerify (liftedRoot cols Ls) Ls qs (liftedQueriedValues cols Ls qs)
      (liftedHashWitness cols Ls qs ++ [x]) = .witnessTooLong := by
  have hlvlen := liftedLeaves_length h
  have hrt := liftedVerifyGo_roundtrip (maxLogSize Ls) (liftedLeaves cols Ls) qs [x]
    hlvlen hqp hqne hqb
  simp only [liftedVerify]
  rw [liftedKnown_eq h hqb, liftedWitness_eq h hqp, hrt]
  rfl

/-- Dropping the last entry of a nonempty builder witness makes the lifted
verifier fail. -/
theorem liftedTamperShort {cols : List (List Nat)} {Ls : List Nat} {qs : List Nat}
    (h : ColumnsOk cols Ls) (hqp : List.Pairwise (· < ·) qs) (hqne : qs ≠ [])
    (hqb : ∀ x ∈ qs, x < 2 ^ maxLogSize Ls)
    (hwne : liftedHashWitness cols Ls qs ≠ []) :
    liftedVerify (liftedRoot cols Ls) Ls qs (liftedQueriedValues cols Ls qs)
      (liftedHashWitness cols Ls qs).dropLast ≠ .ok := by
  intro hok
  have hlvlen := liftedLeaves_length h
  simp only [liftedVerify] at hok
  rw [liftedKnown_eq h hqb] at hok
  cases hgo : liftedVerifyGo (maxLogSize Ls)
      (qs.map fun a => (a, (liftedLeaves cols Ls).getD a default))
      (liftedHashWitness cols Ls qs).dropLast with
  | error e =>
      rw [hgo] at hok
      exact liftedVerifyGo_error_ne_ok _ _ _ e hgo hok
  | ok p =>
      have hW : (liftedHashWitness cols Ls qs).dropLast
            ++ [(liftedHashWitness cols Ls qs).getLast hwne]
          = liftedHashWitness cols Ls qs := List.dropLast_append_getLast hwne
      have happ := liftedVerifyGo_append
        [(liftedHashWitness cols Ls qs).getLast hwne] (maxLogSize Ls) _ _ p hgo
      rw [hW] at happ
      have hrt := liftedVerifyGo_roundtrip (maxLogSize Ls) (liftedLeaves cols Ls) qs []
        hlvlen hqp hqne hqb
      rw [List.append_nil, ← liftedWitness_eq h hqp] at hrt
      rw [happ] at hrt
      have h2 := congrArg Prod.snd (Except.ok.inj hrt)
      simp at h2

/-- The number of sibling hashes the query set cannot derive on its own,
over `k` layers: at each layer, one witness hash per known index whose
sibling is not itself in the known set; the (deduplicated) parents form the
next layer's known set. -/
def liftedSiblingCount : Nat → List Nat → Nat
  | 0, _ => 0
  | k + 1, qs =>
      (qs.filter fun a => decide ((a ^^^ 1) ∉ qs)).length
        + liftedSiblingCount k (vecDedup (qs.map fun a => a / 2))

/-- The builder's hash witness has exactly one entry per sibling position
not derivable from the known set, at every layer. -/
theorem witSpecGo_length : ∀ (k : Nat) (l : List LHash) (qs : List Nat),
    List.Pairwise (· < ·) qs →
    (witSpecGo k l qs).length = liftedSiblingCount k qs := by
  intro k
  induction k with
  | zero => intro l qs _; rfl
  | succ k ih =>
      intro l qs hp
      rw [show witSpecGo (k + 1) l qs
          = (liftedLayerWalk l qs).1
            ++ witSpecGo k (halveLayer l) (liftedLayerWalk l qs).2 from rfl]
      rw [show liftedSiblingCount (k + 1) qs
          = (qs.filter fun a => decide ((a ^^^ 1) ∉ qs)).length
            + liftedSiblingCount k (vecDedup (qs.map fun a => a / 2)) from rfl]
      rw [liftedLayerWalk_spec l qs hp]
      rw [List.length_append, List.length_map]
      congr 1
      exact ih (halveLayer l) _ (vecDedup_sorted _ (pairwise_lt_map_div_two hp))

theorem liftedHashWitness_length {cols : List (List Nat)} {Ls : List Nat}
    {qs : List Nat} (h : ColumnsOk cols Ls) (hqp : List.Pairwise (· < ·) qs) :
    (liftedHashWitness cols Ls qs).length = liftedSiblingCount (maxLogSize Ls) qs := by
  rw [liftedWitness_eq h hqp]
  exact witSpecGo_length (maxLogSize Ls) (liftedLeaves cols Ls) qs hqp

/-! ## Witness tamper-sensitivity (grouped) -/

theorem gvChildStep_append (e : List GHash) (a : Nat) (h : GHash)
    (prest : List (Nat × GHash)) (hw : List GHash)
    (l r : GHash) (prest2 : List (Nat × GHash)) (hw2 : List GHash)
    (hstep : gvChildStep a h prest hw = some (l, r, prest2, hw2)) :
    gvChildStep a h prest (hw ++ e) = some (l, r, prest2, hw2 ++ e) := by
  unfold gvChildStep at hstep ⊢
  by_cases hpar : a % 2 = 0
  · rw [if_pos hpar] at hstep ⊢
    cases prest with
    | nil =>
        cases hw with
        | nil => cases hstep
        | cons w hwt =>
            simp only [List.cons_append]
            cases hstep
            rfl
    | cons p prestT =>
        obtain ⟨a2, h2⟩ := p
        by_cases ha2 : a2 = a + 1
        · simp only [if_pos ha2] at hstep ⊢
          cases hstep
          rfl
        · simp only [if_neg ha2] at hstep ⊢
          cases hw with
          | nil => cases hstep
          | cons w hwt =>
              simp only [List.cons_append]
              cases hstep
              rfl
  · rw [if_neg hpar] at hstep ⊢
    cases hw with
    | nil => cases hstep
    | cons w hwt =>
        simp only [List.cons_append]
        cases hstep
        rfl

theorem gvWalkGo_append (e : List GHash) (nCols : Nat) : ∀ (fuel : Nat)
    (known : List (Nat × GHash)) (layerQ : List Nat) (hw : List GHash)
    (qv cw : List Nat)
    (res : List (Nat × GHash) × List GHash × List Nat × List Nat),
    gvWalkGo nCols fuel known layerQ hw qv cw = .ok res →
    gvWalkGo nCols fuel known layerQ (hw ++ e) qv cw
      = .ok (res.1, res.2.1 ++ e, res.2.2.1, res.2.2.2) := by
  intro fuel
  induction fuel with
  | zero =>
      intro known layerQ hw qv cw res h
      have heq : gvWalkGo nCols 0 known layerQ hw qv cw = .ok ([], hw, qv, cw) := by
        cases known <;> cases layerQ <;> rfl
      rw [heq] at h
      cases h
      have heq2 : gvWalkGo nCols 0 known layerQ (hw ++ e) qv cw
          = .ok ([], hw ++ e, qv, cw) := by
        cases known <;> cases layerQ <;> rfl
      rw [heq2]
  | succ fuel ih =>
      intro known layerQ hw qv cw res h
      match known, layerQ with
      | [], [] =>
          rw [show gvWalkGo nCols (fuel + 1) [] [] hw qv cw
              = .ok ([], hw, qv, cw) from rfl] at h
          cases h
          rfl
      | [], b :: qrest =>
          rw [gvWalkGo.eq_def] at h ⊢
          dsimp only at h ⊢
          cases hw with
          | nil => cases h
          | cons w1 hwt =>
              cases hwt with
              | nil => cases h
              | cons w2 hw2 =>
                  simp only [List.cons_append]
                  cases htk : takeN nCols qv with
                  | none => rw [htk] at h; cases h
                  | some p =>
                      obtain ⟨vals, qv2⟩ := p
                      rw [htk] at h
                      dsimp only at h ⊢
                      cases hrec : gvWalkGo nCols fuel [] qrest hw2 qv2 cw with
                      | error e2 => rw [hrec] at h; cases h
                      | ok res2 =>
                          rw [hrec] at h
                          cases h
                          rw [ih [] qrest hw2 qv2 cw res2 hrec]
                          rfl
      | (a, hh) :: prest, [] =>
          rw [gvWalkGo.eq_def] at h ⊢
          dsimp only at h ⊢
          cases hstep : gvChildStep a hh prest hw with
          | none => rw [hstep] at h; cases h
          | some q =>
              obtain ⟨l, r, p2, hw2⟩ := q
              rw [hstep] at h
              rw [gvChildStep_append e a hh prest hw l r p2 hw2 hstep]
              dsimp only at h ⊢
              cases htk : takeN nCols cw with
              | none => rw [htk] at h; cases h
              | some p =>
                  obtain ⟨vals, cw2⟩ := p
                  rw [htk] at h
                  dsimp only at h ⊢
                  cases hrec : gvWalkGo nCols fuel p2 [] hw2 qv cw2 with
                  | error e2 => rw [hrec] at h; cases h
                  | ok res2 =>
                      rw [hrec] at h
                      cases h
                      rw [ih p2 [] hw2 qv cw2 res2 hrec]
                      rfl
      | (a, hh) :: prest, b :: qrest =>
          rw [gvWalkGo.eq_def] at h ⊢
          dsimp only at h ⊢
          by_cases hb : b < a / 2
          · rw [if_pos hb] at h ⊢
            cases hw with
            | nil => cases h
            | cons w1 hwt =>
                cases hwt with
                | nil => cases h
                | cons w2 hw2 =>
                    simp only [List.cons_append]
                    cases htk : takeN nCols qv with
                    | none => rw [htk] at h; cases h
                    | some p =>
                        obtain ⟨vals, qv2⟩ := p
                        rw [htk] at h
                        dsimp only at h ⊢
                        cases hrec : gvWalkGo nCols fuel ((a, hh) :: prest) qrest
                            hw2 qv2 cw with
                        | error e2 => rw [hrec] at h; cases h
                        | ok res2 =>
                            rw [hrec] at h
                            cases h
                            rw [ih ((a, hh) :: prest) qrest hw2 qv2 cw res2 hrec]
                            rfl
          · rw [if_neg hb] at h ⊢
            cases hstep : gvChildStep a hh prest hw with
            | none => rw [hstep] at h; cases h
            | some q =>
                obtain ⟨l, r, p2, hw2⟩ := q
                rw [hstep] at h
                rw [gvChildStep_append e a hh prest hw l r p2 hw2 hstep]
                dsimp only at h ⊢
                by_cases hbe : b = a / 2
                · rw [if_pos hbe] at h ⊢
                  cases htk : takeN nCols qv with
                  | none => rw [htk] at h; cases h
                  | some p =>
                      obtain ⟨vals, qv2⟩ := p
                      rw [htk] at h
                      dsimp only at h ⊢
                      cases hrec : gvWalkGo nCols fuel p2 qrest hw2 qv2 cw with
                      | error e2 => rw [hrec] at h; cases h
                      | ok res2 =>
                          rw [hrec] at h
                          cases h
                          rw [ih p2 qrest hw2 qv2 cw res2 hrec]
                          rfl
                · rw [if_neg hbe] at h ⊢
                  cases htk : takeN nCols cw with
                  | none => rw [htk] at h; cases h
                  | some p =>
                      obtain ⟨vals, cw2⟩ := p
                      rw [htk] at h
                      dsimp only at h ⊢
                      cases hrec : gvWalkGo nCols fuel p2 (b :: qrest) hw2 qv cw2 with
                      | error e2 => rw [hrec] at h; cases h
                      | ok res2 =>
                          rw [hrec] at h
                          cases h
                          rw [ih p2 (b :: qrest) hw2 qv cw2 res2 hrec]
                          rfl

theorem gvWalkGo_error_ne_ok (nCols : Nat) : ∀ (fuel : Nat)
    (known : List (Nat × GHash)) (layerQ : List Nat) (hw : List GHash)
    (qv cw : List Nat) (e : GVerifyResult),
    gvWalkGo nCols fuel known layerQ hw qv cw = .error e → e ≠ .ok := by
  intro fuel
  induction fuel with
  | zero =>
      intro known layerQ hw qv cw e h
      have heq : gvWalkGo nCols 0 known layerQ hw qv cw = .ok ([], hw, qv, cw) := by
        cases known <;> cases layerQ <;> rfl
      rw [heq] at h
      cases h
  | succ fuel ih =>
      intro known layerQ hw qv cw e h
      match known, layerQ with
      | [], [] =>
          rw [show gvWalkGo nCols (fuel + 1) [] [] hw qv cw
              = .ok ([], hw, qv, cw) from rfl] at h
          cases h
      | [], b :: qrest =>
          rw [gvWalkGo.eq_def] at h
          dsimp only at h
          cases hw with
          | nil => cases h; simp
          | cons w1 hwt =>
              cases hwt with
              | nil => cases h; simp
              | cons w2 hw2 =>
                  cases htk : takeN nCols qv with
                  | none => rw [htk] at h; cases h; simp
                  | some p =>
                      obtain ⟨vals, qv2⟩ := p
                      rw [htk] at h
                      dsimp only at h
                      cases hrec : gvWalkGo nCols fuel [] qrest hw2 qv2 cw with
                      | error e2 => rw [hrec] at h; cases h; exact ih _ _ _ _ _ _ hrec
                      | ok res2 => rw [hrec] at h; cases h
      | (a, hh) :: prest, [] =>
          rw [gvWalkGo.eq_def] at h
          dsimp only at h
          cases hstep : gvChildStep a hh prest hw with
          | none => rw [hstep] at h; cases h; simp
          | some q =>
              obtain ⟨l, r, p2, hw2⟩ := q
              rw [hstep] at h
              dsimp only at h
              cases htk : takeN nCols cw with
              | none => rw [htk] at h; cases h; simp
              | some p =>
                  obtain ⟨vals, cw2⟩ := p
                  rw [htk] at h
                  dsimp only at h
                  cases hrec : gvWalkGo nCols fuel p2 [] hw2 qv cw2 with
                  | error e2 => rw [hrec] at h; cases h; exact ih _ _ _ _ _ _ hrec
                  | ok res2 => rw [hrec] at h; cases h
      | (a, hh) :: prest, b :: qrest =>
          rw [gvWalkGo.eq_def] at h
          dsimp only at h
          by_cases hb : b < a / 2
          · rw [if_pos hb] at h
            cases hw with
            | nil => cases h; simp
            | cons w1 hwt =>
                cases hwt with
                | nil => cases h; simp
                | cons w2 hw2 =>
                    cases htk : takeN nCols qv with
                    | none => rw [htk] at h; cases h; simp
                    | some p =>
                        obtain ⟨vals, qv2⟩ := p
                        rw [htk] at h
                        dsimp only at h
                        cases hrec : gvWalkGo nCols fuel ((a, hh) :: prest) qrest
                            hw2 qv2 cw with
                        | error e2 => rw [hrec] at h; cases h; exact ih _ _ _ _ _ _ hrec
                        | ok res2 => rw [hrec] at h; cases h
          · rw [if_neg hb] at h
            cases hstep : gvChildStep a hh prest hw with
            | none => rw [hstep] at h; cases h; simp
            | some q =>
                obtain ⟨l, r, p2, hw2⟩ := q
                rw [hstep] at h
                dsimp only at h
                by_cases hbe : b = a / 2
                · rw [if_pos hbe] at h
                  cases htk : takeN nCols qv with
                  | none => rw [htk] at h; cases h; simp
                  | some p =>
                      obtain ⟨vals, qv2⟩ := p
                      rw [htk] at h
                      dsimp only at h
                      cases hrec : gvWalkGo nCols fuel p2 qrest hw2 qv2 cw with
                      | error e2 => rw [hrec] at h; cases h; exact ih _ _ _ _ _ _ hrec
                      | ok res2 => rw [hrec] at h; cases h
                · rw [if_neg hbe] at h
                  cases htk : takeN nCols cw with
                  | none => rw [htk] at h; cases h; simp
                  | some p =>
                      obtain ⟨vals, cw2⟩ := p
                      rw [htk] at h
                      dsimp only at h
                      cases hrec : gvWalkGo nCols fuel p2 (b :: qrest) hw2 qv cw2 with
                      | error e2 => rw [hrec] at h; cases h; exact ih _ _ _ _ _ _ hrec
                      | ok res2 => rw [hrec] at h; cases h

theorem gvWalkTop_error_ne_ok (nCols : Nat) : ∀ (qs qv : List Nat) (e : GVerifyResult),
    gvWalkTop nCols qs qv = .error e → e ≠ .ok := by
  intro qs
  induction qs with
  | nil => intro qv e h; cases h
  | cons b qrest ih =>
      intro qv e h
      rw [show gvWalkTop nCols (b :: qrest) qv
          = (match takeN nCols qv with
             | none => .error .tooFewQueriedValues
             | some (vals, qv2) =>
                 (gvWalkTop nCols qrest qv2).map fun r =>
                   ((b, GHash.top vals) :: r.1, r.2)) from rfl] at h
      cases htk : takeN nCols qv with
      | none => rw [htk] at h; cases h; simp
      | some p =>
          obtain ⟨vals, qv2⟩ := p
          rw [htk] at h
          dsimp only at h
          cases hrec : gvWalkTop nCols qrest qv2 with
          | error e2 => rw [hrec] at h; cases h; exact ih _ _ hrec
          | ok r => rw [hrec] at h; cases h

theorem gVerifyLoop_append (e : List GHash) (nColsF : Nat → Nat)
    (qsBy : Nat → List Nat) (maxL : Nat) : ∀ (n : Nat)
    (known : List (Nat × GHash)) (hw : List GHash) (qv cw : List Nat)
    (res : List (Nat × GHash) × List GHash × List Nat × List Nat),
    gVerifyLoop nColsF qsBy maxL n known hw qv cw = .ok res →
    gVerifyLoop nColsF qsBy maxL n known (hw ++ e) qv cw
      = .ok (res.1, res.2.1 ++ e, res.2.2.1, res.2.2.2) := by
  intro n
  induction n with
  | zero =>
      intro known hw qv cw res h
      rw [show gVerifyLoop nColsF qsBy maxL 0 known hw qv cw
          = .ok (known, hw, qv, cw) from rfl] at h
      cases h
      rfl
  | succ n ih =>
      intro known hw qv cw res h
      rw [gVerifyLoop.eq_def] at h ⊢
      dsimp only at h ⊢
      by_cases hn : n = maxL
      · rw [if_pos hn] at h ⊢
        cases htop : gvWalkTop (nColsF n) (qsBy n) qv with
        | error e2 => rw [htop] at h; cases h
        | ok p =>
            obtain ⟨known2, qv2⟩ := p
            rw [htop] at h
            dsimp only at h ⊢
            exact ih known2 hw qv2 cw res h
      · rw [if_neg hn] at h ⊢
        cases hwalk : gvWalk (nColsF n) known (qsBy n) hw qv cw with
        | error e2 => rw [hwalk] at h; cases h
        | ok p =>
            obtain ⟨known2, hw2, qv2, cw2⟩ := p
            rw [hwalk] at h
            have hwalk2 : gvWalk (nColsF n) known (qsBy n) (hw ++ e) qv cw
                = .ok (known2, hw2 ++ e, qv2, cw2) := by
              unfold gvWalk at hwalk ⊢
              exact gvWalkGo_append e (nColsF n) _ known (qsBy n) hw qv cw
                (known2, hw2, qv2, cw2) hwalk
            rw [hwalk2]
            exact ih known2 hw2 qv2 cw2 res h

theorem gVerifyLoop_error_ne_ok (nColsF : Nat → Nat)
    (qsBy : Nat → List Nat) (maxL : Nat) : ∀ (n : Nat)
    (known : List (Nat × GHash)) (hw : List GHash) (qv cw : List Nat)
    (e : GVerifyResult),
    gVerifyLoop nColsF qsBy maxL n known hw qv cw = .error e → e ≠ .ok := by
  intro n
  induction n with
  | zero =>
      intro known hw qv cw e h
      rw [show gVerifyLoop nColsF qsBy maxL 0 known hw qv cw
          = .ok (known, hw, qv, cw) from rfl] at h
      cases h
  | succ n ih =>
      intro known hw qv cw e h
      rw [gVerifyLoop.eq_def] at h
      dsimp only at h
      by_cases hn : n = maxL
      · rw [if_pos hn] at h
        cases htop : gvWalkTop (nColsF n) (qsBy n) qv with
        | error e2 =>
            rw [htop] at h
            cases h
            exact gvWalkTop_error_ne_ok _ _ _ _ htop
        | ok p =>
            obtain ⟨known2, qv2⟩ := p
            rw [htop] at h
            exact ih known2 hw qv2 cw e h
      · rw [if_neg hn] at h
        cases hwalk : gvWalk (nColsF n) known (qsBy n) hw qv cw with
        | error e2 =>
            rw [hwalk] at h
            cases h
            exact gvWalkGo_error_ne_ok _ _ _ _ _ _ _ _ hwalk
        | ok p =>
            obtain ⟨known2, hw2, qv2, cw2⟩ := p
            rw [hwalk] at h
            exact ih known2 hw2 qv2 cw2 e h

/-- Appending any extra hash to the grouped builder's witness flips the
grouped verifier to `WitnessTooLong`. -/
theorem groupedTamperLong (cols : List (List Nat)) (Ls : List Nat)
    (qsBy : Nat → List Nat) (hlen : cols.length = Ls.length)
    (hqs : ∀ L, ∀ x ∈ qsBy L, x < 2 ^ L)
    (hqp : ∀ L, List.Pairwise (· < ·) (qsBy L)) (x : GHash) :
    groupedVerify (groupedRoot (gColsBy cols Ls) (maxLogSize Ls)) Ls qsBy
      (groupedDecommit cols Ls qsBy).2.1
      ((groupedDecommit cols Ls qsBy).1 ++ [x])
      (groupedDecommit cols Ls qsBy).2.2 = .witnessTooLong := by
  have hfull := gVerifyLoop_builder cols Ls qsBy hlen hqs hqp [x] [] []
  simp only [List.append_nil] at hfull
  unfold groupedVerify
  rw [hfull]
  rfl

/-- Dropping the last entry of a nonempty grouped builder witness makes the
grouped verifier fail. -/
theorem groupedTamperShort (cols : List (List Nat)) (Ls : List Nat)
    (qsBy : Nat → List Nat) (hlen : cols.length = Ls.length)
    (hqs : ∀ L, ∀ x ∈ qsBy L, x < 2 ^ L)
    (hqp : ∀ L, List.Pairwise (· < ·) (qsBy L))
    (hwne : (groupedDecommit cols Ls qsBy).1 ≠ []) :
    groupedVerify (groupedRoot (gColsBy cols Ls) (maxLogSize Ls)) Ls qsBy
      (groupedDecommit cols Ls qsBy).2.1
      ((groupedDecommit cols Ls qsBy).1).dropLast
      (groupedDecommit cols Ls qsBy).2.2 ≠ .ok := by
  intro hok
  unfold groupedVerify at hok
  cases hloop : gVerifyLoop (nColsAt Ls) qsBy (maxLogSize Ls) (maxLogSize Ls + 1) []
      ((groupedDecommit cols Ls qsBy).1).dropLast
      (groupedDecommit cols Ls qsBy).2.1
      (groupedDecommit cols Ls qsBy).2.2 with
  | error eL =>
      rw [hloop] at hok
      exact gVerifyLoop_error_ne_ok _ _ _ _ _ _ _ _ _ hloop hok
  | ok r =>
      have hW : ((groupedDecommit cols Ls qsBy).1).dropLast
            ++ [((groupedDecommit cols Ls qsBy).1).getLast hwne]
          = (groupedDecommit cols Ls qsBy).1 := List.dropLast_append_getLast hwne
      have happ := gVerifyLoop_append
        [((groupedDecommit cols Ls qsBy).1).getLast hwne]
        (nColsAt Ls) qsBy (maxLogSize Ls) (maxLogSize Ls + 1) []
        ((groupedDecommit cols Ls qsBy).1).dropLast
        (groupedDecommit cols Ls qsBy).2.1
        (groupedDecommit cols Ls qsBy).2.2 r hloop
      rw [hW] at happ
      have hfull := gVerifyLoop_builder cols Ls qsBy hlen hqs hqp [] [] []
      simp only [List.append_nil] at hfull
      rw [happ] at hfull
      have h2 := congrArg (fun z => z.2.1) (Except.ok.inj hfull)
      simp at h2

/-! ## Grouped minimality: the hash witness is exactly the underivable
child hashes -/

theorem gChildStep_snd_mem_iff (ph : List GHash) (a : Nat) (prest : List Nat)
    (c : Nat) (hc : 2 * (a / 2) + 2 ≤ c) :
    c ∈ (gChildStep ph a prest).2 ↔ c ∈ a :: prest := by
  unfold gChildStep
  by_cases hpar : a % 2 = 0
  · rw [if_pos hpar]
    have he : 2 * (a / 2) = a := by omega
    match prest with
    | [] =>
        simp only [List.mem_cons]
        constructor
        · intro h
          exact absurd h (by simp)
        · intro h
          rcases h with h | h
          · omega
          · exact absurd h (by simp)
    | a2 :: prest2 =>
        by_cases ha2 : a2 = a + 1
        · simp only [if_pos ha2, List.mem_cons, ha2]
          constructor
          · intro h
            exact Or.inr (Or.inr h)
          · intro h
            rcases h with h | h | h
            · omega
            · omega
            · exact h
        · simp only [if_neg ha2, List.mem_cons]
          constructor
          · intro h
            exact Or.inr h
          · intro h
            rcases h with h | h
            · omega
            · exact h
  · rw [if_neg hpar]
    simp only [List.mem_cons]
    constructor
    · intro h
      exact Or.inr h
    · intro h
      rcases h with h | h
      · omega
      · exact h

theorem gChildStep_fst_spec (ph : List GHash) (a : Nat) (prest : List Nat)
    (hp : List.Pairwise (· < ·) prest) (hgt : ∀ x ∈ prest, a < x) :
    ([2 * (a / 2), 2 * (a / 2) + 1].filter fun c => decide (c ∉ a :: prest)).map
        (fun c => ph.getD c default)
      = (gChildStep ph a prest).1 := by
  unfold gChildStep
  by_cases hpar : a % 2 = 0
  · rw [if_pos hpar]
    have he : 2 * (a / 2) = a := by omega
    have hd1 : decide (2 * (a / 2) ∉ a :: prest) = false := by
      simp [he]
    match prest with
    | [] =>
        have hd2 : decide (2 * (a / 2) + 1 ∉ a :: ([] : List Nat)) = true := by
          apply decide_eq_true
          simp only [List.mem_cons]
          intro h
          rcases h with h | h
          · omega
          · exact absurd h (by simp)
        rw [List.filter_cons, hd1, List.filter_cons, hd2]
        simp [he]
    | a2 :: prest2 =>
        by_cases ha2 : a2 = a + 1
        · have hd2 : decide (2 * (a / 2) + 1 ∉ a :: a2 :: prest2) = false := by
            simp only [decide_eq_false_iff_not, Decidable.not_not]
            simp only [List.mem_cons]
            exact Or.inr (Or.inl (by omega))
          rw [List.filter_cons, hd1, List.filter_cons, hd2]
          simp only [if_pos ha2]
          simp
        · have hd2 : decide (2 * (a / 2) + 1 ∉ a :: a2 :: prest2) = true := by
            apply decide_eq_true
            simp only [List.mem_cons]
            intro h
            have ha2gt : a < a2 := hgt a2 (List.mem_cons_self _ _)
            rcases h with h | h | h
            · omega
            · omega
            · have := (List.pairwise_cons.mp hp).1 _ h
              omega
          rw [List.filter_cons, hd1, List.filter_cons, hd2]
          simp only [if_neg ha2]
          simp [he]
  · rw [if_neg hpar]
    have he : 2 * (a / 2) = a - 1 := by omega
    have hd1 : decide (2 * (a / 2) ∉ a :: prest) = true := by
      apply decide_eq_true
      simp only [List.mem_cons]
      intro h
      rcases h with h | h
      · omega
      · have := hgt _ h
        omega
    have hd2 : decide (2 * (a / 2) + 1 ∉ a :: prest) = false := by
      simp only [decide_eq_false_iff_not, Decidable.not_not]
      simp only [List.mem_cons]
      exact Or.inl (by omega)
    rw [List.filter_cons, hd1, List.filter_cons, hd2]
    simp [he]

/-- Per-layer minimality of the grouped hash witness: the emitted hashes
are exactly the hashes of the visited nodes' children that are not already
known child indices, in traversal order. -/
theorem gWalkInnerGo_hw_spec (ph : List GHash) (lc : List (List Nat)) :
    ∀ (fuel : Nat) (prevQ layerQ : List Nat),
    List.Pairwise (· < ·) prevQ → List.Pairwise (· < ·) layerQ →
    (gWalkInnerGo ph lc fuel prevQ layerQ).2.1
      = (((gWalkInnerGo ph lc fuel prevQ layerQ).1.flatMap fun i =>
            [2 * i, 2 * i + 1]).filter fun c => decide (c ∉ prevQ)).map
          fun c => ph.getD c default := by
  intro fuel
  induction fuel with
  | zero =>
      intro prevQ layerQ _ _
      match prevQ, layerQ with
      | [], [] => rfl
      | [], _ :: _ => rfl
      | _ :: _, [] => rfl
      | _ :: _, _ :: _ => rfl
  | succ fuel ih =>
      intro prevQ layerQ hpp hpl
      match prevQ, layerQ with
      | [], [] => rfl
      | [], b :: qrest =>
          rw [show (gWalkInnerGo ph lc (fuel + 1) [] (b :: qrest)).2.1
              = ph.getD (2 * b) default :: ph.getD (2 * b + 1) default
                :: (gWalkInnerGo ph lc fuel [] qrest).2.1 from rfl]
          rw [show (gWalkInnerGo ph lc (fuel + 1) [] (b :: qrest)).1
              = b :: (gWalkInnerGo ph lc fuel [] qrest).1 from rfl]
          rw [List.flatMap_cons, List.filter_append, List.map_append]
          rw [show ((([2 * b, 2 * b + 1] : List Nat)).filter
              fun c => decide (c ∉ ([] : List Nat))) = [2 * b, 2 * b + 1] from by simp]
          rw [ih [] qrest (by simp) hpl.of_cons]
          rfl
      | a :: prest, [] =>
          have hgt : ∀ x ∈ prest, a < x :=
            fun x hx => List.rel_of_pairwise_cons hpp hx
          have hchild_lb := gChildStep_snd_lb ph a prest hpp.of_cons hgt
          have hxlb : ∀ x ∈ (gWalkInnerGo ph lc fuel (gChildStep ph a prest).2 []).1,
              a / 2 + 1 ≤ x := by
            intro x hx
            rcases gWalkInnerGo_visited_mem ph lc fuel _ _ x hx with ⟨a2, ha2, rfl⟩ | h
            · have := hchild_lb a2 ha2
              omega
            · exact absurd h (by simp)
          rw [show (gWalkInnerGo ph lc (fuel + 1) (a :: prest) []).2.1
              = (gChildStep ph a prest).1
                ++ (gWalkInnerGo ph lc fuel (gChildStep ph a prest).2 []).2.1 from rfl]
          rw [show (gWalkInnerGo ph lc (fuel + 1) (a :: prest) []).1
              = a / 2 :: (gWalkInnerGo ph lc fuel (gChildStep ph a prest).2 []).1 from rfl]
          rw [List.flatMap_cons, List.filter_append, List.map_append]
          rw [gChildStep_fst_spec ph a prest hpp.of_cons hgt]
          congr 1
          have hcong : ∀ c ∈ (gWalkInnerGo ph lc fuel
              (gChildStep ph a prest).2 []).1.flatMap fun i => [2 * i, 2 * i + 1],
              (decide (c ∉ (gChildStep ph a prest).2)) = (decide (c ∉ a :: prest)) := by
            intro c hc
            obtain ⟨x, hx, hcx⟩ := List.mem_flatMap.mp hc
            have hxb := hxlb x hx
            have hclb : 2 * (a / 2) + 2 ≤ c := by
              simp only [List.mem_cons] at hcx
              rcases hcx with rfl | hcx2
              · omega
              · rcases hcx2 with rfl | habs
                · omega
                · exact absurd habs (by simp)
            apply decide_eq_decide.mpr
            exact not_congr (gChildStep_snd_mem_iff ph a prest c hclb)
          rw [← List.filter_congr hcong]
          rw [ih (gChildStep ph a prest).2 []
            (hpp.of_cons.sublist (gChildStep_snd_sublist ph a prest)) (by simp)]
      | a :: prest, b :: qrest =>
          have hgt : ∀ x ∈ prest, a < x :=
            fun x hx => List.rel_of_pairwise_cons hpp hx
          have hchild_lb := gChildStep_snd_lb ph a prest hpp.of_cons hgt
          have hprest2 : List.Pairwise (· < ·) (gChildStep ph a prest).2 :=
            hpp.of_cons.sublist (gChildStep_snd_sublist ph a prest)
          by_cases h1 : b < a / 2
          · rw [show (gWalkInnerGo ph lc (fuel + 1) (a :: prest) (b :: qrest)).2.1
                = ph.getD (2 * b) default :: ph.getD (2 * b + 1) default
                  :: (gWalkInnerGo ph lc fuel (a :: prest) qrest).2.1 from by
                  rw [gWalkInnerGo.eq_def]
                  simp [h1]]
            rw [show (gWalkInnerGo ph lc (fuel + 1) (a :: prest) (b :: qrest)).1
                = b :: (gWalkInnerGo ph lc fuel (a :: prest) qrest).1 from by
                  rw [gWalkInnerGo.eq_def]
                  simp [h1]]
            rw [List.flatMap_cons, List.filter_append, List.map_append]
            have hb1 : decide ((2 * b : Nat) ∉ a :: prest) = true := by
              apply decide_eq_true
              simp only [List.mem_cons]
              intro h
              rcases h with h | h
              · omega
              · have := hgt _ h
                omega
            have hb2 : decide ((2 * b + 1 : Nat) ∉ a :: prest) = true := by
              apply decide_eq_true
              simp only [List.mem_cons]
              intro h
              rcases h with h | h
              · omega
              · have := hgt _ h
                omega
            rw [List.filter_cons, hb1, List.filter_cons, hb2]
            rw [ih (a :: prest) qrest hpp hpl.of_cons]
            rfl
          · have hxlb : ∀ (lq : List Nat), (∀ b2 ∈ lq, a / 2 + 1 ≤ b2) →
                ∀ x ∈ (gWalkInnerGo ph lc fuel (gChildStep ph a prest).2 lq).1,
                a / 2 + 1 ≤ x := by
              intro lq hlq x hx
              rcases gWalkInnerGo_visited_mem ph lc fuel _ _ x hx with ⟨a2, ha2, rfl⟩ | h
              · have := hchild_lb a2 ha2
                omega
              · exact hlq x h
            have hcong : ∀ (lq : List Nat), (∀ b2 ∈ lq, a / 2 + 1 ≤ b2) →
                ∀ c ∈ (gWalkInnerGo ph lc fuel
                  (gChildStep ph a prest).2 lq).1.flatMap fun i => [2 * i, 2 * i + 1],
                (decide (c ∉ (gChildStep ph a prest).2)) = (decide (c ∉ a :: prest)) := by
              intro lq hlq c hc
              obtain ⟨x, hx, hcx⟩ := List.mem_flatMap.mp hc
              have hxb := hxlb lq hlq x hx
              have hclb : 2 * (a / 2) + 2 ≤ c := by
                simp only [List.mem_cons] at hcx
                rcases hcx with rfl | hcx2
                · omega
                · rcases hcx2 with rfl | habs
                  · omega
                  · exact absurd habs (by simp)
              apply decide_eq_decide.mpr
              exact not_congr (gChildStep_snd_mem_iff ph a prest c hclb)
            by_cases h2 : b = a / 2
            · rw [show (gWalkInnerGo ph lc (fuel + 1) (a :: prest) (b :: qrest)).2.1
                  = (gChildStep ph a prest).1
                    ++ (gWalkInnerGo ph lc fuel (gChildStep ph a prest).2 qrest).2.1 from by
                    rw [gWalkInnerGo.eq_def]
                    simp [h1, h2]]
              rw [show (gWalkInnerGo ph lc (fuel + 1) (a :: prest) (b :: qrest)).1
                  = a / 2 ::
                    (gWalkInnerGo ph lc fuel (gChildStep ph a prest).2 qrest).1 from by
                    rw [gWalkInnerGo.eq_def]
                    simp [h1, h2]]
              rw [List.flatMap_cons, List.filter_append, List.map_append]
              rw [gChildStep_fst_spec ph a prest hpp.of_cons hgt]
              congr 1
              have hq2 : ∀ b2 ∈ qrest, a / 2 + 1 ≤ b2 := by
                intro b2 hb2
                have := List.rel_of_pairwise_cons hpl hb2
                omega
              rw [← List.filter_congr (hcong qrest hq2)]
              rw [ih (gChildStep ph a prest).2 qrest hprest2 hpl.of_cons]
            · rw [show (gWalkInnerGo ph lc (fuel + 1) (a :: prest) (b :: qrest)).2.1
                  = (gChildStep ph a prest).1
                    ++ (gWalkInnerGo ph lc fuel (gChildStep ph a prest).2
                        (b :: qrest)).2.1 from by
                    rw [gWalkInnerGo.eq_def]
                    simp [h1, h2]]
              rw [show (gWalkInnerGo ph lc (fuel + 1) (a :: prest) (b :: qrest)).1
                  = a / 2 ::
                    (gWalkInnerGo ph lc fuel (gChildStep ph a prest).2
                      (b :: qrest)).1 from by
                    rw [gWalkInnerGo.eq_def]
                    simp [h1, h2]]
              rw [List.flatMap_cons, List.filter_append, List.map_append]
              rw [gChildStep_fst_spec ph a prest hpp.of_cons hgt]
              congr 1
              have hq2 : ∀ b2 ∈ b :: qrest, a / 2 + 1 ≤ b2 := by
                intro b2 hb2
                rcases List.mem_cons.mp hb2 with rfl | hmem
                · omega
                · have := List.rel_of_pairwise_cons hpl hmem
                  omega
              rw [← List.filter_congr (hcong (b :: qrest) hq2)]
              rw [ih (gChildStep ph a prest).2 (b :: qrest) hprest2 hpl]

/-- The number of child-hash positions the query set cannot derive, layer
by layer: at each layer below the top, every visited node's children
`2i, 2i+1` are needed except those already known from below; the visited
nodes become the known set of the next layer up. -/
def gSiblingCount (colsBy : Nat → List (List Nat)) (qsBy : Nat → List Nat)
    (maxL : Nat) : Nat → List Nat → Nat
  | 0, _ => 0
  | n + 1, prevQ =>
      if n = maxL then
        gSiblingCount colsBy qsBy maxL n (gWalkTop (colsBy n) (qsBy n)).1
      else
        (((gWalkInner (gLayer colsBy maxL (n + 1)) (colsBy n) prevQ (qsBy n)).1.flatMap
            fun i => [2 * i, 2 * i + 1]).filter fun c => decide (c ∉ prevQ)).length
          + gSiblingCount colsBy qsBy maxL n
              (gWalkInner (gLayer colsBy maxL (n + 1)) (colsBy n) prevQ (qsBy n)).1

theorem gDecommitLoop_hw_length (colsBy : Nat → List (List Nat))
    (qsBy : Nat → List Nat) (maxL : Nat)
    (hqp : ∀ L, List.Pairwise (· < ·) (qsBy L)) :
    ∀ (n : Nat) (prevQ : List Nat), List.Pairwise (· < ·) prevQ →
    (gDecommitLoop colsBy qsBy maxL n prevQ).2.1.length
      = gSiblingCount colsBy qsBy maxL n prevQ := by
  intro n
  induction n with
  | zero => intro prevQ _; rfl
  | succ n ih =>
      intro prevQ hpp
      rw [gDecommitLoop.eq_def]
      dsimp only
      rw [show gSiblingCount colsBy qsBy maxL (n + 1) prevQ
          = if n = maxL then
              gSiblingCount colsBy qsBy maxL n (gWalkTop (colsBy n) (qsBy n)).1
            else
              (((gWalkInner (gLayer colsBy maxL (n + 1)) (colsBy n) prevQ
                  (qsBy n)).1.flatMap
                  fun i => [2 * i, 2 * i + 1]).filter
                    fun c => decide (c ∉ prevQ)).length
                + gSiblingCount colsBy qsBy maxL n
                    (gWalkInner (gLayer colsBy maxL (n + 1)) (colsBy n) prevQ
                      (qsBy n)).1 from rfl]
      by_cases hn : n = maxL
      · rw [if_pos hn, if_pos hn]
        rw [List.length_append]
        have hvis : (gWalkTop (colsBy n) (qsBy n)).1 = qsBy n := gWalkTop_visited _ _
        rw [ih (gWalkTop (colsBy n) (qsBy n)).1 (by rw [hvis]; exact hqp n)]
        simp
      · rw [if_neg hn, if_neg hn]
        rw [List.length_append]
        have hvisp : List.Pairwise (· < ·)
            (gWalkInner (gLayer colsBy maxL (n + 1)) (colsBy n) prevQ (qsBy n)).1 :=
          gWalkInnerGo_visited_pairwise _ _ _ _ _ hpp (hqp n)
        rw [ih _ hvisp]
        congr 1
        unfold gWalkInner
        rw [gWalkInnerGo_hw_spec (gLayer colsBy maxL (n + 1)) (colsBy n) _ _ _
          hpp (hqp n)]
        rw [List.length_map]

/-- The grouped hash witness has exactly one entry per child-hash position
not derivable from the queries, over all layers. -/
theorem groupedDecommit_hw_length (cols : List (List Nat)) (Ls : List Nat)
    (qsBy : Nat → List Nat) (hqp : ∀ L, List.Pairwise (· < ·) (qsBy L)) :
    (groupedDecommit cols Ls qsBy).1.length
      = gSiblingCount (gColsBy cols Ls) qsBy (maxLogSize Ls) (maxLogSize Ls + 1) [] :=
  gDecommitLoop_hw_length (gColsBy cols Ls) qsBy (maxLogSize Ls) hqp
    (maxLogSize Ls + 1) [] (by simp)

/-! ## Closed form of the lifted leaf builder -/

theorem buildLiftedLeaves_spec (cols : List (List Nat)) (hne : cols ≠ [])
    (hcols : ∀ c ∈ cols, c.length = 2 ^ ilog2 c.length ∧ 1 ≤ ilog2 c.length)
    (hpair : List.Pairwise
      (fun c c' : List Nat => ilog2 c.length ≤ ilog2 c'.length) cols) :
    buildLiftedLeaves cols
      = (List.range (2 ^ lastLog 1 cols)).map fun p =>
          LHash.leaf (cols.map fun c =>
            c.getD (shuffleIdx (lastLog 1 cols - ilog2 c.length) p) 0) := by
  have hspec := liftedLeavesGo_spec cols.length cols [] 1 le_rfl le_rfl
    hcols hpair (by simp)
  have hstart : ((List.range (2 ^ 1)).map fun idx =>
      ([] : List (List Nat)).map fun c => c.getD (shuffleIdx (1 - ilog2 c.length) idx) 0)
      = [[], []] := rfl
  rw [hstart] at hspec
  obtain ⟨c0, rest0, hmatch⟩ : ∃ c0 rest0, cols = c0 :: rest0 := by
    match hm : cols with
    | [] => exact absurd rfl hne
    | c0 :: rest0 => exact ⟨c0, rest0, rfl⟩
  rw [hmatch,
    show buildLiftedLeaves (c0 :: rest0)
      = (liftedLeavesGo (c0 :: rest0).length (c0 :: rest0) [[], []] 1).map LHash.leaf
      from rfl,
    ← hmatch, hspec, List.map_map]
  apply List.map_congr_left
  intro p _
  simp only [Function.comp_apply, List.nil_append]

/-! ## The claims -/

/-- Claim C1: Round-trip — for every committed column set (each column of
length `2^L`, `L ≥ 1`) and every sorted set of in-range query positions,
verifying the decommitment produced by the builder against the committed
root succeeds, in both variants: the grouped builder's streams are
accepted by the grouped verifier, and the lifted builder's
`(queried_values, hash_witness)` is accepted by the lifted verifier. -/
theorem C1_round_trip (cols : List (List Nat)) (Ls : List Nat) (qs : List Nat)
    (qsBy : Nat → List Nat) (h : ColumnsOk cols Ls)
    (hqp : List.Pairwise (· < ·) qs) (hqne : qs ≠ [])
    (hqb : ∀ x ∈ qs, x < 2 ^ maxLogSize Ls)
    (hgqs : ∀ L, ∀ x ∈ qsBy L, x < 2 ^ L)
    (hgqp : ∀ L, List.Pairwise (· < ·) (qsBy L))
    (hgqne : qsBy (maxLogSize Ls) ≠ []) :
    liftedVerify (liftedRoot cols Ls) Ls qs (liftedQueriedValues cols Ls qs)
        (liftedHashWitness cols Ls qs) = .ok
    ∧ groupedVerify (groupedRoot (gColsBy cols Ls) (maxLogSize Ls)) Ls qsBy
        (groupedDecommit cols Ls qsBy).2.1 (groupedDecommit cols Ls qsBy).1
        (groupedDecommit cols Ls qsBy).2.2 = .ok :=
  ⟨liftedRoundTrip h hqp hqne hqb, groupedRoundTrip cols Ls qsBy h.1 hgqs hgqp hgqne⟩

theorem C1_round_trip_witness :
    liftedVerify (liftedRoot [[1, 2], [3, 4, 5, 6]] [1, 2]) [1, 2] [1]
        (liftedQueriedValues [[1, 2], [3, 4, 5, 6]] [1, 2] [1])
        (liftedHashWitness [[1, 2], [3, 4, 5, 6]] [1, 2] [1]) = .ok
    ∧ groupedVerify
        (groupedRoot (gColsBy [[1, 2], [3, 4, 5, 6]] [1, 2]) (maxLogSize [1, 2]))
        [1, 2] (fun L => if L = 2 then [2] else [])
        (groupedDecommit [[1, 2], [3, 4, 5, 6]] [1, 2]
          (fun L => if L = 2 then [2] else [])).2.1
        (groupedDecommit [[1, 2], [3, 4, 5, 6]] [1, 2]
          (fun L => if L = 2 then [2] else [])).1
        (groupedDecommit [[1, 2], [3, 4, 5, 6]] [1, 2]
          (fun L => if L = 2 then [2] else [])).2.2 = .ok :=
  C1_round_trip [[1, 2], [3, 4, 5, 6]] [1, 2] [1] (fun L => if L = 2 then [2] else [])
    (by decide) (by decide) (by decide) (by decide)
    (by
      intro L x hx
      by_cases h2 : L = 2
      · subst h2
        simp at hx
        subst hx
        norm_num
      · simp [h2] at hx)
    (by
      intro L
      by_cases h2 : L = 2
      · subst h2
        simp
      · simp [h2])
    (by decide)

/-- Claim C2: in the lifted variant, `queried_values` has one entry per
committed column (in commitment order) and one value per query; the value
revealed for a column of log-size `Lc` at global position `p` is the
column element at local index `(p >> (shift+1) << 1) + (p & 1)` with
`shift = maxL - Lc` — and there is no column-level witness tier: the
builder returns only `queried_values` and `hash_witness`. -/
theorem C2_lifted_queried_values (cols : List (List Nat)) (Ls : List Nat)
    (qs : List Nat) (h : ColumnsOk cols Ls) (i j : Nat)
    (hi : i < cols.length) (hj : j < qs.length) :
    (liftedQueriedValues cols Ls qs).length = cols.length
    ∧ ((liftedQueriedValues cols Ls qs).getD i []).length = qs.length
    ∧ ((liftedQueriedValues cols Ls qs).getD i []).getD j 0
        = (cols.getD i []).getD
            (shuffleIdx (maxLogSize Ls - Ls.getD i 0) (qs.getD j 0)) 0 := by
  have hlvlen := liftedLeaves_length h
  have hmaxlog : liftedMaxLog (liftedLeaves cols Ls) = maxLogSize Ls :=
    liftedMaxLog_pow hlvlen
  have hil : i < Ls.length := by
    rw [← h.1]
    exact hi
  refine ⟨by simp [liftedQueriedValues], ?_, ?_⟩
  · unfold liftedQueriedValues
    rw [getD_map_lists _ cols i hi]
    simp
  · unfold liftedQueriedValues
    rw [getD_map_lists _ cols i hi, getD_map_nat _ qs j hj, hmaxlog,
      columnsOk_ilog2 h hil]

theorem C2_lifted_queried_values_witness :
    (liftedQueriedValues [[1, 2], [3, 4, 5, 6]] [1, 2] [0, 3]).length
        = ([[1, 2], [3, 4, 5, 6]] : List (List Nat)).length
    ∧ ((liftedQueriedValues [[1, 2], [3, 4, 5, 6]] [1, 2] [0, 3]).getD 0 []).length
        = ([0, 3] : List Nat).length
    ∧ ((liftedQueriedValues [[1, 2], [3, 4, 5, 6]] [1, 2] [0, 3]).getD 0 []).getD 1 0
        = (([[1, 2], [3, 4, 5, 6]] : List (List Nat)).getD 0 []).getD
            (shuffleIdx (maxLogSize [1, 2] - ([1, 2] : List Nat).getD 0 0)
              (([0, 3] : List Nat).getD 1 0)) 0 :=
  C2_lifted_queried_values [[1, 2], [3, 4, 5, 6]] [1, 2] [0, 3] (by decide) 0 1
    (by decide) (by decide)

/-- Claim C3: the lifted leaf builder, processing columns in nondecreasing
log-size order from two placeholder states of width `2^1`, widens the state
array by `new[idx] = old[(idx >> (ratio+1) << 1) + (idx & 1)]` and absorbs
every column of each group at each index; the resulting `2^maxL` leaves
absorb, at leaf `p`, each column's value at the local index of `p`. -/
theorem C3_lifted_leaf_builder (cols : List (List Nat)) (hne : cols ≠ [])
    (hcols : ∀ c ∈ cols, c.length = 2 ^ ilog2 c.length ∧ 1 ≤ ilog2 c.length)
    (hpair : List.Pairwise
      (fun c c' : List Nat => ilog2 c.length ≤ ilog2 c'.length) cols) :
    (∀ (states : List LState) (ratio width idx : Nat), idx < width →
      (widenStates states ratio width).getD idx []
        = states.getD (shuffleIdx ratio idx) [])
    ∧ (∀ (states : List LState) (c : List Nat) (idx : Nat), idx < states.length →
      (absorbColumn states c).getD idx [] = states.getD idx [] ++ [c.getD idx 0])
    ∧ buildLiftedLeaves cols
        = (List.range (2 ^ lastLog 1 cols)).map fun p =>
            LHash.leaf (cols.map fun c =>
              c.getD (shuffleIdx (lastLog 1 cols - ilog2 c.length) p) 0) := by
  refine ⟨?_, ?_, buildLiftedLeaves_spec cols hne hcols hpair⟩
  · intro states ratio width idx hidx
    unfold widenStates
    exact getD_range_map _ _ _ _ hidx
  · intro states c idx hidx
    unfold absorbColumn
    exact getD_range_map _ _ _ _ hidx

theorem C3_lifted_leaf_builder_witness :
    (∀ (states : List LState) (ratio width idx : Nat), idx < width →
      (widenStates states ratio width).getD idx []
        = states.getD (shuffleIdx ratio idx) [])
    ∧ (∀ (states : List LState) (c : List Nat) (idx : Nat), idx < states.length →
      (absorbColumn states c).getD idx [] = states.getD idx [] ++ [c.getD idx 0])
    ∧ buildLiftedLeaves [[1, 2], [3, 4, 5, 6]]
        = (List.range (2 ^ lastLog 1 [[1, 2], [3, 4, 5, 6]])).map fun p =>
            LHash.leaf ([[1, 2], [3, 4, 5, 6]].map fun c =>
              c.getD (shuffleIdx (lastLog 1 [[1, 2], [3, 4, 5, 6]]
                - ilog2 c.length) p) 0) :=
  C3_lifted_leaf_builder [[1, 2], [3, 4, 5, 6]] (by decide) (by decide) (by decide)

/-- Claim C4: one layer of the lifted hash-witness walk on sorted known
indices emits exactly the sibling hashes of the known indices whose sibling
`a ^ 1` is not itself known (a sibling pair consumes no witness entry), and
the known set of the next layer is the deduplicated list of parents
`a >> 1`; the full witness iterates this layer by layer from the leaves
toward the root. -/
theorem C4_lifted_hash_witness_walk (hashes : List LHash) (qs : List Nat)
    (hp : List.Pairwise (· < ·) qs) :
    (liftedLayerWalk hashes qs).1
      = ((qs.filter fun a => decide ((a ^^^ 1) ∉ qs)).map
          fun a => hashes.getD (a ^^^ 1) default)
    ∧ (liftedLayerWalk hashes qs).2 = vecDedup (qs.map fun a => a / 2)
    ∧ ∀ k, witSpecGo (k + 1) hashes qs
        = (liftedLayerWalk hashes qs).1
          ++ witSpecGo k (halveLayer hashes) (liftedLayerWalk hashes qs).2 := by
  refine ⟨?_, ?_, fun k => rfl⟩
  · rw [liftedLayerWalk_spec hashes qs hp]
  · rw [liftedLayerWalk_spec hashes qs hp]

theorem C4_lifted_hash_witness_walk_witness :
    (liftedLayerWalk [LHash.leaf [5], LHash.leaf [6], LHash.leaf [7],
        LHash.leaf [8]] [1, 2]).1
      = ((([1, 2] : List Nat).filter fun a => decide ((a ^^^ 1) ∉ [1, 2])).map
          fun a => [LHash.leaf [5], LHash.leaf [6], LHash.leaf [7],
            LHash.leaf [8]].getD (a ^^^ 1) default)
    ∧ (liftedLayerWalk [LHash.leaf [5], LHash.leaf [6], LHash.leaf [7],
        LHash.leaf [8]] [1, 2]).2 = vecDedup (([1, 2] : List Nat).map fun a => a / 2)
    ∧ ∀ k, witSpecGo (k + 1) [LHash.leaf [5], LHash.leaf [6], LHash.leaf [7],
        LHash.leaf [8]] [1, 2]
        = (liftedLayerWalk [LHash.leaf [5], LHash.leaf [6], LHash.leaf [7],
            LHash.leaf [8]] [1, 2]).1
          ++ witSpecGo k (halveLayer [LHash.leaf [5], LHash.leaf [6], LHash.leaf [7],
              LHash.leaf [8]])
            (liftedLayerWalk [LHash.leaf [5], LHash.leaf [6], LHash.leaf [7],
              LHash.leaf [8]] [1, 2]).2 :=
  C4_lifted_hash_witness_walk
    [LHash.leaf [5], LHash.leaf [6], LHash.leaf [7], LHash.leaf [8]] [1, 2]
    (by decide)

/-- Claim C5: in the grouped variant, layer `L` has `2^L` node hashes; the
hash at `(L, i)` is the external hash of (a) the pair of child hashes of
layer `L+1` at `2i, 2i+1` — absent at `L = maxL` — and (b) the values at
index `i` of every column whose log-size is `L` — the empty list when no
column has that size; layer `0` holds the single commitment root. -/
theorem C5_grouped_node_hash (cols : List (List Nat)) (Ls : List Nat) (L i : Nat)
    (hL : L ≤ maxLogSize Ls) (hi : i < 2 ^ L) :
    (gLayer (gColsBy cols Ls) (maxLogSize Ls) L).length = 2 ^ L
    ∧ (L = maxLogSize Ls →
        (gLayer (gColsBy cols Ls) (maxLogSize Ls) L).getD i default
          = hashNode none (gValsAt (gColsBy cols Ls) L i))
    ∧ (L < maxLogSize Ls →
        (gLayer (gColsBy cols Ls) (maxLogSize Ls) L).getD i default
          = hashNode (some
              ((gLayer (gColsBy cols Ls) (maxLogSize Ls) (L + 1)).getD (2 * i) default,
               (gLayer (gColsBy cols Ls) (maxLogSize Ls) (L + 1)).getD
                 (2 * i + 1) default))
              (gValsAt (gColsBy cols Ls) L i))
    ∧ ((Ls.filter fun x => x = L) = [] → gValsAt (gColsBy cols Ls) L i = [])
    ∧ groupedRoot (gColsBy cols Ls) (maxLogSize Ls)
        = (gLayer (gColsBy cols Ls) (maxLogSize Ls) 0).getD 0 default := by
  refine ⟨gLayer_length _ _ _ hL, ?_, ?_, ?_, rfl⟩
  · intro hLe
    subst hLe
    rw [gLayer_getD_top _ _ _ hi]
    rfl
  · intro hLlt
    rw [gLayer_getD_inner _ _ _ _ hLlt hi]
    rfl
  · intro hnone
    have hmem : ∀ x ∈ Ls, ¬(decide (x = L) = true) := by
      have := List.filter_eq_nil_iff.mp hnone
      simpa using this
    have hz : (Ls.zip cols).filter (fun p => decide (p.1 = L)) = [] := by
      apply List.filter_eq_nil_iff.mpr
      intro p hp
      exact hmem p.1 (List.of_mem_zip ((Prod.mk.eta (p := p)) ▸ hp)).1
    unfold gValsAt gColsBy
    rw [hz]
    rfl

theorem C5_grouped_node_hash_witness :
    (gLayer (gColsBy [[1, 2], [3, 4, 5, 6]] [1, 2]) (maxLogSize [1, 2]) 1).length
        = 2 ^ 1
    ∧ (1 = maxLogSize [1, 2] →
        (gLayer (gColsBy [[1, 2], [3, 4, 5, 6]] [1, 2]) (maxLogSize [1, 2]) 1).getD
            0 default
          = hashNode none (gValsAt (gColsBy [[1, 2], [3, 4, 5, 6]] [1, 2]) 1 0))
    ∧ (1 < maxLogSize [1, 2] →
        (gLayer (gColsBy [[1, 2], [3, 4, 5, 6]] [1, 2]) (maxLogSize [1, 2]) 1).getD
            0 default
          = hashNode (some
              ((gLayer (gColsBy [[1, 2], [3, 4, 5, 6]] [1, 2]) (maxLogSize [1, 2])
                  (1 + 1)).getD (2 * 0) default,
               (gLayer (gColsBy [[1, 2], [3, 4, 5, 6]] [1, 2]) (maxLogSize [1, 2])
                  (1 + 1)).getD (2 * 0 + 1) default))
              (gValsAt (gColsBy [[1, 2], [3, 4, 5, 6]] [1, 2]) 1 0))
    ∧ ((([1, 2] : List Nat).filter fun x => x = 1) = [] →
        gValsAt (gColsBy [[1, 2], [3, 4, 5, 6]] [1, 2]) 1 0 = [])
    ∧ groupedRoot (gColsBy [[1, 2], [3, 4, 5, 6]] [1, 2]) (maxLogSize [1, 2])
        = (gLayer (gColsBy [[1, 2], [3, 4, 5, 6]] [1, 2]) (maxLogSize [1, 2]) 0).getD
            0 default :=
  C5_grouped_node_hash [[1, 2], [3, 4, 5, 6]] [1, 2] 1 0 (by decide) (by decide)

/-- Claim C6: with fold step `F` (representable) and sorted in-range
queries, the FRI fold decommitment groups the queries into subsets sharing
`position >> F`; the decommitment positions are, per subset key in order,
the whole contiguous range `[key << F, key << F + 2^F)` (size `2^F`, in
strictly increasing order); every decommitment position's evaluation is
recorded in the value list, an explicit query consumes no witness slot,
and every other visited position's evaluation is appended to
`fri_witness`. -/
theorem C6_fri_subset_classification (column : List QM31) (qs : List Nat) (F : Nat)
    (hF : F < usizeBits) (hp : List.Pairwise (· < ·) qs)
    (hin : ∀ q ∈ qs, friInRange column F q) :
    computeFriDecommitOutputs column qs F
      = .ok (friDecPositions F qs,
             ((friDecPositions F qs).filter fun p => decide (p ∉ qs)).map
               (fun p => column.getD p default),
             (friDecPositions F qs).map fun p => column.getD p default)
    ∧ List.Pairwise (· < ·) (friDecPositions F qs)
    ∧ (∀ q ∈ qs, q ∈ friDecPositions F qs)
    ∧ ∀ K ∈ vecDedup (qs.map fun q => q >>> F),
        (List.range' (K <<< F) (1 <<< F)).length = 1 <<< F := by
  refine ⟨?_, friDecPositions_pairwise F qs hp, mem_friDecPositions F qs, ?_⟩
  · unfold computeFriDecommitOutputs
    rw [if_neg (by omega)]
    exact friOuterGo_spec column F qs.length qs le_rfl hp hin
  · intro K _
    exact List.length_range' _ _ _

theorem C6_fri_subset_classification_witness :
    computeFriDecommitOutputs
        [(1, 0, 0, 0), (2, 0, 0, 0), (3, 0, 0, 0), (4, 0, 0, 0)] [0, 3] 1
      = .ok (friDecPositions 1 [0, 3],
             ((friDecPositions 1 [0, 3]).filter fun p => decide (p ∉ [0, 3])).map
               (fun p => [(1, 0, 0, 0), (2, 0, 0, 0), (3, 0, 0, 0),
                 (4, 0, 0, 0)].getD p default),
             (friDecPositions 1 [0, 3]).map fun p =>
               [(1, 0, 0, 0), (2, 0, 0, 0), (3, 0, 0, 0), (4, 0, 0, 0)].getD p default)
    ∧ List.Pairwise (· < ·) (friDecPositions 1 [0, 3])
    ∧ (∀ q ∈ [0, 3], q ∈ friDecPositions 1 [0, 3])
    ∧ ∀ K ∈ vecDedup (([0, 3] : List Nat).map fun q => q >>> 1),
        (List.range' (K <<< 1) (1 <<< 1)).length = 1 <<< 1 :=
  C6_fri_subset_classification
    [(1, 0, 0, 0), (2, 0, 0, 0), (3, 0, 0, 0), (4, 0, 0, 0)] [0, 3] 1
    (by decide) (by decide) (by decide)

/-- Claim C7 (amended): the FRI fold decommitment returns
`FoldStepTooLarge` exactly when `usize::BITS ≤ F`, and this check takes
precedence over all others; otherwise it returns `QueryOutOfRange` exactly
when some query's subset-expanded contiguous range does not fit in the
column — which does NOT imply that a query position itself is out of
range — and for all other inputs it succeeds. -/
theorem C7_fri_errors (column : List QM31) (qs : List Nat) : ∀ F : Nat,
    (computeFriDecommitOutputs column qs F = .error .foldStepTooLarge
      ↔ usizeBits ≤ F)
    ∧ (F < usizeBits →
        (computeFriDecommitOutputs column qs F = .error .queryOutOfRange
          ↔ ∃ q ∈ qs, ¬ friInRange column F q))
    ∧ (F < usizeBits → (∀ q ∈ qs, friInRange column F q) →
        ∃ out, computeFriDecommitOutputs column qs F = .ok out) := by
  intro F
  refine ⟨⟨?_, ?_⟩, ?_, ?_⟩
  · intro h
    by_contra hlt
    unfold computeFriDecommitOutputs at h
    rw [if_neg hlt] at h
    have := friOuterGo_error_eq column F qs.length qs _ h
    cases this
  · intro h
    unfold computeFriDecommitOutputs
    rw [if_pos h]
  · intro hF
    constructor
    · intro h
      by_contra hno
      push_neg at hno
      obtain ⟨out, hout⟩ := friOuterGo_ok_of_inrange column F qs.length qs hno
      unfold computeFriDecommitOutputs friOuter at h
      rw [if_neg (by omega)] at h
      rw [hout] at h
      cases h
    · intro hov
      unfold computeFriDecommitOutputs friOuter
      rw [if_neg (by omega)]
      exact friOuterGo_err_of_overflow column F qs.length qs le_rfl hov
  · intro hF hin
    obtain ⟨out, hout⟩ := friOuterGo_ok_of_inrange column F qs.length qs hin
    refine ⟨out, ?_⟩
    unfold computeFriDecommitOutputs friOuter
    rw [if_neg (by omega)]
    exact hout

/-- The counterexample to C7 as stated: with a column of length `4 = 2^2`,
fold step `3` and the single query `0` — a position well inside
`[0, 2^L)` — the decommitment still fails with `QueryOutOfRange`, because
the subset-expanded range `[0, 8)` leaves the column.  The parenthetical
"(and hence some query position)" of the claim is therefore false. -/
theorem C7_fri_errors_counterexample :
    computeFriDecommitOutputs
        [(1, 0, 0, 0), (2, 0, 0, 0), (3, 0, 0, 0), (4, 0, 0, 0)] [0] 3
      = .error .queryOutOfRange
    ∧ ∀ q ∈ [0],
        q < [(1, 0, 0, 0), (2, 0, 0, 0), (3, 0, 0, 0), (4, 0, 0, 0)].length :=
  ⟨rfl, by decide⟩

/-- Claim C8: tamper-sensitivity and minimality of the hash witness — for
every valid decommitment, in both variants, appending one extra entry to
`hash_witness` flips the verifier to `WitnessTooLong`, and removing its
last entry (keeping the rest) makes verification fail; the hash-witness
length equals exactly the number of sibling positions not derivable from
the query set at any layer. -/
theorem C8_witness_tamper (cols : List (List Nat)) (Ls : List Nat) (qs : List Nat)
    (qsBy : Nat → List Nat) (h : ColumnsOk cols Ls)
    (hqp : List.Pairwise (· < ·) qs) (hqne : qs ≠ [])
    (hqb : ∀ x ∈ qs, x < 2 ^ maxLogSize Ls)
    (hgqs : ∀ L, ∀ x ∈ qsBy L, x < 2 ^ L)
    (hgqp : ∀ L, List.Pairwise (· < ·) (qsBy L)) :
    (∀ x : LHash, liftedVerify (liftedRoot cols Ls) Ls qs
        (liftedQueriedValues cols Ls qs)
        (liftedHashWitness cols Ls qs ++ [x]) = .witnessTooLong)
    ∧ (liftedHashWitness cols Ls qs ≠ [] →
        liftedVerify (liftedRoot cols Ls) Ls qs (liftedQueriedValues cols Ls qs)
          (liftedHashWitness cols Ls qs).dropLast ≠ .ok)
    ∧ (∀ x : GHash, groupedVerify (groupedRoot (gColsBy cols Ls) (maxLogSize Ls))
        Ls qsBy (groupedDecommit cols Ls qsBy).2.1
        ((groupedDecommit cols Ls qsBy).1 ++ [x])
        (groupedDecommit cols Ls qsBy).2.2 = .witnessTooLong)
    ∧ ((groupedDecommit cols Ls qsBy).1 ≠ [] →
        groupedVerify (groupedRoot (gColsBy cols Ls) (maxLogSize Ls)) Ls qsBy
          (groupedDecommit cols Ls qsBy).2.1
          ((groupedDecommit cols Ls qsBy).1).dropLast
          (groupedDecommit cols Ls qsBy).2.2 ≠ .ok)
    ∧ (liftedHashWitness cols Ls qs).length = liftedSiblingCount (maxLogSize Ls) qs
    ∧ (groupedDecommit cols Ls qsBy).1.length
        = gSiblingCount (gColsBy cols Ls) qsBy (maxLogSize Ls)
            (maxLogSize Ls + 1) [] :=
  ⟨fun x => liftedTamperLong h hqp hqne hqb x,
   liftedTamperShort h hqp hqne hqb,
   fun x => groupedTamperLong cols Ls qsBy h.1 hgqs hgqp x,
   groupedTamperShort cols Ls qsBy h.1 hgqs hgqp,
   liftedHashWitness_length h hqp,
   groupedDecommit_hw_length cols Ls qsBy hgqp⟩

theorem C8_witness_tamper_witness :
    (∀ x : LHash, liftedVerify (liftedRoot [[1, 2], [3, 4, 5, 6]] [1, 2]) [1, 2] [1]
        (liftedQueriedValues [[1, 2], [3, 4, 5, 6]] [1, 2] [1])
        (liftedHashWitness [[1, 2], [3, 4, 5, 6]] [1, 2] [1] ++ [x])
        = .witnessTooLong)
    ∧ (liftedHashWitness [[1, 2], [3, 4, 5, 6]] [1, 2] [1] ≠ [] →
        liftedVerify (liftedRoot [[1, 2], [3, 4, 5, 6]] [1, 2]) [1, 2] [1]
          (liftedQueriedValues [[1, 2], [3, 4, 5, 6]] [1, 2] [1])
          (liftedHashWitness [[1, 2], [3, 4, 5, 6]] [1, 2] [1]).dropLast ≠ .ok)
    ∧ (∀ x : GHash, groupedVerify
        (groupedRoot (gColsBy [[1, 2], [3, 4, 5, 6]] [1, 2]) (maxLogSize [1, 2]))
        [1, 2] (fun L => if L = 2 then [2] else [])
        (groupedDecommit [[1, 2], [3, 4, 5, 6]] [1, 2]
          (fun L => if L = 2 then [2] else [])).2.1
        ((groupedDecommit [[1, 2], [3, 4, 5, 6]] [1, 2]
          (fun L => if L = 2 then [2] else [])).1 ++ [x])
        (groupedDecommit [[1, 2], [3, 4, 5, 6]] [1, 2]
          (fun L => if L = 2 then [2] else [])).2.2 = .witnessTooLong)
    ∧ ((groupedDecommit [[1, 2], [3, 4, 5, 6]] [1, 2]
          (fun L => if L = 2 then [2] else [])).1 ≠ [] →
        groupedVerify
          (groupedRoot (gColsBy [[1, 2], [3, 4, 5, 6]] [1, 2]) (maxLogSize [1, 2]))
          [1, 2] (fun L => if L = 2 then [2] else [])
          (groupedDecommit [[1, 2], [3, 4, 5, 6]] [1, 2]
            (fun L => if L = 2 then [2] else [])).2.1
          ((groupedDecommit [[1, 2], [3, 4, 5, 6]] [1, 2]
            (fun L => if L = 2 then [2] else [])).1).dropLast
          (groupedDecommit [[1, 2], [3, 4, 5, 6]] [1, 2]
            (fun L => if L = 2 then [2] else [])).2.2 ≠ .ok)
    ∧ (liftedHashWitness [[1, 2], [3, 4, 5, 6]] [1, 2] [1]).length
        = liftedSiblingCount (maxLogSize [1, 2]) [1]
    ∧ (groupedDecommit [[1, 2], [3, 4, 5, 6]] [1, 2]
          (fun L => if L = 2 then [2] else [])).1.length
        = gSiblingCount (gColsBy [[1, 2], [3, 4, 5, 6]] [1, 2])
            (fun L => if L = 2 then [2] else []) (maxLogSize [1, 2])
            (maxLogSize [1, 2] + 1) [] :=
  C8_witness_tamper [[1, 2], [3, 4, 5, 6]] [1, 2] [1]
    (fun L => if L = 2 then [2] else [])
    (by decide) (by decide) (by decide) (by decide)
    (by
      intro L x hx
      by_cases h2 : L = 2
      · subst h2
        simp at hx
        subst hx
        norm_num
      · simp [h2] at hx)
    (by
      intro L
      by_cases h2 : L = 2
      · subst h2
        simp
      · simp [h2])

/-- Claim C9: the concrete lifted scenario — a single column `[a, b, c, d]`
of log-size 2 committed alone, querying position 1, returns
`queried_values = [[b]]`; the hash witness holds `H(leaf(0))` (here
`leaf [a]`) followed by the layer-1 sibling hash, and when position 0 is
queried in the same pair the leaf layer emits no witness entry; the
verifier reconstructs the precomputed root from the queried value `b` and
that witness. -/
theorem C9_concrete_scenario (a b c d : Nat) :
    liftedQueriedValues [[a, b, c, d]] [2] [1] = [[b]]
    ∧ liftedHashWitness [[a, b, c, d]] [2] [1]
        = [LHash.leaf [a], LHash.node (LHash.leaf [c]) (LHash.leaf [d])]
    ∧ liftedHashWitness [[a, b, c, d]] [2] [0, 1]
        = [LHash.node (LHash.leaf [c]) (LHash.leaf [d])]
    ∧ liftedVerify (liftedRoot [[a, b, c, d]] [2]) [2] [1] [[b]]
        [LHash.leaf [a], LHash.node (LHash.leaf [c]) (LHash.leaf [d])] = .ok := by
  have hcol : ColumnsOk [[a, b, c, d]] [2] := by
    refine ⟨rfl, by simp, ?_⟩
    intro i hi
    simp only [List.length_cons, List.length_nil] at hi
    interval_cases i
    constructor
    · rfl
    · norm_num
  have hsi : sortedIndices [2] = [0] := by decide
  have hm : maxLogSize [2] = 2 := rfl
  have hleaves : liftedLeaves [[a, b, c, d]] [2]
      = [LHash.leaf [a], LHash.leaf [b], LHash.leaf [c], LHash.leaf [d]] := by
    rw [liftedLeaves_spec hcol, hm, hsi]
    simp [List.range_succ, shuffleIdx]
  have hlvlen := liftedLeaves_length hcol
  have hmaxlog : liftedMaxLog (liftedLeaves [[a, b, c, d]] [2]) = 2 := by
    rw [← hm]
    exact liftedMaxLog_pow hlvlen
  have hq : liftedQueriedValues [[a, b, c, d]] [2] [1] = [[b]] := by
    unfold liftedQueriedValues
    simp only [List.map_cons, List.map_nil, hmaxlog]
    norm_num [shuffleIdx, ilog2, ilog2Go]
    rw [show (1 >>> 1 <<< 1 : Nat) = 0 from rfl]
    rfl
  have hhalve : halveLayer [LHash.leaf [a], LHash.leaf [b], LHash.leaf [c],
      LHash.leaf [d]]
      = [LHash.node (LHash.leaf [a]) (LHash.leaf [b]),
         LHash.node (LHash.leaf [c]) (LHash.leaf [d])] := by
    unfold halveLayer
    rw [show ([LHash.leaf [a], LHash.leaf [b], LHash.leaf [c],
        LHash.leaf [d]].length) = 4 from rfl, show (4 >>> 1 : Nat) = 2 from rfl]
    norm_num [List.range_succ]
  have hw1 : liftedHashWitness [[a, b, c, d]] [2] [1]
      = [LHash.leaf [a], LHash.node (LHash.leaf [c]) (LHash.leaf [d])] := by
    rw [liftedWitness_eq hcol (by simp), hm, hleaves]
    rw [show witSpecGo 2 [LHash.leaf [a], LHash.leaf [b], LHash.leaf [c],
        LHash.leaf [d]] [1]
        = (liftedLayerWalk [LHash.leaf [a], LHash.leaf [b], LHash.leaf [c],
            LHash.leaf [d]] [1]).1
          ++ witSpecGo 1 (halveLayer [LHash.leaf [a], LHash.leaf [b], LHash.leaf [c],
              LHash.leaf [d]])
            (liftedLayerWalk [LHash.leaf [a], LHash.leaf [b], LHash.leaf [c],
              LHash.leaf [d]] [1]).2 from rfl]
    rw [show liftedLayerWalk [LHash.leaf [a], LHash.leaf [b], LHash.leaf [c],
        LHash.leaf [d]] [1] = ([LHash.leaf [a]], [0]) from rfl]
    rw [hhalve]
    rw [show witSpecGo 1 [LHash.node (LHash.leaf [a]) (LHash.leaf [b]),
        LHash.node (LHash.leaf [c]) (LHash.leaf [d])] [0]
        = [LHash.node (LHash.leaf [c]) (LHash.leaf [d])] from rfl]
    rfl
  have hw01 : liftedHashWitness [[a, b, c, d]] [2] [0, 1]
      = [LHash.node (LHash.leaf [c]) (LHash.leaf [d])] := by
    rw [liftedWitness_eq hcol (by simp), hm, hleaves]
    rw [show witSpecGo 2 [LHash.leaf [a], LHash.leaf [b], LHash.leaf [c],
        LHash.leaf [d]] [0, 1]
        = (liftedLayerWalk [LHash.leaf [a], LHash.leaf [b], LHash.leaf [c],
            LHash.leaf [d]] [0, 1]).1
          ++ witSpecGo 1 (halveLayer [LHash.leaf [a], LHash.leaf [b], LHash.leaf [c],
              LHash.leaf [d]])
            (liftedLayerWalk [LHash.leaf [a], LHash.leaf [b], LHash.leaf [c],
              LHash.leaf [d]] [0, 1]).2 from rfl]
    rw [show liftedLayerWalk [LHash.leaf [a], LHash.leaf [b], LHash.leaf [c],
        LHash.leaf [d]] [0, 1] = ([], [0]) from rfl]
    rw [hhalve]
    rw [show witSpecGo 1 [LHash.node (LHash.leaf [a]) (LHash.leaf [b]),
        LHash.node (LHash.leaf [c]) (LHash.leaf [d])] [0]
        = [LHash.node (LHash.leaf [c]) (LHash.leaf [d])] from rfl]
    rfl
  refine ⟨hq, hw1, hw01, ?_⟩
  have hrt := @liftedRoundTrip [[a, b, c, d]] [2] [1] hcol (by decide) (by decide)
    (by decide)
  rw [hq, hw1] at hrt
  exact hrt

/-- Claim C10: implicit shape invariants — the lifted `queried_values` has
exactly one inner vector per committed column in commitment order, each of
length exactly the number of query positions (values repeat rather than
dedup when distinct positions share a local index); and a successful FRI
fold decommitment on sorted deduplicated in-range queries satisfies
`|fri_witness| = |decommitment_positions| - |queries|` with strictly
increasing decommitment positions. -/
theorem C10_shape_invariants (cols : List (List Nat)) (Ls : List Nat) (qs : List Nat)
    (column : List QM31) (qsF : List Nat) (F : Nat)
    (h : ColumnsOk cols Ls) (i : Nat) (hi : i < cols.length)
    (hF : F < usizeBits) (hpF : List.Pairwise (· < ·) qsF)
    (hinF : ∀ q ∈ qsF, friInRange column F q) :
    (liftedQueriedValues cols Ls qs).length = cols.length
    ∧ (liftedQueriedValues cols Ls qs).getD i []
        = qs.map (fun p => (cols.getD i []).getD
            (shuffleIdx (maxLogSize Ls - Ls.getD i 0) p) 0)
    ∧ ((liftedQueriedValues cols Ls qs).getD i []).length = qs.length
    ∧ (∀ p1 p2 : Nat, shuffleIdx (maxLogSize Ls - Ls.getD i 0) p1
          = shuffleIdx (maxLogSize Ls - Ls.getD i 0) p2 →
        (cols.getD i []).getD (shuffleIdx (maxLogSize Ls - Ls.getD i 0) p1) 0
          = (cols.getD i []).getD (shuffleIdx (maxLogSize Ls - Ls.getD i 0) p2) 0)
    ∧ ∃ dec fw vals, computeFriDecommitOutputs column qsF F = .ok (dec, fw, vals)
        ∧ fw.length = dec.length - qsF.length
        ∧ vals.length = dec.length
        ∧ List.Pairwise (· < ·) dec := by
  have hlvlen := liftedLeaves_length h
  have hmaxlog : liftedMaxLog (liftedLeaves cols Ls) = maxLogSize Ls :=
    liftedMaxLog_pow hlvlen
  have hil : i < Ls.length := by
    rw [← h.1]
    exact hi
  have hcolform : (liftedQueriedValues cols Ls qs).getD i []
      = qs.map (fun p => (cols.getD i []).getD
          (shuffleIdx (maxLogSize Ls - Ls.getD i 0) p) 0) := by
    unfold liftedQueriedValues
    rw [getD_map_lists _ cols i hi]
    simp only [hmaxlog, columnsOk_ilog2 h hil]
  refine ⟨by simp [liftedQueriedValues], hcolform, ?_, ?_, ?_⟩
  · rw [hcolform]
    simp
  · intro p1 p2 hp
    rw [hp]
  · refine ⟨friDecPositions F qsF,
      ((friDecPositions F qsF).filter fun p => decide (p ∉ qsF)).map
        (fun p => column.getD p default),
      (friDecPositions F qsF).map fun p => column.getD p default, ?_, ?_, ?_, ?_⟩
    · unfold computeFriDecommitOutputs
      rw [if_neg (by omega)]
      exact friOuterGo_spec column F qsF.length qsF le_rfl hpF hinF
    · rw [List.length_map]
      exact friWitness_length F qsF hpF
    · rw [List.length_map]
    · exact friDecPositions_pairwise F qsF hpF

theorem C10_shape_invariants_witness :
    (liftedQueriedValues [[1, 2], [3, 4, 5, 6]] [1, 2] [0, 3]).length
        = ([[1, 2], [3, 4, 5, 6]] : List (List Nat)).length
    ∧ (liftedQueriedValues [[1, 2], [3, 4, 5, 6]] [1, 2] [0, 3]).getD 1 []
        = ([0, 3] : List Nat).map (fun p =>
            (([[1, 2], [3, 4, 5, 6]] : List (List Nat)).getD 1 []).getD
              (shuffleIdx (maxLogSize [1, 2] - ([1, 2] : List Nat).getD 1 0) p) 0)
    ∧ ((liftedQueriedValues [[1, 2], [3, 4, 5, 6]] [1, 2] [0, 3]).getD 1 []).length
        = ([0, 3] : List Nat).length
    ∧ (∀ p1 p2 : Nat,
        shuffleIdx (maxLogSize [1, 2] - ([1, 2] : List Nat).getD 1 0) p1
          = shuffleIdx (maxLogSize [1, 2] - ([1, 2] : List Nat).getD 1 0) p2 →
        (([[1, 2], [3, 4, 5, 6]] : List (List Nat)).getD 1 []).getD
            (shuffleIdx (maxLogSize [1, 2] - ([1, 2] : List Nat).getD 1 0) p1) 0
          = (([[1, 2], [3, 4, 5, 6]] : List (List Nat)).getD 1 []).getD
              (shuffleIdx (maxLogSize [1, 2] - ([1, 2] : List Nat).getD 1 0) p2) 0)
    ∧ ∃ dec fw vals, computeFriDecommitOutputs
          [(1, 0, 0, 0), (2, 0, 0, 0), (3, 0, 0, 0), (4, 0, 0, 0)] [0, 3] 1
          = .ok (dec, fw, vals)
        ∧ fw.length = dec.length - ([0, 3] : List Nat).length
        ∧ vals.length = dec.length
        ∧ List.Pairwise (· < ·) dec :=
  C10_shape_invariants [[1, 2], [3, 4, 5, 6]] [1, 2] [0, 3]
    [(1, 0, 0, 0), (2, 0, 0, 0), (3, 0, 0, 0), (4, 0, 0, 0)] [0, 3] 1
    (by decide) 1 (by decide) (by decide) (by decide) (by decide)

end Stwo
